import Mathlib

/-!
Verification of the cm256 Cauchy Reed-Solomon erasure code core
(`src/kernel/cm256.c`) against its natural-language specification.

The GF(256) arithmetic backend (`gf256_*`) is an external collaborator of
the core: its implementation is not part of the repository sources, so it
is modelled from the specification (spec.md section 6): addition is byte
XOR and multiplication is polynomial multiplication modulo a fixed
degree-8 irreducible polynomial (we fix 0x11D).  All cm256 definitions
are translated from `src/kernel/cm256.c`.
-/

set_option maxRecDepth 100000
set_option maxHeartbeats 4000000

namespace CM256

/-! ### GF(256) backend, modelled from the spec

Field elements are bytes.  We first define the arithmetic on `Nat`
(restricted to values `< 256`) and then package it as a field structure
`GF`. -/

/-- Modelled from the spec: multiplication by x (the polynomial 0b10) in
GF(256), reducing by the irreducible polynomial 0x11D when the result
overflows 8 bits. -/
def xtimeNat (a : Nat) : Nat :=
  if 256 ≤ a <<< 1 then (a <<< 1) ^^^ 285 else a <<< 1

/-- Modelled from the spec: carry-less (polynomial) multiplication with
interleaved reduction; `n` is the number of remaining multiplier bits. -/
def mulAuxNat : Nat → Nat → Nat → Nat
  | 0, _, _ => 0
  | n + 1, a, b =>
      (if b.testBit 0 then a else 0) ^^^ mulAuxNat n (xtimeNat a) (b >>> 1)

/-- Modelled from the spec: GF(256) multiplication of two bytes. -/
def gfMulNat (a b : Nat) : Nat := mulAuxNat 8 a b

/-- Modelled from the spec: the table of multiplicative inverses in
GF(256) for the polynomial 0x11D (entry 0 maps to 0), as the collaborator
would hold after initialization. -/
def gfInvTable : List Nat :=
  [0, 1, 142, 244, 71, 167, 122, 186, 173, 157, 221, 152, 61, 170, 93, 150,
   216, 114, 192, 88, 224, 62, 76, 102, 144, 222, 85, 128, 160, 131, 75, 42,
   108, 237, 57, 81, 96, 86, 44, 138, 112, 208, 31, 74, 38, 139, 51, 110,
   72, 137, 111, 46, 164, 195, 64, 94, 80, 34, 207, 169, 171, 12, 21, 225,
   54, 95, 248, 213, 146, 78, 166, 4, 48, 136, 43, 30, 22, 103, 69, 147,
   56, 35, 104, 140, 129, 26, 37, 97, 19, 193, 203, 99, 151, 14, 55, 65,
   36, 87, 202, 91, 185, 196, 23, 77, 82, 141, 239, 179, 32, 236, 47, 50,
   40, 209, 17, 217, 233, 251, 218, 121, 219, 119, 6, 187, 132, 205, 254, 252,
   27, 84, 161, 29, 124, 204, 228, 176, 73, 49, 39, 45, 83, 105, 2, 245,
   24, 223, 68, 79, 155, 188, 15, 92, 11, 220, 189, 148, 172, 9, 199, 162,
   28, 130, 159, 198, 52, 194, 70, 5, 206, 59, 13, 60, 156, 8, 190, 183,
   135, 229, 238, 107, 235, 242, 191, 175, 197, 100, 7, 123, 149, 154, 174, 182,
   18, 89, 165, 53, 101, 184, 163, 158, 210, 247, 98, 90, 133, 125, 168, 58,
   41, 113, 200, 246, 249, 67, 215, 214, 16, 115, 118, 120, 153, 10, 25, 145,
   20, 63, 230, 240, 134, 177, 226, 241, 250, 116, 243, 180, 109, 33, 178, 106,
   227, 231, 181, 234, 3, 143, 211, 201, 66, 212, 232, 117, 127, 255, 126, 253]

/-- Modelled from the spec: multiplicative inverse; maps 0 to 0. -/
def gfInvNat (a : Nat) : Nat := gfInvTable.getD a 0

theorem xtimeNat_lt {a : Nat} (h : a < 256) : xtimeNat a < 256 := by
  have h2 : a <<< 1 < 512 := by
    rw [Nat.shiftLeft_eq]; omega
  have key : ∀ s < 512, 256 ≤ s → s ^^^ 285 < 256 := by decide
  unfold xtimeNat
  split
  · exact key _ h2 (by assumption)
  · omega

theorem mulAuxNat_lt {n a b : Nat} (h : a < 256) : mulAuxNat n a b < 256 := by
  induction n generalizing a b with
  | zero => simp [mulAuxNat]
  | succ n ih =>
      unfold mulAuxNat
      exact Nat.xor_lt_two_pow (n := 8) (by split <;> omega) (ih (xtimeNat_lt h))

theorem gfMulNat_lt {a b : Nat} (h : a < 256) : gfMulNat a b < 256 :=
  mulAuxNat_lt h

theorem gfInvNat_lt (a : Nat) : gfInvNat a < 256 := by
  by_cases h : a < 256
  · exact (by decide : ∀ a < 256, gfInvNat a < 256) a h
  · unfold gfInvNat
    rw [List.getD_eq_default]
    · omega
    · have : gfInvTable.length = 256 := by decide
      omega

theorem shiftRight_one_xor (b c : Nat) :
    (b ^^^ c) >>> 1 = (b >>> 1) ^^^ (c >>> 1) := by
  apply Nat.eq_of_testBit_eq
  intro i
  simp [Nat.testBit_shiftRight, Nat.testBit_xor]

theorem xor_four_swap (p q r s : Nat) :
    (p ^^^ q) ^^^ (r ^^^ s) = (p ^^^ r) ^^^ (q ^^^ s) := by
  rw [Nat.xor_assoc, Nat.xor_assoc]
  congr 1
  rw [← Nat.xor_assoc, ← Nat.xor_assoc]
  congr 1
  exact Nat.xor_comm _ _

theorem mulAuxNat_xor_right (n a b c : Nat) :
    mulAuxNat n a (b ^^^ c) = mulAuxNat n a b ^^^ mulAuxNat n a c := by
  induction n generalizing a b c with
  | zero => simp [mulAuxNat]
  | succ n ih =>
      show (if (b ^^^ c).testBit 0 then a else 0) ^^^ mulAuxNat n (xtimeNat a) ((b ^^^ c) >>> 1)
        = _
      rw [shiftRight_one_xor, ih, Nat.testBit_xor]
      have hsplit : (if ((b.testBit 0).xor (c.testBit 0)) = true then a else 0)
          = (if b.testBit 0 then a else 0) ^^^ (if c.testBit 0 then a else 0) := by
        cases b.testBit 0 <;> cases c.testBit 0 <;> simp [Nat.xor_self]
      rw [hsplit, xor_four_swap]
      rfl

theorem xor_right_swap (p q r : Nat) : (p ^^^ q) ^^^ r = (p ^^^ r) ^^^ q := by
  rw [Nat.xor_assoc, Nat.xor_comm q r, ← Nat.xor_assoc]

theorem xtimeNat_xor : ∀ x < 256, ∀ y < 256,
    xtimeNat (x ^^^ y) = xtimeNat x ^^^ xtimeNat y := by
  have hch : ∀ s < 512, (256 ≤ s ↔ s.testBit 8 = true) := by decide
  intro x hx y hy
  have hsx : x <<< 1 < 512 := by rw [Nat.shiftLeft_eq]; omega
  have hsy : y <<< 1 < 512 := by rw [Nat.shiftLeft_eq]; omega
  have hse : (x ^^^ y) <<< 1 = (x <<< 1) ^^^ (y <<< 1) := by
    apply Nat.eq_of_testBit_eq
    intro i
    cases i with
    | zero =>
        have l1 : ((x ^^^ y) <<< 1).testBit 0 = false := by
          rw [Nat.testBit_shiftLeft]; rfl
        have l2 : (((x <<< 1)) ^^^ ((y <<< 1))).testBit 0 = false := by
          rw [Nat.testBit_xor, Nat.testBit_shiftLeft, Nat.testBit_shiftLeft]; rfl
        rw [l1, l2]
    | succ n =>
        simp [Nat.testBit_shiftLeft, Nat.testBit_xor]
  have hxy512 : (x <<< 1) ^^^ (y <<< 1) < 512 :=
    Nat.xor_lt_two_pow (n := 9) hsx hsy
  have hbit : ((x <<< 1) ^^^ (y <<< 1)).testBit 8
      = (((x <<< 1).testBit 8)).xor ((y <<< 1).testBit 8) := by
    simp [Nat.testBit_xor]
  unfold xtimeNat
  rw [hse]
  by_cases h1 : 256 ≤ x <<< 1 <;> by_cases h2 : 256 ≤ y <<< 1
  · have b1 := (hch _ hsx).mp h1
    have b2 := (hch _ hsy).mp h2
    have hb : ¬ 256 ≤ (x <<< 1) ^^^ (y <<< 1) := by
      intro hc
      have := (hch _ hxy512).mp hc
      rw [hbit, b1, b2] at this
      simp at this
    rw [if_neg hb, if_pos h1, if_pos h2, xor_four_swap, Nat.xor_self, Nat.xor_zero]
  · have b1 := (hch _ hsx).mp h1
    have b2 : (y <<< 1).testBit 8 = false :=
      Bool.eq_false_iff.mpr fun hbt => h2 ((hch _ hsy).mpr hbt)
    have hb : 256 ≤ (x <<< 1) ^^^ (y <<< 1) := by
      refine (hch _ hxy512).mpr ?_
      rw [hbit, b1, b2]
      rfl
    rw [if_pos hb, if_pos h1, if_neg h2, xor_right_swap]
  · have b1 : (x <<< 1).testBit 8 = false :=
      Bool.eq_false_iff.mpr fun hbt => h1 ((hch _ hsx).mpr hbt)
    have b2 := (hch _ hsy).mp h2
    have hb : 256 ≤ (x <<< 1) ^^^ (y <<< 1) := by
      refine (hch _ hxy512).mpr ?_
      rw [hbit, b1, b2]
      rfl
    rw [if_pos hb, if_neg h1, if_pos h2, Nat.xor_assoc]
  · have b1 : (x <<< 1).testBit 8 = false :=
      Bool.eq_false_iff.mpr fun hbt => h1 ((hch _ hsx).mpr hbt)
    have b2 : (y <<< 1).testBit 8 = false :=
      Bool.eq_false_iff.mpr fun hbt => h2 ((hch _ hsy).mpr hbt)
    have hb : ¬ 256 ≤ (x <<< 1) ^^^ (y <<< 1) := by
      intro hc
      have := (hch _ hxy512).mp hc
      rw [hbit, b1, b2] at this
      simp at this
    rw [if_neg hb, if_neg h1, if_neg h2]

theorem mulAuxNat_xor_left (n : Nat) : ∀ a1 < 256, ∀ a2 < 256, ∀ b : Nat,
    mulAuxNat n (a1 ^^^ a2) b = mulAuxNat n a1 b ^^^ mulAuxNat n a2 b := by
  induction n with
  | zero => simp [mulAuxNat]
  | succ n ih =>
      intro a1 h1 a2 h2 b
      show (if b.testBit 0 then a1 ^^^ a2 else 0) ^^^
          mulAuxNat n (xtimeNat (a1 ^^^ a2)) (b >>> 1) = _
      rw [xtimeNat_xor a1 h1 a2 h2,
        ih _ (xtimeNat_lt h1) _ (xtimeNat_lt h2)]
      have hsplit : (if b.testBit 0 then a1 ^^^ a2 else 0)
          = (if b.testBit 0 then a1 else 0) ^^^ (if b.testBit 0 then a2 else 0) := by
        cases b.testBit 0 <;> simp
      rw [hsplit, xor_four_swap]
      rfl

theorem gfMulNat_xor_right (a b c : Nat) :
    gfMulNat a (b ^^^ c) = gfMulNat a b ^^^ gfMulNat a c :=
  mulAuxNat_xor_right 8 a b c

theorem gfMulNat_xor_left {a1 a2 : Nat} (h1 : a1 < 256) (h2 : a2 < 256) (b : Nat) :
    gfMulNat (a1 ^^^ a2) b = gfMulNat a1 b ^^^ gfMulNat a2 b :=
  mulAuxNat_xor_left 8 a1 h1 a2 h2 b

theorem mulAuxNat_zero_left (n b : Nat) : mulAuxNat n 0 b = 0 := by
  induction n generalizing b with
  | zero => rfl
  | succ n ih =>
      show (if b.testBit 0 then 0 else 0) ^^^ mulAuxNat n (xtimeNat 0) (b >>> 1) = 0
      have hxt : xtimeNat 0 = 0 := rfl
      rw [hxt, ih]
      cases b.testBit 0 <;> rfl

theorem mulAuxNat_zero_right (n a : Nat) : mulAuxNat n a 0 = 0 := by
  induction n generalizing a with
  | zero => rfl
  | succ n ih =>
      show (if (0 : Nat).testBit 0 then a else 0) ^^^ mulAuxNat n (xtimeNat a) (0 >>> 1) = 0
      simpa using ih (xtimeNat a)

theorem gfMulNat_zero_left (b : Nat) : gfMulNat 0 b = 0 := mulAuxNat_zero_left 8 b

theorem gfMulNat_zero_right (a : Nat) : gfMulNat a 0 = 0 := mulAuxNat_zero_right 8 a

theorem gfMulNat_one_left : ∀ b < 256, gfMulNat 1 b = b := by decide

theorem gfMulNat_one_right : ∀ a < 256, gfMulNat a 1 = a := by decide

/-- Position of the highest set bit, with enough fuel for bytes. -/
def topBitAux : Nat → Nat → Nat
  | 0, _ => 0
  | f + 1, n => if n < 2 then 0 else topBitAux f (n / 2) + 1

def topBit (n : Nat) : Nat := topBitAux 8 n

theorem topBit_facts : ∀ a < 256, a ≠ 0 →
    topBit a < 8 ∧ 2 ^ topBit a ≤ a ∧ a ^^^ 2 ^ topBit a = a % 2 ^ topBit a := by
  decide

/-- Induction over bytes by XOR decomposition into powers of two. -/
theorem xor_induction (P : Nat → Prop) (h0 : P 0) (hp : ∀ i < 8, P (2 ^ i))
    (hx : ∀ x < 256, ∀ y < 256, P x → P y → P (x ^^^ y)) :
    ∀ a < 256, P a := by
  intro a
  induction a using Nat.strong_induction_on with
  | _ a ih =>
    intro ha
    rcases Nat.eq_zero_or_pos a with rfl | hpos
    · exact h0
    have haz : a ≠ 0 := by omega
    obtain ⟨hi8, hple, hkey⟩ := topBit_facts a ha haz
    have hplt : 2 ^ topBit a < 256 := by
      calc 2 ^ topBit a < 2 ^ 8 := Nat.pow_lt_pow_right (by omega) hi8
      _ = 256 := rfl
    have hblt : a % 2 ^ topBit a < 2 ^ topBit a := Nat.mod_lt _ (Nat.two_pow_pos _)
    have hba : a % 2 ^ topBit a < a := lt_of_lt_of_le hblt hple
    have hPb : P (a % 2 ^ topBit a) := ih _ hba (by omega)
    have hPp : P (2 ^ topBit a) := hp _ hi8
    have := hx _ (by omega) _ hplt hPb hPp
    rwa [← hkey, Nat.xor_cancel_right] at this

theorem gfMulNat_comm_pow : ∀ i < 8, ∀ j < 8,
    gfMulNat (2 ^ i) (2 ^ j) = gfMulNat (2 ^ j) (2 ^ i) := by decide

theorem gfMulNat_comm : ∀ a < 256, ∀ b < 256, gfMulNat a b = gfMulNat b a := by
  have stage1 : ∀ a < 256, ∀ j < 8, gfMulNat a (2 ^ j) = gfMulNat (2 ^ j) a := by
    refine xor_induction _ ?_ ?_ ?_
    · intro j _
      rw [gfMulNat_zero_left, gfMulNat_zero_right]
    · intro i hi j hj
      exact gfMulNat_comm_pow i hi j hj
    · intro x hx y hy ihx ihy j hj
      have hj2 : (2 : Nat) ^ j < 256 := by
        calc (2:Nat) ^ j < 2 ^ 8 := Nat.pow_lt_pow_right (by omega) hj
        _ = 256 := rfl
      rw [gfMulNat_xor_left hx hy, ihx j hj, ihy j hj, ← gfMulNat_xor_right]
  refine xor_induction _ ?_ ?_ ?_
  · intro b _
    rw [gfMulNat_zero_left, gfMulNat_zero_right]
  · intro j hj b hb
    exact (stage1 b hb j hj).symm
  · intro x hx y hy ihx ihy b hb
    rw [gfMulNat_xor_left hx hy, ihx b hb, ihy b hb, ← gfMulNat_xor_right]

theorem gfMulNat_assoc_pow : ∀ i < 8, ∀ j < 8, ∀ k < 8,
    gfMulNat (gfMulNat (2 ^ i) (2 ^ j)) (2 ^ k)
      = gfMulNat (2 ^ i) (gfMulNat (2 ^ j) (2 ^ k)) := by decide

theorem gfMulNat_assoc : ∀ a < 256, ∀ b < 256, ∀ c < 256,
    gfMulNat (gfMulNat a b) c = gfMulNat a (gfMulNat b c) := by
  -- Stage 1: the last two arguments are powers of two, reduce the first.
  have stage1 : ∀ a < 256, ∀ j < 8, ∀ k < 8,
      gfMulNat (gfMulNat a (2 ^ j)) (2 ^ k) = gfMulNat a (gfMulNat (2 ^ j) (2 ^ k)) := by
    refine xor_induction _ ?_ ?_ ?_
    · intro j _ k _
      rw [gfMulNat_zero_left, gfMulNat_zero_left, gfMulNat_zero_left]
    · intro i hi j hj k hk
      exact gfMulNat_assoc_pow i hi j hj k hk
    · intro x hx y hy ihx ihy j hj k hk
      rw [gfMulNat_xor_left hx hy,
        gfMulNat_xor_left (gfMulNat_lt hx) (gfMulNat_lt hy),
        ihx j hj k hk, ihy j hj k hk, ← gfMulNat_xor_left hx hy]
  -- Stage 2: reduce the middle argument.
  have stage2 : ∀ b < 256, ∀ a < 256, ∀ k < 8,
      gfMulNat (gfMulNat a b) (2 ^ k) = gfMulNat a (gfMulNat b (2 ^ k)) := by
    refine xor_induction _ ?_ ?_ ?_
    · intro a _ k _
      rw [gfMulNat_zero_right, gfMulNat_zero_left, gfMulNat_zero_right]
    · intro j hj a ha k hk
      exact stage1 a ha j hj k hk
    · intro x hx y hy ihx ihy a ha k hk
      rw [gfMulNat_xor_right, gfMulNat_xor_left (gfMulNat_lt ha) (gfMulNat_lt ha),
        ihx a ha k hk, ihy a ha k hk, ← gfMulNat_xor_right,
        ← gfMulNat_xor_left hx hy]
  -- Stage 3: reduce the last argument.
  have stage3 : ∀ c < 256, ∀ a < 256, ∀ b < 256,
      gfMulNat (gfMulNat a b) c = gfMulNat a (gfMulNat b c) := by
    refine xor_induction _ ?_ ?_ ?_
    · intro a _ b _
      rw [gfMulNat_zero_right, gfMulNat_zero_right, gfMulNat_zero_right]
    · intro k hk a ha b hb
      exact stage2 b hb a ha k hk
    · intro x hx y hy ihx ihy a ha b hb
      rw [gfMulNat_xor_right, gfMulNat_xor_right, ihx a ha b hb, ihy a ha b hb,
        ← gfMulNat_xor_right]
  intro a ha b hb c hc
  exact stage3 c hc a ha b hb

theorem gfMulNat_inv_cancel : ∀ a < 256, a ≠ 0 → gfMulNat a (gfInvNat a) = 1 := by
  decide

theorem gfInvNat_zero : gfInvNat 0 = 0 := by decide

/-! ### The field `GF` of bytes -/

/-- A GF(256) field element: a byte. -/
structure GF where
  val : Nat
  isLt : val < 256

theorem GF.ext {a b : GF} (h : a.val = b.val) : a = b := by
  cases a; cases b; cases h; rfl

instance : DecidableEq GF := fun a b =>
  decidable_of_iff (a.val = b.val) ⟨fun h => GF.ext h, fun h => by rw [h]⟩

instance : Zero GF := ⟨⟨0, by omega⟩⟩
instance : One GF := ⟨⟨1, by omega⟩⟩
instance : Add GF := ⟨fun a b => ⟨a.val ^^^ b.val, Nat.xor_lt_two_pow (n := 8) a.isLt b.isLt⟩⟩
instance : Mul GF := ⟨fun a b => ⟨gfMulNat a.val b.val, gfMulNat_lt a.isLt⟩⟩
instance : Neg GF := ⟨fun a => a⟩
instance : Inv GF := ⟨fun a => ⟨gfInvNat a.val, gfInvNat_lt a.val⟩⟩

@[simp] theorem GF.val_zero : (0 : GF).val = 0 := rfl
@[simp] theorem GF.val_one : (1 : GF).val = 1 := rfl
@[simp] theorem GF.val_add (a b : GF) : (a + b).val = a.val ^^^ b.val := rfl
@[simp] theorem GF.val_mul (a b : GF) : (a * b).val = gfMulNat a.val b.val := rfl
@[simp] theorem GF.val_inv (a : GF) : (a⁻¹).val = gfInvNat a.val := rfl
@[simp] theorem GF.val_neg (a : GF) : (-a).val = a.val := rfl

theorem GF.val_ne_zero {a : GF} (h : a ≠ 0) : a.val ≠ 0 :=
  fun hv => h (GF.ext hv)

instance : Field GF where
  nsmul := nsmulRec
  zsmul := zsmulRec
  add_assoc a b c := GF.ext (Nat.xor_assoc _ _ _)
  zero_add a := GF.ext (Nat.zero_xor _)
  add_zero a := GF.ext (Nat.xor_zero _)
  add_comm a b := GF.ext (Nat.xor_comm _ _)
  mul_assoc a b c := GF.ext (gfMulNat_assoc _ a.isLt _ b.isLt _ c.isLt)
  one_mul a := GF.ext (gfMulNat_one_left _ a.isLt)
  mul_one a := GF.ext (gfMulNat_one_right _ a.isLt)
  left_distrib a b c := GF.ext (gfMulNat_xor_right _ _ _)
  right_distrib a b c := GF.ext (gfMulNat_xor_left a.isLt b.isLt _)
  zero_mul a := GF.ext (gfMulNat_zero_left _)
  mul_zero a := GF.ext (gfMulNat_zero_right _)
  mul_comm a b := GF.ext (gfMulNat_comm _ a.isLt _ b.isLt)
  neg_add_cancel a := GF.ext (Nat.xor_self _)
  exists_pair_ne := ⟨0, 1, by decide⟩
  mul_inv_cancel a h := GF.ext (gfMulNat_inv_cancel _ a.isLt (GF.val_ne_zero h))
  inv_zero := GF.ext gfInvNat_zero
  nnqsmul := _
  qsmul := _

/-- The C cast `(uint8_t)` applied to a nonnegative machine integer. -/
def byteOf (n : Nat) : GF := ⟨n % 256, Nat.mod_lt _ (by omega)⟩

@[simp] theorem byteOf_val (n : Nat) : (byteOf n).val = n % 256 := rfl

theorem byteOf_val_lt {n : Nat} (h : n < 256) : (byteOf n).val = n := by
  simp [Nat.mod_eq_of_lt h]

/-! ### The GF(256) collaborator interface, modelled from the spec -/

/-- Modelled from the spec: `add(a, b) = a XOR b`. -/
def gf256_add (a b : GF) : GF := a + b

/-- Modelled from the spec: field multiplication. -/
def gf256_mul (a b : GF) : GF := a * b

/-- Modelled from the spec: field division (0 when dividing by 0, a case
the core never exercises). -/
def gf256_div (a b : GF) : GF := a / b

/-- A shard: a byte buffer addressed by byte position. -/
def Shard : Type := Nat → GF

/-- Modelled from the spec: `add_mem(dst, src, n)`: `dst[i] ^= src[i]`. -/
def gf256_add_mem (dst src : Shard) : Shard := fun i => dst i + src i

/-- Modelled from the spec: `add2_mem(dst, a, b, n)`: `dst[i] ^= a[i] ^ b[i]`. -/
def gf256_add2_mem (dst a b : Shard) : Shard := fun i => dst i + (a i + b i)

/-- Modelled from the spec: `addset_mem(dst, a, b, n)`: `dst[i] = a[i] ^ b[i]`. -/
def gf256_addset_mem (a b : Shard) : Shard := fun i => a i + b i

/-- Modelled from the spec: `mul_mem(dst, src, c, n)`: `dst[i] = c * src[i]`. -/
def gf256_mul_mem (src : Shard) (c : GF) : Shard := fun i => c * src i

/-- Modelled from the spec: `muladd_mem(dst, c, src, n)`: `dst[i] ^= c * src[i]`. -/
def gf256_muladd_mem (dst : Shard) (c : GF) (src : Shard) : Shard :=
  fun i => dst i + c * src i

/-- Modelled from the spec: `div_mem(dst, src, c, n)`: `dst[i] = src[i] / c`. -/
def gf256_div_mem (src : Shard) (c : GF) : Shard := fun i => src i / c

/-! ### Data model (spec section 6: parameter record and block descriptor) -/

/-- Encoder parameters (`cm256_encoder_params`); C `int` fields. -/
structure cm256_encoder_params where
  BlockBytes : Int
  OriginalCount : Int
  RecoveryCount : Int

/-- Block descriptor (`cm256_block`): a shard buffer and its wire index
(a byte in C, kept as the numeric index it holds). -/
structure cm256_block where
  Block : Shard
  Index : Nat

instance : Inhabited cm256_block := ⟨⟨fun _ => 0, 0⟩⟩

/-! ### `src/kernel/cm256.c`: matrix element and encoder -/

/-- `GetMatrixElement` (cm256.c line 125). -/
def GetMatrixElement (x_i x_0 y_j : GF) : GF :=
  gf256_div (gf256_add y_j x_0) (gf256_add x_i y_j)

/-- `cm256_encode_block` (cm256.c lines 133-186): contents of the produced
recovery block.  `originals` is the caller's array of `OriginalCount`
block descriptors. -/
def cm256_encode_block (params : cm256_encoder_params)
    (originals : Nat → cm256_block) (recoveryBlockIndex : Int) : Shard :=
  if params.OriginalCount = 1 then
    -- memcpy of the single original
    (originals 0).Block
  else if recoveryBlockIndex = params.OriginalCount then
    -- first row: parity
    ((List.range params.OriginalCount.toNat).drop 2).foldl
      (fun acc j => gf256_add_mem acc (originals j).Block)
      (gf256_addset_mem (originals 0).Block (originals 1).Block)
  else
    -- other rows
    let x_0 : GF := byteOf params.OriginalCount.toNat
    let x_i : GF := byteOf recoveryBlockIndex.toNat
    ((List.range params.OriginalCount.toNat).drop 1).foldl
      (fun acc j =>
        gf256_muladd_mem acc (GetMatrixElement x_i x_0 (byteOf j)) (originals j).Block)
      (gf256_mul_mem (originals 0).Block (GetMatrixElement x_i x_0 (byteOf 0)))

/-- `cm256_encode` (cm256.c lines 188-214).  The recovery output region is
a flat byte buffer; the result pairs the return code with the region
after the call (null pointers are `none`). -/
def cm256_encode (params : cm256_encoder_params)
    (originals : Option (Nat → cm256_block)) (recoveryBlocks : Option Shard) :
    Int × Shard :=
  let regionD : Shard := recoveryBlocks.getD (fun _ => 0)
  if params.OriginalCount ≤ 0 ∨ params.RecoveryCount ≤ 0 ∨ params.BlockBytes ≤ 0 then
    (-1, regionD)
  else if 256 < params.OriginalCount + params.RecoveryCount then
    (-2, regionD)
  else
    match originals, recoveryBlocks with
    | some orig, some region =>
        let B := params.BlockBytes.toNat
        (0, (List.range params.RecoveryCount.toNat).foldl
          (fun reg (block : Nat) =>
            let rb := cm256_encode_block params orig (params.OriginalCount + (block : Int))
            fun i : Nat => if block * B ≤ i ∧ i < block * B + B then rb (i - block * B) else reg i)
          region)
    | _, _ => (-3, regionD)

/-! ### `src/kernel/cm256.c`: decoder -/

/-- Decoder working state (`CM256Decoder`, cm256.c lines 220-242).
`Original` and `Recovery` hold positions into the caller's `blocks`
array (the C code stores pointers). -/
structure CM256Decoder where
  Params : cm256_encoder_params
  Recovery : List Nat
  Original : List Nat
  ErasuresIndices : Nat → Nat

/-- The classifying loop of `Initialize` (cm256.c lines 258-274), over the
list of remaining positions.  Fails (C returns -1) on a repeated
original index; the check happens when the repeat is encountered, so in
the C code the pointer was already stored, but the state is discarded. -/
def initScan (blocks : Nat → cm256_block) (k : Nat) :
    List Nat → List Nat × List Nat × (Nat → Nat) →
    Option (List Nat × List Nat × (Nat → Nat))
  | [], st => some st
  | ii :: rest, (orig, recov, e) =>
      let row := (blocks ii).Index
      if row < k then
        if e row ≠ 0 then none
        else initScan blocks k rest (orig ++ [ii], recov, Function.update e row 1)
      else initScan blocks k rest (orig, recov ++ [ii], e)

/-- The erasure-collection loop of `Initialize` (cm256.c lines 277-285):
walk the positions `0..255`, copying the first `recCount` indices whose
presence entry is zero into the same backing array. -/
def eraseScan (recCount : Nat) : List Nat → (Nat → Nat) → Nat → (Nat → Nat)
  | [], e, _ => e
  | ii :: rest, e, indexCount =>
      if e ii = 0 then
        if recCount ≤ indexCount + 1 then Function.update e indexCount ii
        else eraseScan recCount rest (Function.update e indexCount ii) (indexCount + 1)
      else eraseScan recCount rest e indexCount

/-- `Initialize` (cm256.c lines 244-287).  The decoder struct is freshly
allocated; the presence array is zeroed for positions `< OriginalCount`
(the loop at lines 253-255) and the remaining entries, never written,
are modelled as 0 as well (with `RecoveryCount ≥ 1` the collection loop
stops inside `[0, OriginalCount)`, and with `RecoveryCount = 0` the one
stray write it makes is never read). -/
def Initialize (params : cm256_encoder_params) (blocks : Nat → cm256_block) :
    Option CM256Decoder :=
  match initScan blocks params.OriginalCount.toNat
      (List.range params.OriginalCount.toNat) ([], [], fun _ => 0) with
  | none => none
  | some (orig, recov, e) =>
      some { Params := params, Recovery := recov, Original := orig,
             ErasuresIndices := eraseScan recov.length (List.range 256) e 0 }

/-- `DecodeM1` (cm256.c lines 289-316): XOR all supplied originals into
the single recovery buffer, pairing inputs two at a time, then relabel
its index. -/
def DecodeM1 (decoder : CM256Decoder) (blocks : Nat → cm256_block) :
    Nat → cm256_block :=
  let outPos := decoder.Recovery.headD 0
  let step : Shard × Option Shard → Nat → Shard × Option Shard :=
    fun p pos =>
      let inBlock2 := (blocks pos).Block
      match p.2 with
      | none => (p.1, some inBlock2)
      | some ib => (gf256_add2_mem p.1 ib inBlock2, none)
  let out1 := decoder.Original.foldl step ((blocks outPos).Block, none)
  let out2 := match out1.2 with
    | some ib => gf256_add_mem out1.1 ib
    | none => out1.1
  Function.update blocks outPos { Block := out2, Index := decoder.ErasuresIndices 0 }

/-- State threaded through the factorization loop of
`GenerateLDUDecomposition`. -/
structure LDUState where
  g : Nat → GF
  b : Nat → GF
  mL : List GF
  mU : Int → GF
  dD : Nat → GF
  firstOffset : Int

/-- The body of the inner `j` loop of `GenerateLDUDecomposition`
(cm256.c lines 368-384): emit the raw `L_jk` and `U_kj` and update the
two generators. -/
def LDUInnerBody (x y : Nat → GF) (k : Nat)
    (p : List GF × List GF × (Nat → GF) × (Nat → GF)) (j : Nat) :
    List GF × List GF × (Nat → GF) × (Nat → GF) :=
  (p.1 ++ [gf256_div (p.2.2.1 j) (gf256_add (x j) (y k))],
   p.2.1 ++ [gf256_div (p.2.2.2 j) (gf256_add (x k) (y j))],
   Function.update p.2.2.1 j
     (gf256_mul (p.2.2.1 j) (gf256_div (gf256_add (x j) (x k)) (gf256_add (x j) (y k)))),
   Function.update p.2.2.2 j
     (gf256_mul (p.2.2.2 j) (gf256_div (gf256_add (y j) (y k)) (gf256_add (y j) (x k)))))

/-- One pivot step `k` of `GenerateLDUDecomposition` (cm256.c lines
351-401): diagonal entry, raw column of `L` and rotated row of `U`,
bulk divisions, and the backward copy of the rotated row into the
`matrix_U` region. -/
def LDUStep (x y : Nat → GF) (x_0 : GF) (N : Nat) (lastU : Int)
    (st : LDUState) (k : Nat) : LDUState :=
  let D_kk := gf256_add (x k) (y k)
  let L_kk := gf256_div (st.g k) D_kk
  let U_kk := gf256_mul (gf256_div (st.b k) D_kk) (gf256_add x_0 (y k))
  let inner := (List.range' (k + 1) (N - (k + 1))).foldl (LDUInnerBody x y k)
    ([], [], st.g, st.b)
  let rowL2 := inner.1.map (fun v => gf256_div v L_kk)
  let rowU2 := inner.2.1.map (fun v => gf256_div v U_kk)
  let copy := (rowU2.zip (List.range' (k + 1) (N - (k + 1)))).foldl
    (fun (q : (Int → GF) × Int) vj =>
      (Function.update q.1 q.2 vj.1, q.2 - (vj.2 : Int)))
    (st.mU, lastU + st.firstOffset)
  { g := inner.2.2.1, b := inner.2.2.2, mL := st.mL ++ rowL2, mU := copy.1,
    dD := Function.update st.dD k (gf256_mul D_kk (gf256_mul L_kk U_kk)),
    firstOffset := st.firstOffset - ((k : Int) + 2) }

/-- One chunk of the multiply-diagonal-into-U pass (cm256.c lines
404-411): scale `j` consecutive bytes of `matrix_U` by `x_0 + y_j`. -/
def LDUDiagBody (x_0 : GF) (y : Nat → GF)
    (p : (Int → GF) × Int) (j : Nat) : (Int → GF) × Int :=
  (fun q => if p.2 ≤ q ∧ q < p.2 + (j : Int)
     then gf256_mul (gf256_add x_0 (y j)) (p.1 q) else p.1 q,
   p.2 + (j : Int))

/-- `GenerateLDUDecomposition` (cm256.c lines 319-424).  `matrix_L` is
written strictly sequentially (a list), `matrix_U` is written through a
moving pointer (a map from byte offset within the `matrix_U` region),
and `diag_D` is written by index. -/
def GenerateLDUDecomposition (decoder : CM256Decoder) (blocks : Nat → cm256_block) :
    List GF × (Nat → GF) × (Int → GF) :=
  let N := decoder.Recovery.length
  let x : Nat → GF := fun i => byteOf (blocks (decoder.Recovery.getD i 0)).Index
  let y : Nat → GF := fun i => byteOf (decoder.ErasuresIndices i)
  let x_0 : GF := byteOf decoder.Params.OriginalCount.toNat
  let lastU : Int := (((N - 1) * N) / 2 : Nat) - 1
  let init : LDUState :=
    { g := fun _ => 1, b := fun _ => 1, mL := [], mU := fun _ => 0,
      dD := fun _ => 0, firstOffset := 0 }
  let final := (List.range (N - 1)).foldl (LDUStep x y x_0 N lastU) init
  let diagFold := ((List.range' 1 (N - 1)).reverse).foldl (LDUDiagBody x_0 y)
    (final.mU, (0 : Int))
  let L_nn := final.g (N - 1)
  let U_nn := gf256_mul (final.b (N - 1)) (gf256_add x_0 (y (N - 1)))
  let dD3 := Function.update final.dD (N - 1)
    (gf256_div (gf256_mul L_nn U_nn) (gf256_add (x (N - 1)) (y (N - 1))))
  (final.mL, dD3, diagFold.1)

/-- The inner statement of the cancellation pass of `Decode` (cm256.c
lines 446-453): fold one supplied original into one recovery buffer. -/
def DecodeCancelInner (x_0 : GF) (inBlock : Shard) (inRow : Nat)
    (bl2 : Nat → cm256_block) (rpos : Nat) : Nat → cm256_block :=
  Function.update bl2 rpos
    { bl2 rpos with
      Block := gf256_muladd_mem (bl2 rpos).Block
        (GetMatrixElement (byteOf (bl2 rpos).Index) x_0 (byteOf inRow)) inBlock }

/-- The cancellation pass of `Decode` (cm256.c lines 442-454). -/
def DecodeCancel (decoder : CM256Decoder) (x_0 : GF)
    (blocksIn : Nat → cm256_block) : Nat → cm256_block :=
  decoder.Original.foldl (fun bl opos =>
      decoder.Recovery.foldl (DecodeCancelInner x_0 (bl opos).Block (bl opos).Index) bl)
    blocksIn

/-- The shared statement of both triangular elimination passes of
`Decode` (cm256.c lines 489-492 and 512-517): fold recovery row `j`
into recovery row `i`, scaled by the next stored matrix element. -/
def DecodeElimBody (recov : List Nat) (mCoeff : Nat → GF) (j : Nat)
    (st2 : (Nat → cm256_block) × Nat) (i : Nat) : (Nat → cm256_block) × Nat :=
  (Function.update st2.1 (recov.getD i 0)
    { st2.1 (recov.getD i 0) with
      Block := gf256_muladd_mem (st2.1 (recov.getD i 0)).Block (mCoeff st2.2)
        ((st2.1 (recov.getD j 0)).Block) },
   st2.2 + 1)

/-- The diagonal pass of `Decode` (cm256.c lines 498-504): divide each
recovery buffer by its diagonal entry and relabel its index. -/
def DecodeDiagBody (decoder : CM256Decoder) (dD : Nat → GF)
    (bl : Nat → cm256_block) (i : Nat) : Nat → cm256_block :=
  Function.update bl (decoder.Recovery.getD i 0)
    { Block := gf256_div_mem ((bl (decoder.Recovery.getD i 0)).Block) (dD i),
      Index := decoder.ErasuresIndices i }

/-- `Decode` (cm256.c lines 426-521): cancel the supplied originals out
of the recovery rows, factor, and apply the three elimination passes in
place. -/
def Decode (decoder : CM256Decoder) (blocksIn : Nat → cm256_block) :
    Nat → cm256_block :=
  let N := decoder.Recovery.length
  let x_0 : GF := byteOf decoder.Params.OriginalCount.toNat
  let blocks1 := DecodeCancel decoder x_0 blocksIn
  let lduOut := GenerateLDUDecomposition decoder blocks1
  let mL := lduOut.1
  let dD := lduOut.2.1
  let mU := lduOut.2.2
  let lower := (List.range (N - 1)).foldl (fun (st : (Nat → cm256_block) × Nat) j =>
      (List.range' (j + 1) (N - (j + 1))).foldl
        (DecodeElimBody decoder.Recovery (fun p => mL.getD p 0) j) st)
    (blocks1, 0)
  let blocks3 := (List.range N).foldl (DecodeDiagBody decoder dD) lower.1
  let upper := ((List.range' 1 (N - 1)).reverse).foldl
    (fun (st : (Nat → cm256_block) × Nat) j =>
      ((List.range j).reverse).foldl
        (DecodeElimBody decoder.Recovery (fun p => mU (p : Int)) j) st)
    (blocks3, 0)
  upper.1

/-- `cm256_decode` (cm256.c lines 523-564): validation, the `k = 1`
shortcut, bookkeeping, and dispatch to the decode paths.  The result
pairs the return code with the caller's blocks array after the call. -/
def cm256_decode (params : cm256_encoder_params)
    (blocks : Option (Nat → cm256_block)) : Int × (Nat → cm256_block) :=
  let blocksD : Nat → cm256_block := blocks.getD (fun _ => default)
  if params.OriginalCount ≤ 0 ∨ params.RecoveryCount ≤ 0 ∨ params.BlockBytes ≤ 0 then
    (-1, blocksD)
  else if 256 < params.OriginalCount + params.RecoveryCount then
    (-2, blocksD)
  else
    match blocks with
    | none => (-3, blocksD)
    | some bl =>
        if params.OriginalCount = 1 then
          (0, Function.update bl 0 { bl 0 with Index := 0 })
        else
          match Initialize params bl with
          | none => (-5, bl)
          | some state =>
              if state.Recovery.length = 0 then (0, bl)
              else if params.RecoveryCount = 1 then (0, DecodeM1 state bl)
              else (0, Decode state bl)

/-! ### Claims about the matrix element generator and validation -/

/-- C5: `GetMatrixElement (x_i, x_0, y_j)` is the GF(256) quotient
`(y_j + x_0) / (x_i + y_j)`, and whenever `x_i = x_0` and the denominator
is nonzero the result is 1 (the normalized first recovery row). -/
theorem claim_C5 (x_i x_0 y_j : GF) :
    GetMatrixElement x_i x_0 y_j = gf256_div (gf256_add y_j x_0) (gf256_add x_i y_j) ∧
    (x_i = x_0 → gf256_add x_i y_j ≠ 0 → GetMatrixElement x_i x_0 y_j = 1) := by
  refine ⟨rfl, ?_⟩
  rintro rfl hne
  unfold GetMatrixElement gf256_div gf256_add at *
  rw [add_comm y_j x_i]
  exact div_self hne

theorem claim_C5_witness :
    gf256_add (byteOf 4) (byteOf 2) ≠ 0 ∧
      GetMatrixElement (byteOf 4) (byteOf 4) (byteOf 2) = 1 :=
  ⟨by decide, (claim_C5 (byteOf 4) (byteOf 4) (byteOf 2)).2 rfl (by decide)⟩

/-- C6: every denominator `x_i + y_j` handed to `GetMatrixElement` by the
encoder (`x_i = k + r`, `y_j = j < k`) and by the decoder's cancellation
pass (`x_i` a supplied recovery index in `[k, k+m)`, `y_j` a supplied
original index below `k`) is nonzero, because `y_j < k ≤ x_i`. -/
theorem claim_C6 (k m : Nat) (hkm : k + m ≤ 256) :
    (∀ r < m, ∀ j < k, gf256_add (byteOf (k + r)) (byteOf j) ≠ 0) ∧
    (∀ x, k ≤ x → x < k + m → ∀ y < k, gf256_add (byteOf x) (byteOf y) ≠ 0) := by
  have core : ∀ x y, k ≤ x → x < k + m → y < k →
      gf256_add (byteOf x) (byteOf y) ≠ 0 := by
    intro x y hkx hxm hy heq
    have hx256 : x < 256 := by omega
    have hy256 : y < 256 := by omega
    have hval : (gf256_add (byteOf x) (byteOf y)).val = x ^^^ y := by
      show x % 256 ^^^ y % 256 = x ^^^ y
      rw [Nat.mod_eq_of_lt hx256, Nat.mod_eq_of_lt hy256]
    rw [heq] at hval
    have : x = y := Nat.xor_eq_zero.mp hval.symm
    omega
  exact ⟨fun r hr j hj => core (k + r) j (by omega) (by omega) hj,
    fun x hkx hxm y hy => core x y hkx hxm hy⟩

theorem claim_C6_witness :
    4 + 2 ≤ 256 ∧ gf256_add (byteOf 5) (byteOf 2) ≠ 0 :=
  ⟨by omega, (claim_C6 4 2 (by omega)).1 1 (by omega) 2 (by omega)⟩

/-- C8: `cm256_encode` returns -1 when a count or the block size is
non-positive, -2 when `k + m > 256`, -3 when the originals or the output
region is missing, and 0 otherwise; `cm256_decode` applies the same
-1 / -2 / -3 validation to its parameters and blocks pointer. -/
theorem claim_C8 (params : cm256_encoder_params) (orig : Option (Nat → cm256_block))
    (recov : Option Shard) (blocks : Option (Nat → cm256_block)) :
    ((cm256_encode params orig recov).1 =
      if params.OriginalCount ≤ 0 ∨ params.RecoveryCount ≤ 0 ∨ params.BlockBytes ≤ 0
        then -1
      else if 256 < params.OriginalCount + params.RecoveryCount then -2
      else if orig.isNone ∨ recov.isNone then -3
      else 0) ∧
    (params.OriginalCount ≤ 0 ∨ params.RecoveryCount ≤ 0 ∨ params.BlockBytes ≤ 0 →
      (cm256_decode params blocks).1 = -1) ∧
    (¬(params.OriginalCount ≤ 0 ∨ params.RecoveryCount ≤ 0 ∨ params.BlockBytes ≤ 0) →
      256 < params.OriginalCount + params.RecoveryCount →
      (cm256_decode params blocks).1 = -2) ∧
    (¬(params.OriginalCount ≤ 0 ∨ params.RecoveryCount ≤ 0 ∨ params.BlockBytes ≤ 0) →
      ¬(256 < params.OriginalCount + params.RecoveryCount) →
      blocks = none → (cm256_decode params blocks).1 = -3) := by
  refine ⟨?_, ?_, ?_, ?_⟩
  · rcases orig with _ | o <;> rcases recov with _ | r <;>
      unfold cm256_encode <;> split_ifs <;> simp_all
  · intro h
    unfold cm256_decode
    rw [if_pos h]
  · intro h1 h2
    unfold cm256_decode
    rw [if_neg h1, if_pos h2]
  · rintro h1 h2 rfl
    unfold cm256_decode
    rw [if_neg h1, if_neg h2]

theorem claim_C8_witness :
    (cm256_encode ⟨1, 0, 1⟩ none none).1 = -1 ∧ (cm256_decode ⟨1, 0, 1⟩ none).1 = -1 := by
  have h := claim_C8 ⟨1, 0, 1⟩ none none none
  refine ⟨?_, h.2.1 (by norm_num)⟩
  rw [h.1]
  norm_num

/-! ### Claims about the encoder output -/

theorem foldl_slice_write (B : Nat) (hB : 0 < B) (f : Nat → Shard) (l : List Nat)
    (r i : Nat) (hi : i < B) :
    ∀ region : Shard,
    (l.foldl (fun reg (block : Nat) =>
        fun p : Nat =>
          if block * B ≤ p ∧ p < block * B + B then f block (p - block * B) else reg p)
      region) (r * B + i)
      = if r ∈ l then f r i else region (r * B + i) := by
  induction l with
  | nil => intro region; simp
  | cons x xs ih =>
      intro region
      rw [List.foldl_cons, ih]
      by_cases hr : r ∈ xs
      · simp [hr]
      · simp only [hr, if_false, List.mem_cons, or_false]
        by_cases hx : r = x
        · subst hx
          have hc : r * B ≤ r * B + i ∧ r * B + i < r * B + B := by omega
          have hsub : r * B + i - r * B = i := by omega
          simp [hc, hsub]
        · have hc : ¬(x * B ≤ r * B + i ∧ r * B + i < x * B + B) := by
            rcases Nat.lt_or_ge r x with hlt | hge
            · have hmul : (r + 1) * B ≤ x * B :=
                Nat.mul_le_mul_right B (by omega)
              rw [Nat.succ_mul] at hmul
              omega
            · have hgt : x < r := by omega
              have hmul : (x + 1) * B ≤ r * B :=
                Nat.mul_le_mul_right B (by omega)
              rw [Nat.succ_mul] at hmul
              omega
          simp [hc, hx, hr]

/-- On valid parameters `cm256_encode` succeeds and writes the `r`-th
recovery block into the `r`-th `B`-byte slice of the output region. -/
theorem cm256_encode_slice (params : cm256_encoder_params) (orig : Nat → cm256_block)
    (region : Shard) (hk : 0 < params.OriginalCount) (hm : 0 < params.RecoveryCount)
    (hB : 0 < params.BlockBytes)
    (hkm : params.OriginalCount + params.RecoveryCount ≤ 256) :
    (cm256_encode params (some orig) (some region)).1 = 0 ∧
    ∀ r < params.RecoveryCount.toNat, ∀ i < params.BlockBytes.toNat,
      (cm256_encode params (some orig) (some region)).2 (r * params.BlockBytes.toNat + i)
        = cm256_encode_block params orig (params.OriginalCount + (r : Int)) i := by
  have hcond1 : ¬(params.OriginalCount ≤ 0 ∨ params.RecoveryCount ≤ 0 ∨
      params.BlockBytes ≤ 0) := by omega
  have hcond2 : ¬(256 < params.OriginalCount + params.RecoveryCount) := by omega
  unfold cm256_encode
  rw [if_neg hcond1, if_neg hcond2]
  refine ⟨rfl, ?_⟩
  intro r hr i hi
  have hB' : 0 < params.BlockBytes.toNat := by omega
  have := foldl_slice_write params.BlockBytes.toNat hB'
    (fun block => cm256_encode_block params orig (params.OriginalCount + (block : Int)))
    (List.range params.RecoveryCount.toNat) r i hi region
  rw [if_pos (List.mem_range.mpr hr)] at this
  exact this

/-- C4: with `OriginalCount = 1` the encoder copies the single original
shard verbatim into every recovery slot. -/
theorem claim_C4 (params : cm256_encoder_params) (orig : Nat → cm256_block)
    (region : Shard) (h1 : params.OriginalCount = 1) (hm : 0 < params.RecoveryCount)
    (hB : 0 < params.BlockBytes)
    (hkm : params.OriginalCount + params.RecoveryCount ≤ 256) :
    (cm256_encode params (some orig) (some region)).1 = 0 ∧
    ∀ r < params.RecoveryCount.toNat, ∀ i < params.BlockBytes.toNat,
      (cm256_encode params (some orig) (some region)).2 (r * params.BlockBytes.toNat + i)
        = (orig 0).Block i := by
  obtain ⟨hret, hslice⟩ := cm256_encode_slice params orig region (by omega) hm hB hkm
  refine ⟨hret, ?_⟩
  intro r hr i hi
  rw [hslice r hr i hi]
  unfold cm256_encode_block
  rw [if_pos h1]

theorem claim_C4_witness :
    (cm256_encode ⟨16, 1, 3⟩ (some fun _ => ⟨fun _ => byteOf 170, 0⟩)
        (some fun _ => 0)).2 (2 * 16 + 5) = byteOf 170 :=
  (claim_C4 ⟨16, 1, 3⟩ (fun _ => ⟨fun _ => byteOf 170, 0⟩) (fun _ => 0)
    (by decide) (by decide) (by decide) (by decide)).2 2 (by decide) 5 (by decide)

theorem foldl_add_mem_apply (orig : Nat → cm256_block) (i : Nat) :
    ∀ (l : List Nat) (s : Shard),
      (l.foldl (fun acc j => gf256_add_mem acc (orig j).Block) s) i
        = s i + (l.map fun j => (orig j).Block i).sum := by
  intro l
  induction l with
  | nil => intro s; simp
  | cons x xs ih =>
      intro s
      rw [List.foldl_cons, ih, List.map_cons, List.sum_cons, ← add_assoc]
      rfl

theorem list_range_map_sum (f : Nat → GF) (n : Nat) :
    ((List.range n).map f).sum = ∑ j ∈ Finset.range n, f j := by
  induction n with
  | zero => simp
  | succ n ih =>
      rw [List.range_succ, List.map_append, List.sum_append, Finset.sum_range_succ, ih]
      simp

/-- C3: with `OriginalCount ≥ 2` the first recovery shard produced by a
successful `cm256_encode` is the byte-wise XOR (GF sum) of all the
original shards. -/
theorem claim_C3 (params : cm256_encoder_params) (orig : Nat → cm256_block)
    (region : Shard) (hk : 2 ≤ params.OriginalCount) (hm : 0 < params.RecoveryCount)
    (hB : 0 < params.BlockBytes)
    (hkm : params.OriginalCount + params.RecoveryCount ≤ 256) :
    (cm256_encode params (some orig) (some region)).1 = 0 ∧
    ∀ i < params.BlockBytes.toNat,
      (cm256_encode params (some orig) (some region)).2 i
        = ∑ j ∈ Finset.range params.OriginalCount.toNat, (orig j).Block i := by
  obtain ⟨hret, hslice⟩ := cm256_encode_slice params orig region (by omega) hm hB hkm
  refine ⟨hret, ?_⟩
  intro i hi
  have h0 := hslice 0 (by omega) i hi
  rw [show (0 : Nat) * params.BlockBytes.toNat + i = i by omega] at h0
  rw [h0]
  unfold cm256_encode_block
  rw [if_neg (by omega : ¬ params.OriginalCount = 1),
    if_pos (by simp : params.OriginalCount + ((0 : Nat) : Int) = params.OriginalCount),
    foldl_add_mem_apply, ← list_range_map_sum]
  have hk2 : 2 ≤ params.OriginalCount.toNat := by omega
  have hsplit : List.range params.OriginalCount.toNat
      = [0, 1] ++ (List.range params.OriginalCount.toNat).drop 2 := by
    conv_lhs => rw [← List.take_append_drop 2 (List.range params.OriginalCount.toNat)]
    rw [List.take_range]
    congr 1
    rw [Nat.min_eq_left hk2]
    rfl
  rw [hsplit, List.map_append, List.sum_append]
  show (orig 0).Block i + (orig 1).Block i + _ = _
  simp [add_assoc]

theorem claim_C3_witness :
    (cm256_encode ⟨8, 4, 1⟩ (some fun j => ⟨fun _ => byteOf (2 ^ j), j⟩)
        (some fun _ => 0)).2 3 = byteOf 15 := by
  have h := (claim_C3 ⟨8, 4, 1⟩ (fun j => ⟨fun _ => byteOf (2 ^ j), j⟩) (fun _ => 0)
    (by decide) (by decide) (by decide) (by decide)).2 3 (by decide)
  rw [h]
  decide

/-! ### Claims about decoder bookkeeping -/

theorem initScan_marked (blocks : Nat → cm256_block) (k row : Nat) :
    ∀ (l : List Nat) (o r : List Nat) (e : Nat → Nat) st,
      row < k → e row ≠ 0 → initScan blocks k l (o, r, e) = some st →
      ∀ p ∈ l, (blocks p).Index = row → False := by
  intro l
  induction l with
  | nil =>
      intro o r e st _ _ _ p hp
      simp at hp
  | cons ii rest ih =>
      intro o r e st hrow he hscan p hp
      simp only [initScan] at hscan
      by_cases hlt : (blocks ii).Index < k
      · rw [if_pos hlt] at hscan
        by_cases hdup : e ((blocks ii).Index) ≠ 0
        · rw [if_pos hdup] at hscan
          exact Option.noConfusion hscan
        · rw [if_neg hdup] at hscan
          rcases List.mem_cons.mp hp with rfl | hpr
          · intro hpi
            rw [hpi] at hdup
            exact hdup he
          · intro hpi
            refine ih _ _ _ _ hrow ?_ hscan p hpr hpi
            by_cases hsame : (blocks ii).Index = row
            · rw [hsame, Function.update_same]
              omega
            · rwa [Function.update_noteq (by omega)]
      · rw [if_neg hlt] at hscan
        rcases List.mem_cons.mp hp with rfl | hpr
        · intro hpi
          rw [hpi] at hlt
          exact hlt hrow
        · exact ih _ _ _ _ hrow he hscan p hpr

theorem initScan_inj (blocks : Nat → cm256_block) (k : Nat) :
    ∀ (l : List Nat) (o r : List Nat) (e : Nat → Nat) st,
      initScan blocks k l (o, r, e) = some st →
      ∀ p ∈ l, ∀ q ∈ l, p ≠ q → (blocks p).Index < k →
      (blocks p).Index = (blocks q).Index → False := by
  intro l
  induction l with
  | nil =>
      intro o r e st _ p hp
      simp at hp
  | cons ii rest ih =>
      intro o r e st hscan p hp q hq hpq hplt hpq_idx
      simp only [initScan] at hscan
      by_cases hlt : (blocks ii).Index < k
      · rw [if_pos hlt] at hscan
        by_cases hdup : e ((blocks ii).Index) ≠ 0
        · rw [if_pos hdup] at hscan
          exact Option.noConfusion hscan
        · rw [if_neg hdup] at hscan
          rcases List.mem_cons.mp hp with rfl | hpr
          · rcases List.mem_cons.mp hq with rfl | hqr
            · exact hpq rfl
            · exact initScan_marked blocks k ((blocks p).Index) rest _ _ _ _ hplt
                (by rw [Function.update_same]; omega) hscan q hqr hpq_idx.symm
          · rcases List.mem_cons.mp hq with rfl | hqr
            · exact initScan_marked blocks k ((blocks q).Index) rest _ _ _ _
                (hpq_idx ▸ hplt)
                (by rw [Function.update_same]; omega) hscan p hpr hpq_idx
            · exact ih _ _ _ _ hscan p hpr q hqr hpq hplt hpq_idx
      · rw [if_neg hlt] at hscan
        rcases List.mem_cons.mp hp with rfl | hpr
        · exact hlt hplt
        · rcases List.mem_cons.mp hq with rfl | hqr
          · exact hlt (hpq_idx ▸ hplt)
          · exact ih _ _ _ _ hscan p hpr q hqr hpq hplt hpq_idx

theorem initScan_success (blocks : Nat → cm256_block) (k : Nat) :
    ∀ (l : List Nat) (o r : List Nat) (e : Nat → Nat),
      l.Nodup →
      (∀ p ∈ l, ∀ q ∈ l, p ≠ q → (blocks p).Index < k →
        (blocks p).Index ≠ (blocks q).Index) →
      (∀ p ∈ l, (blocks p).Index < k → e ((blocks p).Index) = 0) →
      initScan blocks k l (o, r, e)
        = some (o ++ l.filter (fun p => decide ((blocks p).Index < k)),
                r ++ l.filter (fun p => !decide ((blocks p).Index < k)),
                fun idx =>
                  if l.any (fun p =>
                      (blocks p).Index == idx && decide ((blocks p).Index < k))
                  then 1 else e idx) := by
  intro l
  induction l with
  | nil =>
      intro o r e _ _ _
      simp [initScan]
  | cons ii rest ih =>
      intro o r e hnd hdist he
      have hiirest : ii ∉ rest := (List.nodup_cons.mp hnd).1
      have hndr : rest.Nodup := (List.nodup_cons.mp hnd).2
      simp only [initScan]
      by_cases hlt : (blocks ii).Index < k
      · have he0 : e ((blocks ii).Index) = 0 :=
          he ii (List.mem_cons_self _ _) hlt

        rw [if_pos hlt, if_neg (by omega)]
        rw [ih (o ++ [ii]) r (Function.update e ((blocks ii).Index) 1) hndr
          (fun p hp q hq hpq hplt => hdist p (List.mem_cons_of_mem _ hp)
            q (List.mem_cons_of_mem _ hq) hpq hplt)
          (fun p hp hplt => by
            have hne : (blocks p).Index ≠ (blocks ii).Index :=
              hdist p (List.mem_cons_of_mem _ hp) ii (List.mem_cons_self _ _)
                (fun hpe => hiirest (hpe ▸ hp)) hplt
            rw [Function.update_noteq hne]
            exact he p (List.mem_cons_of_mem _ hp) hplt)]
        rw [Option.some.injEq, Prod.mk.injEq, Prod.mk.injEq]
        refine ⟨?_, ?_, ?_⟩
        · rw [List.filter_cons_of_pos (by simpa using hlt), List.append_assoc,
            List.singleton_append]
        · rw [List.filter_cons_of_neg (by simpa using hlt)]
        · funext idx
          rw [List.any_cons]
          by_cases hidx : (blocks ii).Index = idx
          · have hlt2 : idx < k := by omega
            have hpred : ((blocks ii).Index == idx && decide ((blocks ii).Index < k))
                = true := by
              simp [hidx, hlt2]
            rw [hpred]
            simp only [Bool.true_or, if_true]
            subst hidx
            by_cases hany : rest.any (fun p =>
                (blocks p).Index == (blocks ii).Index && decide ((blocks p).Index < k))
            · rw [if_pos hany]
            · rw [if_neg hany, Function.update_same]
          · have hpred : ((blocks ii).Index == idx && decide ((blocks ii).Index < k))
                = false := by
              simp [hidx]
            rw [hpred]
            simp only [Bool.false_or]
            by_cases hany : rest.any (fun p =>
                (blocks p).Index == idx && decide ((blocks p).Index < k))
            · rw [if_pos hany, if_pos hany]
            · rw [if_neg hany, if_neg hany, Function.update_noteq (by omega)]
      · rw [if_neg hlt]
        rw [ih o (r ++ [ii]) e hndr
          (fun p hp q hq hpq hplt => hdist p (List.mem_cons_of_mem _ hp)
            q (List.mem_cons_of_mem _ hq) hpq hplt)
          (fun p hp hplt => he p (List.mem_cons_of_mem _ hp) hplt)]
        rw [Option.some.injEq, Prod.mk.injEq, Prod.mk.injEq]
        refine ⟨?_, ?_, ?_⟩
        · rw [List.filter_cons_of_neg (by simpa using hlt)]
        · rw [List.filter_cons_of_pos (by simpa using hlt), List.append_assoc,
            List.singleton_append]
        · funext idx
          rw [List.any_cons]
          have hpred : ((blocks ii).Index == idx && decide ((blocks ii).Index < k))
              = false := by
            simp [hlt]
          rw [hpred]
          simp only [Bool.false_or]

/-- On distinct original indices `Initialize` succeeds and classifies the
supplied positions in order. -/
theorem Initialize_eq (params : cm256_encoder_params) (bl : Nat → cm256_block)
    (hdist : ∀ p < params.OriginalCount.toNat, ∀ q < params.OriginalCount.toNat,
      p ≠ q → (bl p).Index < params.OriginalCount.toNat →
      (bl p).Index ≠ (bl q).Index) :
    Initialize params bl = some
      { Params := params,
        Original := (List.range params.OriginalCount.toNat).filter
          (fun p => decide ((bl p).Index < params.OriginalCount.toNat)),
        Recovery := (List.range params.OriginalCount.toNat).filter
          (fun p => !decide ((bl p).Index < params.OriginalCount.toNat)),
        ErasuresIndices := eraseScan
          ((List.range params.OriginalCount.toNat).filter
            (fun p => !decide ((bl p).Index < params.OriginalCount.toNat))).length
          (List.range 256)
          (fun idx =>
            if (List.range params.OriginalCount.toNat).any (fun p =>
                (bl p).Index == idx && decide ((bl p).Index < params.OriginalCount.toNat))
            then 1 else 0)
          0 } := by
  unfold Initialize
  rw [initScan_success bl params.OriginalCount.toNat
    (List.range params.OriginalCount.toNat) [] [] (fun _ => 0)
    (List.nodup_range _)
    (fun p hp q hq hpq hplt =>
      hdist p (List.mem_range.mp hp) q (List.mem_range.mp hq) hpq hplt)
    (fun _ _ _ => rfl)]
  rfl

/-- On valid parameters with `k ≥ 2`, `cm256_decode` is the dispatch on
the result of `Initialize`. -/
theorem cm256_decode_valid (params : cm256_encoder_params) (bl : Nat → cm256_block)
    (hk : 2 ≤ params.OriginalCount) (hm : 0 < params.RecoveryCount)
    (hB : 0 < params.BlockBytes)
    (hkm : params.OriginalCount + params.RecoveryCount ≤ 256) :
    cm256_decode params (some bl) =
      match Initialize params bl with
      | none => (-5, bl)
      | some state =>
          if state.Recovery.length = 0 then (0, bl)
          else if params.RecoveryCount = 1 then (0, DecodeM1 state bl)
          else (0, Decode state bl) := by
  unfold cm256_decode
  rw [if_neg (by omega : ¬(params.OriginalCount ≤ 0 ∨ params.RecoveryCount ≤ 0 ∨
      params.BlockBytes ≤ 0)),
    if_neg (by omega : ¬ 256 < params.OriginalCount + params.RecoveryCount)]
  change (if params.OriginalCount = 1 then _ else _) = _
  rw [if_neg (by omega : ¬ params.OriginalCount = 1)]

/-- C9: two supplied blocks carrying the same original index make
`cm256_decode` return -5 with the caller's blocks untouched. -/
theorem claim_C9 (params : cm256_encoder_params) (bl : Nat → cm256_block)
    (hk : 2 ≤ params.OriginalCount) (hm : 0 < params.RecoveryCount)
    (hB : 0 < params.BlockBytes)
    (hkm : params.OriginalCount + params.RecoveryCount ≤ 256)
    (p q : Nat) (hp : p < params.OriginalCount.toNat)
    (hq : q < params.OriginalCount.toNat) (hpq : p ≠ q)
    (hlt : (bl p).Index < params.OriginalCount.toNat)
    (hidx : (bl p).Index = (bl q).Index) :
    cm256_decode params (some bl) = (-5, bl) := by
  have hinit : Initialize params bl = none := by
    unfold Initialize
    rcases hscan : initScan bl params.OriginalCount.toNat
        (List.range params.OriginalCount.toNat) ([], [], fun _ => 0) with _ | st3
    · rfl
    · exact absurd hscan (fun hs =>
        initScan_inj bl params.OriginalCount.toNat _ _ _ _ _ hs
          p (List.mem_range.mpr hp) q (List.mem_range.mpr hq) hpq hlt hidx)
  rw [cm256_decode_valid params bl hk hm hB hkm, hinit]

theorem claim_C9_witness :
    cm256_decode ⟨64, 3, 2⟩
        (some fun p => if p = 0 then ⟨fun _ => byteOf 9, 1⟩
          else if p = 1 then ⟨fun _ => byteOf 7, 1⟩ else ⟨fun _ => byteOf 5, 2⟩)
      = (-5, fun p => if p = 0 then ⟨fun _ => byteOf 9, 1⟩
          else if p = 1 then ⟨fun _ => byteOf 7, 1⟩ else ⟨fun _ => byteOf 5, 2⟩) :=
  claim_C9 ⟨64, 3, 2⟩ _ (by decide) (by decide) (by decide) (by decide)
    0 1 (by decide) (by decide) (by decide) (by decide) (by decide)

/-- C10: when all `k` supplied blocks carry distinct original indices,
`cm256_decode` returns 0 and leaves the caller's blocks unchanged. -/
theorem claim_C10 (params : cm256_encoder_params) (bl : Nat → cm256_block)
    (hk : 2 ≤ params.OriginalCount) (hm : 0 < params.RecoveryCount)
    (hB : 0 < params.BlockBytes)
    (hkm : params.OriginalCount + params.RecoveryCount ≤ 256)
    (hall : ∀ p < params.OriginalCount.toNat,
      (bl p).Index < params.OriginalCount.toNat)
    (hdist : ∀ p < params.OriginalCount.toNat, ∀ q < params.OriginalCount.toNat,
      p ≠ q → (bl p).Index ≠ (bl q).Index) :
    cm256_decode params (some bl) = (0, bl) := by
  rw [cm256_decode_valid params bl hk hm hB hkm,
    Initialize_eq params bl (fun p hp q hq hpq _ => hdist p hp q hq hpq)]
  have hnil : (List.range params.OriginalCount.toNat).filter
      (fun p => !decide ((bl p).Index < params.OriginalCount.toNat)) = [] := by
    rw [List.filter_eq_nil_iff]
    intro p hp
    simp [hall p (List.mem_range.mp hp)]
  change (if _ then _ else _) = _
  rw [if_pos (by rw [hnil]; rfl)]

theorem claim_C10_witness :
    cm256_decode ⟨64, 3, 2⟩
        (some fun p => ⟨fun _ => byteOf p, 2 - p⟩) = (0, fun p => ⟨fun _ => byteOf p, 2 - p⟩) :=
  claim_C10 ⟨64, 3, 2⟩ _ (by decide) (by decide) (by decide) (by decide)
    (by decide) (by decide)

/-! ### Claim C7: the Initialize invariants -/

theorem eraseScan_lower (R : Nat) :
    ∀ (l : List Nat) (e : Nat → Nat) (c j : Nat), j < c →
      eraseScan R l e c j = e j := by
  intro l
  induction l with
  | nil => intro e c j _; rfl
  | cons ii rest ih =>
      intro e c j hj
      simp only [eraseScan]
      by_cases h0 : e ii = 0
      · rw [if_pos h0]
        by_cases hbreak : R ≤ c + 1
        · rw [if_pos hbreak, Function.update_noteq (by omega)]
        · rw [if_neg hbreak, ih _ _ _ (by omega), Function.update_noteq (by omega)]
      · rw [if_neg h0, ih _ _ _ hj]

theorem eraseScan_at (R : Nat) :
    ∀ (l : List Nat) (e : Nat → Nat) (c : Nat),
      List.Pairwise (· < ·) l →
      (∀ ii ∈ l, c ≤ ii) →
      ∀ j, c ≤ j → j < R → j - c < (l.filter (fun ii => e ii == 0)).length →
        eraseScan R l e c j = (l.filter (fun ii => e ii == 0)).getD (j - c) 0 := by
  intro l
  induction l with
  | nil =>
      intro e c _ _ j _ _ hlen
      simp at hlen
  | cons ii rest ih =>
      intro e c hpair hc j hcj hjR hlen
      have hiirest : ∀ p ∈ rest, ii < p := fun p hp => (List.pairwise_cons.mp hpair).1 p hp
      have hpairr : List.Pairwise (· < ·) rest := (List.pairwise_cons.mp hpair).2
      have hcii : c ≤ ii := hc ii (List.mem_cons_self _ _)
      simp only [eraseScan]
      by_cases h0 : e ii = 0
      · have hfil : (ii :: rest).filter (fun p => e p == 0)
            = ii :: rest.filter (fun p => e p == 0) :=
          List.filter_cons_of_pos (by simp [h0])
        rw [if_pos h0]
        by_cases hbreak : R ≤ c + 1
        · rw [if_pos hbreak]
          have hjc : j = c := by omega
          subst hjc
          rw [hfil, Nat.sub_self, List.getD_cons_zero, Function.update_same]
        · rw [if_neg hbreak]
          have hagree : rest.filter (fun p => Function.update e c ii p == 0)
              = rest.filter (fun p => e p == 0) :=
            List.filter_congr (fun p hp => by
              rw [Function.update_noteq (by have := hiirest p hp; omega)])
          by_cases hjc : j = c
          · subst hjc
            rw [eraseScan_lower R rest _ _ _ (by omega), Function.update_same,
              hfil, Nat.sub_self, List.getD_cons_zero]
          · have hlen2 : j - (c + 1)
                < (rest.filter (fun p => Function.update e c ii p == 0)).length := by
              rw [hagree]
              rw [hfil] at hlen
              simp only [List.length_cons] at hlen
              omega
            rw [ih (Function.update e c ii) (c + 1) hpairr
              (fun p hp => by have := hiirest p hp; omega)
              j (by omega) hjR hlen2, hagree, hfil]
            have hsucc : j - c = (j - (c + 1)) + 1 := by omega
            rw [hsucc, List.getD_cons_succ]
      · have hfil : (ii :: rest).filter (fun p => e p == 0)
            = rest.filter (fun p => e p == 0) :=
          List.filter_cons_of_neg (by simp [h0])
        rw [if_neg h0]
        rw [hfil] at hlen
        rw [ih e c hpairr (fun p hp => by have := hiirest p hp; omega) j hcj hjR hlen,
          hfil]

theorem length_filter_pair (p : Nat → Bool) (l : List Nat) :
    (l.filter p).length + (l.filter (fun a => !p a)).length = l.length := by
  induction l with
  | nil => rfl
  | cons x xs ih =>
      by_cases hx : p x
      · rw [List.filter_cons_of_pos hx, List.filter_cons_of_neg (by simp [hx])]
        simp only [List.length_cons]
        omega
      · rw [List.filter_cons_of_neg (by simpa using hx),
          List.filter_cons_of_pos (by simpa using hx)]
        simp only [List.length_cons]
        omega

theorem length_eq_of_nodup_mem_iff {l1 l2 : List Nat} (h1 : l1.Nodup) (h2 : l2.Nodup)
    (hm : ∀ x, x ∈ l1 ↔ x ∈ l2) : l1.length = l2.length := by
  rw [← List.toFinset_card_of_nodup h1, ← List.toFinset_card_of_nodup h2]
  congr 1
  ext x
  simp only [List.mem_toFinset]
  exact hm x

/-- C7: on `k` distinct-indexed blocks `Initialize` succeeds, the counts
add up to `k`, `Original` and `Recovery` hold exactly the supplied
positions with index below / at-or-above `k` (in order), and
`ErasuresIndices[0..RecoveryCount)` is the ascending list of original
indices in `[0, k)` carried by no supplied block. -/
theorem claim_C7 (params : cm256_encoder_params) (bl : Nat → cm256_block)
    (hk : 0 < params.OriginalCount) (hkm : params.OriginalCount ≤ 256)
    (hdist : ∀ p < params.OriginalCount.toNat, ∀ q < params.OriginalCount.toNat,
      p ≠ q → (bl p).Index ≠ (bl q).Index) :
    ∃ st, Initialize params bl = some st ∧
      st.Original.length + st.Recovery.length = params.OriginalCount.toNat ∧
      st.Original = (List.range params.OriginalCount.toNat).filter
        (fun p => decide ((bl p).Index < params.OriginalCount.toNat)) ∧
      st.Recovery = (List.range params.OriginalCount.toNat).filter
        (fun p => !decide ((bl p).Index < params.OriginalCount.toNat)) ∧
      ∀ j < st.Recovery.length,
        st.ErasuresIndices j
          = ((List.range params.OriginalCount.toNat).filter
              (fun r => decide (∀ p < params.OriginalCount.toNat,
                (bl p).Index ≠ r))).getD j 0 := by
  have hdist' : ∀ p < params.OriginalCount.toNat, ∀ q < params.OriginalCount.toNat,
      p ≠ q → (bl p).Index < params.OriginalCount.toNat →
      (bl p).Index ≠ (bl q).Index := fun p hp q hq hpq _ => hdist p hp q hq hpq
  refine ⟨_, Initialize_eq params bl hdist', ?_, rfl, rfl, ?_⟩
  · have hlp := length_filter_pair
      (fun p => decide ((bl p).Index < params.OriginalCount.toNat))
      (List.range params.OriginalCount.toNat)
    dsimp only
    simpa using hlp
  · intro j hj
    dsimp only at hj ⊢
    -- abbreviations
    have hk' : params.OriginalCount.toNat ≤ 256 := by omega
    -- the presence array written by initScan, as a pointwise function
    set k2 := params.OriginalCount.toNat with hk2
    set efin : Nat → Nat := fun idx =>
      if (List.range k2).any (fun p => (bl p).Index == idx && decide ((bl p).Index < k2))
      then 1 else 0 with hefin
    set origF := (List.range k2).filter (fun p => decide ((bl p).Index < k2)) with horigF
    set recovF := (List.range k2).filter (fun p => !decide ((bl p).Index < k2)) with hrecovF
    set missingSpec := (List.range k2).filter
      (fun r => decide (∀ p < k2, (bl p).Index ≠ r)) with hmiss
    -- (A) the zeros of the presence array inside [0, k) are the missing originals
    have hmiss_eq : (List.range k2).filter (fun idx => efin idx == 0) = missingSpec := by
      refine List.filter_congr (fun idx hidx => ?_)
      by_cases hany : (List.range k2).any
          (fun p => (bl p).Index == idx && decide ((bl p).Index < k2)) = true
      · obtain ⟨p, hpmem, hpp⟩ := List.any_eq_true.mp hany
        rw [Bool.and_eq_true, beq_iff_eq] at hpp
        have h1 : efin idx = 1 := by rw [hefin]; simp only []; rw [if_pos hany]
        have hnall : ¬ ∀ p < k2, (bl p).Index ≠ idx :=
          fun hall => hall p (List.mem_range.mp hpmem) hpp.1
        rw [h1]
        simp [hnall]
      · have h0 : efin idx = 0 := by rw [hefin]; simp only []; rw [if_neg hany]
        have hall : ∀ p < k2, (bl p).Index ≠ idx := by
          intro p hp heq
          exact hany (List.any_eq_true.mpr
            ⟨p, List.mem_range.mpr hp, by simp [heq, List.mem_range.mp hidx]⟩)
        rw [h0, decide_eq_true hall]
        rfl
    -- (B) counting: as many missing originals as recovery rows
    have horigNodup : origF.Nodup := (List.nodup_range _).filter _
    have hIdxNodup : (origF.map (fun p => (bl p).Index)).Nodup := by
      refine List.Nodup.map_on ?_ horigNodup
      intro p hp q hq hpqidx
      by_contra hpq
      exact hdist p (List.mem_range.mp (List.mem_of_mem_filter hp))
        q (List.mem_range.mp (List.mem_of_mem_filter hq)) hpq hpqidx
    have hpresNodup : ((List.range k2).filter
        (fun r => !decide (∀ p < k2, (bl p).Index ≠ r))).Nodup :=
      (List.nodup_range _).filter _
    have hmemiff : ∀ x, x ∈ origF.map (fun p => (bl p).Index) ↔
        x ∈ (List.range k2).filter (fun r => !decide (∀ p < k2, (bl p).Index ≠ r)) := by
      intro x
      constructor
      · intro hx
        obtain ⟨p, hp, hpx⟩ := List.mem_map.mp hx
        have hpmem := List.mem_range.mp (List.mem_of_mem_filter hp)
        have hplt : (bl p).Index < k2 := by
          have := List.of_mem_filter hp
          simpa using this
        refine List.mem_filter.mpr ⟨List.mem_range.mpr (hpx ▸ hplt), ?_⟩
        have : ¬ ∀ q < k2, (bl q).Index ≠ x := fun hall => hall p hpmem hpx
        simp [this]
      · intro hx
        have hxlt := List.mem_range.mp (List.mem_of_mem_filter hx)
        have hex : ¬ ∀ p < k2, (bl p).Index ≠ x := by
          have := List.of_mem_filter hx
          simpa using this
        push_neg at hex
        obtain ⟨p, hp, hpx⟩ := hex
        refine List.mem_map.mpr ⟨p, ?_, hpx⟩
        refine List.mem_filter.mpr ⟨List.mem_range.mpr hp, ?_⟩
        simp [hpx ▸ hxlt]
    have hlenpres : (origF.map (fun p => (bl p).Index)).length
        = ((List.range k2).filter (fun r => !decide (∀ p < k2, (bl p).Index ≠ r))).length :=
      length_eq_of_nodup_mem_iff hIdxNodup hpresNodup hmemiff
    have hpart1 : origF.length + recovF.length = k2 := by
      have := length_filter_pair (fun p => decide ((bl p).Index < k2)) (List.range k2)
      simpa using this
    have hpart2 : missingSpec.length
        + ((List.range k2).filter (fun r => !decide (∀ p < k2, (bl p).Index ≠ r))).length
        = k2 := by
      have := length_filter_pair (fun r => decide (∀ p < k2, (bl p).Index ≠ r))
        (List.range k2)
      simpa using this
    rw [List.length_map] at hlenpres
    have hcount : missingSpec.length = recovF.length := by omega
    -- (C) evaluate the collection scan
    have hsplit : List.range 256 = List.range k2 ++ (List.range (256 - k2)).map (k2 + ·) := by
      rw [show 256 = k2 + (256 - k2) by omega, List.range_add]
      simp
    have hzs : (List.range 256).filter (fun idx => efin idx == 0)
        = missingSpec ++ ((List.range (256 - k2)).map (k2 + ·)).filter
            (fun idx => efin idx == 0) := by
      rw [hsplit, List.filter_append, hmiss_eq]
    have hjR : j < recovF.length := hj
    have hjz : j - 0 < ((List.range 256).filter (fun idx => efin idx == 0)).length := by
      rw [hzs, List.length_append]
      omega
    rw [eraseScan_at recovF.length (List.range 256) efin 0
      (List.pairwise_lt_range 256) (fun _ _ => Nat.zero_le _) j (Nat.zero_le _) hjR hjz,
      hzs, Nat.sub_zero, List.getD_append _ _ _ _ (by omega)]

theorem claim_C7_witness :
    ∃ st, Initialize ⟨8, 3, 2⟩
        (fun p => ⟨fun _ => byteOf p, if p = 1 then 4 else p⟩) = some st ∧
      st.Original.length + st.Recovery.length = 3 ∧
      st.Recovery.length = 1 ∧ st.ErasuresIndices 0 = 1 := by
  obtain ⟨st, h1, h2, _, hrec, h3⟩ := claim_C7 ⟨8, 3, 2⟩
    (fun p => ⟨fun _ => byteOf p, if p = 1 then 4 else p⟩) (by decide) (by decide)
    (by decide)
  have hlen : st.Recovery.length = 1 := by rw [hrec]; decide
  refine ⟨st, h1, h2, hlen, ?_⟩
  rw [h3 0 (by omega)]
  decide



/-- Triangular number. -/
def tri (n : Nat) : Nat := n * (n + 1) / 2

theorem tri_succ (n : Nat) : tri (n + 1) = tri n + (n + 1) := by
  show (n + 1) * (n + 1 + 1) / 2 = n * (n + 1) / 2 + (n + 1)
  rw [show (n + 1) * (n + 1 + 1) = n * (n + 1) + (n + 1) * 2 by ring,
    Nat.add_mul_div_right _ _ (by norm_num : (0:Nat) < 2)]

theorem tri_zero : tri 0 = 0 := rfl

theorem tri_le_tri {a b : Nat} (h : a ≤ b) : tri a ≤ tri b := by
  induction b with
  | zero => simp_all
  | succ b ih =>
      rcases Nat.lt_or_ge a (b + 1) with hab | hab
      · calc tri a ≤ tri b := ih (by omega)
        _ ≤ tri (b + 1) := by rw [tri_succ]; omega
      · have : a = b + 1 := by omega
        subst this
        exact le_rfl

theorem tri_pred_add (j : Nat) (h : 1 ≤ j) : tri (j - 1) + j = tri j := by
  obtain ⟨j', rfl⟩ : ∃ j', j = j' + 1 := ⟨j - 1, by omega⟩
  rw [Nat.add_sub_cancel, tri_succ]

/-- Offset of the `(t, j)` strict-upper entry in the `matrix_U` region
(columns last-to-first, rows bottom-up within a column): the order in
which the upper elimination pass reads the region. -/
def posU (N j t : Nat) : Nat := tri (N - 1) - 1 - t - tri (j - 1)

theorem posU_spec {N j t : Nat} (h1 : 1 ≤ j) (h2 : t < j) (h3 : j ≤ N - 1) :
    posU N j t + (t + 1 + tri (j - 1)) = tri (N - 1) := by
  have ha := tri_pred_add j h1
  have hb := tri_le_tri h3
  unfold posU
  omega

theorem posU_inj {N j t j' t' : Nat} (h1 : 1 ≤ j) (h2 : t < j) (h3 : j ≤ N - 1)
    (h1' : 1 ≤ j') (h2' : t' < j') (h3' : j' ≤ N - 1)
    (heq : posU N j t = posU N j' t') : j = j' ∧ t = t' := by
  have e1 := posU_spec h1 h2 h3
  have e2 := posU_spec h1' h2' h3'
  rcases Nat.lt_trichotomy j j' with hjj | hjj | hjj
  · exfalso
    have ha := tri_pred_add j h1
    have hmono : tri j ≤ tri (j' - 1) := tri_le_tri (by omega)
    omega
  · subst hjj
    omega
  · exfalso
    have ha := tri_pred_add j' h1'
    have hmono : tri j' ≤ tri (j - 1) := tri_le_tri (by omega)
    omega

/-- Offset of the top of column `t` in the `matrix_L` region
(columns first-to-last, rows top-down within a column). -/
def colOff (N t : Nat) : Nat := ((List.range t).map (fun u => N - 1 - u)).sum

/-- Offset of the `(i, t)` strict-lower entry in the `matrix_L` region. -/
def posL (N t i : Nat) : Nat := colOff N t + (i - t - 1)

theorem colOff_succ (N t : Nat) : colOff N (t + 1) = colOff N t + (N - 1 - t) := by
  unfold colOff
  rw [List.range_succ, List.map_append, List.sum_append]
  simp



-- copies of the PART-2 generator defs (merged once in final file)
def gv (x y : Nat → GF) : Nat → Nat → GF
  | 0, _ => 1
  | k + 1, j =>
      if k < j then gv x y k j * ((x j + x k) / (x j + y k)) else gv x y k j

def bv (x y : Nat → GF) : Nat → Nat → GF
  | 0, _ => 1
  | k + 1, j =>
      if k < j then bv x y k j * ((y j + y k) / (y j + x k)) else bv x y k j

theorem gv_succ_of_lt' {k j : Nat} (h : k < j) (x y : Nat → GF) :
    gv x y (k + 1) j = gv x y k j * ((x j + x k) / (x j + y k)) := by
  rw [gv, if_pos h]

theorem bv_succ_of_lt' {k j : Nat} (h : k < j) (x y : Nat → GF) :
    bv x y (k + 1) j = bv x y k j * ((y j + y k) / (y j + x k)) := by
  rw [bv, if_pos h]

theorem gv_succ_of_ge' {k j : Nat} (h : ¬ k < j) (x y : Nat → GF) :
    gv x y (k + 1) j = gv x y k j := by
  rw [gv, if_neg h]

theorem bv_succ_of_ge' {k j : Nat} (h : ¬ k < j) (x y : Nat → GF) :
    bv x y (k + 1) j = bv x y k j := by
  rw [bv, if_neg h]

/-- Running the inner `j` loop of pivot step `k` over `[s, s + c)`:
the emitted raw rows and the generator updates, in closed form. -/
theorem LDUInner_spec (x y : Nat → GF) (k : Nat) : ∀ (c s : Nat), k < s →
    ∀ (A B : List GF) (g b : Nat → GF),
    (∀ j, s ≤ j → j < s + c → g j = gv x y k j) →
    (∀ j, s ≤ j → j < s + c → b j = bv x y k j) →
    (List.range' s c).foldl (LDUInnerBody x y k) (A, B, g, b)
      = (A ++ (List.range' s c).map (fun j => gv x y k j / (x j + y k)),
         B ++ (List.range' s c).map (fun j => bv x y k j / (x k + y j)),
         fun j => if s ≤ j ∧ j < s + c then gv x y (k + 1) j else g j,
         fun j => if s ≤ j ∧ j < s + c then bv x y (k + 1) j else b j) := by
  intro c
  induction c with
  | zero =>
      intro s hks A B g b hg hb
      simp only [List.range', List.foldl_nil, List.map_nil, List.append_nil]
      rw [Prod.mk.injEq, Prod.mk.injEq, Prod.mk.injEq]
      refine ⟨rfl, rfl, ?_, ?_⟩
      · funext j
        rw [if_neg (by omega)]
      · funext j
        rw [if_neg (by omega)]
  | succ c ih =>
      intro s hks A B g b hg hb
      rw [List.range'_succ, List.foldl_cons]
      have hgs : g s = gv x y k s := hg s le_rfl (by omega)
      have hbs : b s = bv x y k s := hb s le_rfl (by omega)
      have hbody : LDUInnerBody x y k (A, B, g, b) s
          = (A ++ [gv x y k s / (x s + y k)], B ++ [bv x y k s / (x k + y s)],
             Function.update g s (gv x y (k + 1) s),
             Function.update b s (bv x y (k + 1) s)) := by
        show (A ++ [gf256_div (g s) (gf256_add (x s) (y k))],
              B ++ [gf256_div (b s) (gf256_add (x k) (y s))],
              Function.update g s
                (gf256_mul (g s) (gf256_div (gf256_add (x s) (x k)) (gf256_add (x s) (y k)))),
              Function.update b s
                (gf256_mul (b s) (gf256_div (gf256_add (y s) (y k)) (gf256_add (y s) (x k)))))
            = _
        rw [hgs, hbs, gv_succ_of_lt' hks, bv_succ_of_lt' hks]
        rfl
      rw [hbody, ih (s + 1) (by omega) _ _ _ _
        (fun j h1 h2 => by
          rw [Function.update_noteq (by omega)]
          exact hg j (by omega) (by omega))
        (fun j h1 h2 => by
          rw [Function.update_noteq (by omega)]
          exact hb j (by omega) (by omega))]
      rw [Prod.mk.injEq, Prod.mk.injEq, Prod.mk.injEq]
      refine ⟨?_, ?_, ?_, ?_⟩
      · rw [List.map_cons, List.append_assoc, List.singleton_append]
      · rw [List.map_cons, List.append_assoc, List.singleton_append]
      · funext j
        by_cases h1 : j = s
        · subst h1
          rw [if_neg (by omega), if_pos (by omega), Function.update_same]
        · rw [Function.update_noteq h1]
          by_cases h2 : s + 1 ≤ j ∧ j < s + 1 + c
          · rw [if_pos h2, if_pos (by omega)]
          · rw [if_neg h2, if_neg (by omega)]
      · funext j
        by_cases h1 : j = s
        · subst h1
          rw [if_neg (by omega), if_pos (by omega), Function.update_same]
        · rw [Function.update_noteq h1]
          by_cases h2 : s + 1 ≤ j ∧ j < s + 1 + c
          · rw [if_pos h2, if_pos (by omega)]
          · rw [if_neg h2, if_neg (by omega)]

theorem zip_map_self {α β : Type} (f : α → β) :
    ∀ (l : List α), (l.map f).zip l = l.map (fun a => (f a, a))
  | [] => rfl
  | a :: l => by
      rw [List.map_cons, List.map_cons, List.zip_cons_cons, zip_map_self f l]

theorem pos_strict_anti {pos : Nat → Int}
    (hstep : ∀ j, 1 ≤ j → pos (j + 1) = pos j - (j : Int)) :
    ∀ j j', 1 ≤ j → j < j' → pos j' < pos j := by
  intro j j' hj hlt
  induction j' with
  | zero => omega
  | succ j' ih =>
      rcases Nat.lt_or_ge j j' with h | h
      · have := ih h
        rw [hstep j' (by omega)]
        omega
      · have : j = j' := by omega
        subst this
        rw [hstep j hj]
        omega

/-- Running the backward copy of a rotated `U` row into the `matrix_U`
region: writes land at `pos j`, everything else is untouched. -/
theorem LDUCopy_spec (f : Nat → GF) (pos : Nat → Int)
    (hstep : ∀ j, 1 ≤ j → pos (j + 1) = pos j - (j : Int)) :
    ∀ (c s : Nat), 1 ≤ s → ∀ (mU : Int → GF),
    (∀ j, s ≤ j → j < s + c →
      ((List.range' s c).foldl
          (fun (q : (Int → GF) × Int) j => (Function.update q.1 q.2 (f j), q.2 - (j : Int)))
          (mU, pos s)).1 (pos j) = f j) ∧
    (∀ p : Int, (∀ j, s ≤ j → j < s + c → p ≠ pos j) →
      ((List.range' s c).foldl
          (fun (q : (Int → GF) × Int) j => (Function.update q.1 q.2 (f j), q.2 - (j : Int)))
          (mU, pos s)).1 p = mU p) := by
  intro c
  induction c with
  | zero =>
      intro s hs mU
      refine ⟨fun j h1 h2 => by omega, fun p hp => rfl⟩
  | succ c ih =>
      intro s hs mU
      rw [List.range'_succ, List.foldl_cons]
      have hnext : pos s - (s : Int) = pos (s + 1) := (hstep s hs).symm
      constructor
      · intro j h1 h2
        rcases Nat.lt_or_ge s j with hsj | hsj
        · have := (ih (s + 1) (by omega) (Function.update mU (pos s) (f j))).1
          simp only [hnext]
          exact (ih (s + 1) (by omega) (Function.update mU (pos s) (f s))).1 j
            (by omega) (by omega)
        · have hj : j = s := by omega
          subst hj
          simp only [hnext]
          rw [(ih (j + 1) (by omega) (Function.update mU (pos j) (f j))).2 (pos j)
            (fun j' h1' h2' hne => by
              have := pos_strict_anti hstep j j' (by omega) (by omega)
              omega),
            Function.update_same]
      · intro p hp
        simp only [hnext]
        rw [(ih (s + 1) (by omega) (Function.update mU (pos s) (f s))).2 p
          (fun j' h1' h2' => hp j' (by omega) (by omega)),
          Function.update_noteq (hp s (by omega) (by omega))]
def Lent (x y : Nat → GF) (i t : Nat) : GF :=
  (gv x y t i / (x i + y t)) / (gv x y t t / (x t + y t))

/-- The value the factorization writes into `diag_D[k]` (the written
form, before simplification). -/
def DentW (x y : Nat → GF) (x_0 : GF) (k : Nat) : GF :=
  (x k + y k) * ((gv x y k k / (x k + y k)) * ((bv x y k k / (x k + y k)) * (x_0 + y k)))

/-- The value the factorization writes into the `matrix_U` region for
pivot `t`, column `j` — before the diagonal pass multiplies in `x_0 + y_j`. -/
def UentRaw (x y : Nat → GF) (x_0 : GF) (t j : Nat) : GF :=
  (bv x y t j / (x t + y j)) / ((bv x y t t / (x t + y t)) * (x_0 + y t))

/-- Invariant of the factorization loop after `m` pivot steps. -/
def LDUStateSpec (x y : Nat → GF) (x_0 : GF) (N m : Nat) (st : LDUState) : Prop :=
  (∀ j < N, st.g j = gv x y m j) ∧
  (∀ j < N, st.b j = bv x y m j) ∧
  st.mL = ((List.range m).map (fun k =>
    (List.range' (k + 1) (N - (k + 1))).map (fun j => Lent x y j k))).flatten ∧
  (∀ t, st.dD t = if t < m then DentW x y x_0 t else 0) ∧
  (∀ t j, t < m → t < j → j < N →
    st.mU ((posU N j t : Nat) : Int) = UentRaw x y x_0 t j) ∧
  st.firstOffset = -(((tri (m - 1) : Nat) : Int) + 2 * (m : Int))

theorem LDUCopy_spec2 (f : Nat → GF) (pos : Nat → Int)
    (hstep : ∀ j, 1 ≤ j → pos (j + 1) = pos j - (j : Int))
    (c s : Nat) (hs : 1 ≤ s) (mU : Int → GF) :
    (∀ j, s ≤ j → j < s + c →
      ((((List.range' s c).map f).zip (List.range' s c)).foldl
          (fun (q : (Int → GF) × Int) vj => (Function.update q.1 q.2 vj.1, q.2 - (vj.2 : Int)))
          (mU, pos s)).1 (pos j) = f j) ∧
    (∀ p : Int, (∀ j, s ≤ j → j < s + c → p ≠ pos j) →
      ((((List.range' s c).map f).zip (List.range' s c)).foldl
          (fun (q : (Int → GF) × Int) vj => (Function.update q.1 q.2 vj.1, q.2 - (vj.2 : Int)))
          (mU, pos s)).1 p = mU p) := by
  rw [zip_map_self, List.foldl_map]
  exact LDUCopy_spec f pos hstep c s hs mU
/-- `LDUCopy_spec2` specialized to the triangular position function the
factorization actually uses. -/
theorem LDUCopyTri_spec (f : Nat → GF) (T : Int) (m : Nat) (c s : Nat)
    (hs : 1 ≤ s) (mU : Int → GF) :
    (∀ j, s ≤ j → j < s + c →
      ((((List.range' s c).map f).zip (List.range' s c)).foldl
          (fun (q : (Int → GF) × Int) vj => (Function.update q.1 q.2 vj.1, q.2 - (vj.2 : Int)))
          (mU, T - (m : Int) - ((tri (s - 1) : Nat) : Int))).1
        (T - (m : Int) - ((tri (j - 1) : Nat) : Int)) = f j) ∧
    (∀ p : Int, (∀ j, s ≤ j → j < s + c →
        p ≠ T - (m : Int) - ((tri (j - 1) : Nat) : Int)) →
      ((((List.range' s c).map f).zip (List.range' s c)).foldl
          (fun (q : (Int → GF) × Int) vj => (Function.update q.1 q.2 vj.1, q.2 - (vj.2 : Int)))
          (mU, T - (m : Int) - ((tri (s - 1) : Nat) : Int))).1 p = mU p) := by
  have hstep2 : ∀ j, 1 ≤ j →
      (fun j => T - (m : Int) - ((tri (j - 1) : Nat) : Int)) (j + 1)
      = (fun j => T - (m : Int) - ((tri (j - 1) : Nat) : Int)) j - (j : Int) := by
    intro j hj1
    dsimp only
    have h1 := tri_pred_add j hj1
    have h2 : j + 1 - 1 = j := by omega
    rw [h2]
    have : (tri j : Int) = (tri (j - 1) : Int) + (j : Int) := by exact_mod_cast h1.symm
    omega
  exact ⟨(LDUCopy_spec2 f (fun j => T - (m : Int) - ((tri (j - 1) : Nat) : Int))
      hstep2 c s hs mU).1,
    (LDUCopy_spec2 f (fun j => T - (m : Int) - ((tri (j - 1) : Nat) : Int))
      hstep2 c s hs mU).2⟩

/-- One pivot step of the factorization preserves the loop invariant. -/
theorem LDUStep_spec (x y : Nat → GF) (x_0 : GF) (N : Nat) (lastU : Int)
    (hlastU : lastU = ((tri (N - 1) : Nat) : Int) - 1)
    (m : Nat) (hm : m < N - 1) (st : LDUState)
    (h : LDUStateSpec x y x_0 N m st) :
    LDUStateSpec x y x_0 N (m + 1) (LDUStep x y x_0 N lastU st m) := by
  obtain ⟨hg, hb, hL, hD, hU, hF⟩ := h
  have hmN : m < N := by omega
  have hinner := LDUInner_spec x y m (N - (m + 1)) (m + 1) (by omega) [] [] st.g st.b
    (fun j h1 h2 => hg j (by omega)) (fun j h1 h2 => hb j (by omega))
  have hposcast : ∀ j' t', t' < j' → j' < N →
      ((tri (N - 1) : Nat) : Int) - 1 - (t' : Int) - ((tri (j' - 1) : Nat) : Int)
        = ((posU N j' t' : Nat) : Int) := by
    intro j' t' h1 h2
    have hs := posU_spec (N := N) (j := j') (t := t') (by omega) h1 (by omega)
    have h3 : ((posU N j' t' : Nat) : Int) + ((t' : Int) + 1 + ((tri (j' - 1) : Nat) : Int))
        = ((tri (N - 1) : Nat) : Int) := by exact_mod_cast hs
    omega
  simp only [LDUStep]
  rw [hinner]
  refine ⟨?_, ?_, ?_, ?_, ?_, ?_⟩
  · intro j hj
    dsimp only
    by_cases hcase : m + 1 ≤ j ∧ j < m + 1 + (N - (m + 1))
    · rw [if_pos hcase]
    · rw [if_neg hcase, hg j hj, gv_succ_of_ge' (by omega)]
  · intro j hj
    dsimp only
    by_cases hcase : m + 1 ≤ j ∧ j < m + 1 + (N - (m + 1))
    · rw [if_pos hcase]
    · rw [if_neg hcase, hb j hj, bv_succ_of_ge' (by omega)]
  · -- matrix_L
    dsimp only
    rw [hL]
    simp only [List.nil_append, List.map_map, List.range_succ, List.map_append,
      List.map_cons, List.map_nil, List.flatten_append, List.flatten_cons,
      List.flatten_nil, List.append_nil]
    congr 1
    congr 1
    funext j
    show gf256_div (gv x y m j / (x j + y m)) (gf256_div (st.g m) (gf256_add (x m) (y m)))
      = Lent x y j m
    rw [hg m hmN]
    rfl
  · -- diag_D
    intro t
    dsimp only
    by_cases hcase : t = m
    · subst hcase
      rw [Function.update_same, if_pos (by omega)]
      show gf256_mul (gf256_add (x t) (y t))
        (gf256_mul (gf256_div (st.g t) (gf256_add (x t) (y t)))
          (gf256_mul (gf256_div (st.b t) (gf256_add (x t) (y t))) (gf256_add x_0 (y t))))
        = DentW x y x_0 t
      rw [hg t hmN, hb t hmN]
      rfl
    · rw [Function.update_noteq hcase, hD t]
      by_cases hlt : t < m
      · rw [if_pos hlt, if_pos (by omega)]
      · rw [if_neg hlt, if_neg (by omega)]
  · -- matrix_U
    intro t j ht hj hjN
    dsimp only
    rw [List.nil_append, List.map_map]
    have hq0 : lastU + st.firstOffset
        = ((tri (N - 1) : Nat) : Int) - 1 - (m : Int)
          - ((tri (m + 1 - 1) : Nat) : Int) := by
      rw [hF, hlastU]
      have ha : tri (m + 1 - 1) = tri (m - 1) + m := by
        rcases Nat.eq_zero_or_pos m with hm0 | hm0
        · subst hm0; rfl
        · have h1 := tri_pred_add m hm0
          have h2 : m + 1 - 1 = m := by omega
          rw [h2]
          omega
      rw [ha]
      push_cast
      ring
    rw [hq0]
    have hcopy := LDUCopyTri_spec
      (fun j => gf256_div (bv x y m j / (x m + y j))
        (gf256_mul (gf256_div (st.b m) (gf256_add (x m) (y m))) (gf256_add x_0 (y m))))
      (((tri (N - 1) : Nat) : Int) - 1) m (N - (m + 1)) (m + 1) (by omega) st.mU
    by_cases hcase : t = m
    · rw [hcase]
      rw [← hposcast j m (by omega) hjN]
      have hval : gf256_div (bv x y m j / (x m + y j))
          (gf256_mul (gf256_div (st.b m) (gf256_add (x m) (y m))) (gf256_add x_0 (y m)))
          = UentRaw x y x_0 m j := by
        rw [hb m hmN]
        rfl
      exact (hcopy.1 j (by omega) (by omega)).trans hval
    · have ht' : t < m := by omega
      have hunt : ∀ j', m + 1 ≤ j' → j' < m + 1 + (N - (m + 1)) →
          ((posU N j t : Nat) : Int)
            ≠ ((tri (N - 1) : Nat) : Int) - 1 - (m : Int)
              - ((tri (j' - 1) : Nat) : Int) := by
        intro j' h1 h2
        rw [hposcast j' m (by omega) (by omega)]
        intro heq
        have heq2 : posU N j t = posU N j' m := by exact_mod_cast heq
        have := posU_inj (N := N) (by omega : 1 ≤ j) hj (by omega)
          (by omega : 1 ≤ j') (by omega : m < j') (by omega) heq2
        omega
      exact (hcopy.2 ((posU N j t : Nat) : Int) hunt).trans (hU t j ht' hj hjN)
  · -- firstOffset
    dsimp only
    rw [hF]
    have ha : tri (m + 1 - 1) = tri (m - 1) + m := by
      rcases Nat.eq_zero_or_pos m with hm0 | hm0
      · subst hm0; rfl
      · have h1 := tri_pred_add m hm0
        have h2 : m + 1 - 1 = m := by omega
        rw [h2]
        omega
    rw [ha]
    push_cast
    ring
/-- The factorization loop satisfies its invariant after any `m ≤ N - 1`
pivot steps. -/
theorem LDUFold_spec (x y : Nat → GF) (x_0 : GF) (N : Nat) (lastU : Int)
    (hlastU : lastU = ((tri (N - 1) : Nat) : Int) - 1) :
    ∀ m, m ≤ N - 1 →
    LDUStateSpec x y x_0 N m ((List.range m).foldl (LDUStep x y x_0 N lastU)
      { g := fun _ => 1, b := fun _ => 1, mL := [], mU := fun _ => 0,
        dD := fun _ => 0, firstOffset := 0 }) := by
  intro m
  induction m with
  | zero =>
      intro _
      refine ⟨fun j _ => rfl, fun j _ => rfl, rfl,
        fun t => by rw [if_neg (by omega)]; rfl,
        fun t j ht _ _ => by omega, by simp [tri]⟩
  | succ m ih =>
      intro hm
      rw [List.range_succ, List.foldl_append, List.foldl_cons, List.foldl_nil]
      exact LDUStep_spec x y x_0 N lastU hlastU m (by omega) _ (ih (by omega))

theorem range'_one_concat (c : Nat) :
    List.range' 1 (c + 1) = List.range' 1 c ++ [c + 1] := by
  rw [List.range'_concat]
  have h : 1 + 1 * c = c + 1 := by omega
  rw [h]

/-- The diagonal pass scales chunk `j` (the `j` entries starting at
offset `tri c - tri j` past the start) by `x_0 + y j` and touches
nothing else. -/
theorem LDUDiag_spec (x_0 : GF) (y : Nat → GF) :
    ∀ (c : Nat) (P : (Int → GF) × Int),
    (((List.range' 1 c).reverse).foldl (LDUDiagBody x_0 y) P).2
        = P.2 + ((tri c : Nat) : Int) ∧
    (∀ (j : Nat) (r : Int), 1 ≤ j → j ≤ c → 0 ≤ r → r < (j : Int) →
      (((List.range' 1 c).reverse).foldl (LDUDiagBody x_0 y) P).1
          (P.2 + ((tri c : Nat) : Int) - ((tri j : Nat) : Int) + r)
        = (x_0 + y j) * P.1 (P.2 + ((tri c : Nat) : Int) - ((tri j : Nat) : Int) + r)) ∧
    (∀ q : Int, q < P.2 ∨ P.2 + ((tri c : Nat) : Int) ≤ q →
      (((List.range' 1 c).reverse).foldl (LDUDiagBody x_0 y) P).1 q = P.1 q) := by
  intro c
  induction c with
  | zero =>
      intro P
      refine ⟨by simp [tri], fun j r h1 h2 _ _ => by omega, fun q hq => rfl⟩
  | succ c ih =>
      intro P
      rw [range'_one_concat, List.reverse_append, List.reverse_singleton,
        List.singleton_append, List.foldl_cons]
      obtain ⟨ih2, ihw, ihu⟩ := ih (LDUDiagBody x_0 y P (c + 1))
      have htri : ((tri (c + 1) : Nat) : Int) = ((tri c : Nat) : Int) + ((c : Int) + 1) := by
        rw [tri_succ]
        push_cast
        ring
      simp only [LDUDiagBody] at ih2 ihw ihu ⊢
      refine ⟨?_, ?_, ?_⟩
      · rw [ih2]
        omega
      · intro j r h1 h2 h3 h4
        by_cases hcase : j = c + 1
        · subst hcase
          have hpos : P.2 + ((tri (c + 1) : Nat) : Int) - ((tri (c + 1) : Nat) : Int) + r
              = P.2 + r := by omega
          rw [hpos, ihu (P.2 + r) (by left; omega)]
          rw [if_pos (by constructor <;> omega)]
          rfl
        · have hjc : j ≤ c := by omega
          have htle : tri j ≤ tri c := tri_le_tri hjc
          have hpos : P.2 + ((tri (c + 1) : Nat) : Int) - ((tri j : Nat) : Int) + r
              = P.2 + ((c + 1 : Nat) : Int) + ((tri c : Nat) : Int)
                - ((tri j : Nat) : Int) + r := by
            push_cast
            omega
          rw [hpos, ihw j r h1 hjc h3 h4]
          rw [if_neg (by omega)]
      · intro q hq
        rw [ihu q (by omega)]
        rw [if_neg (by omega)]
/-- The value written into the last diagonal slot after the loop. -/
def DentLastW (x y : Nat → GF) (x_0 : GF) (n : Nat) : GF :=
  (gv x y n n * (bv x y n n * (x_0 + y n))) / (x n + y n)

theorem tri_formula (N : Nat) (h : 1 ≤ N) : (N - 1) * N / 2 = tri (N - 1) := by
  unfold tri
  have h2 : N - 1 + 1 = N := by omega
  rw [h2]

/-- Closed forms for the three outputs of `GenerateLDUDecomposition`. -/
theorem GenerateLDU_spec (decoder : CM256Decoder) (blocks : Nat → cm256_block)
    (N : Nat) (x y : Nat → GF) (x_0 : GF)
    (hN : 1 ≤ N) (hNdef : N = decoder.Recovery.length)
    (hx : x = fun i => byteOf (blocks (decoder.Recovery.getD i 0)).Index)
    (hy : y = fun i => byteOf (decoder.ErasuresIndices i))
    (hx0 : x_0 = byteOf decoder.Params.OriginalCount.toNat) :
    (GenerateLDUDecomposition decoder blocks).1
        = ((List.range (N - 1)).map (fun k =>
            (List.range' (k + 1) (N - (k + 1))).map (fun j => Lent x y j k))).flatten ∧
    (∀ t, t < N - 1 → (GenerateLDUDecomposition decoder blocks).2.1 t = DentW x y x_0 t) ∧
    (GenerateLDUDecomposition decoder blocks).2.1 (N - 1) = DentLastW x y x_0 (N - 1) ∧
    (∀ t j, t < j → j < N →
      (GenerateLDUDecomposition decoder blocks).2.2 ((posU N j t : Nat) : Int)
        = (x_0 + y j) * UentRaw x y x_0 t j) := by
  subst hx hy hx0 hNdef
  simp only [GenerateLDUDecomposition]
  have hform : (decoder.Recovery.length - 1) * decoder.Recovery.length / 2
      = tri (decoder.Recovery.length - 1) := tri_formula _ (by omega)
  rw [hform]
  have hfold := LDUFold_spec
    (fun i => byteOf (blocks (decoder.Recovery.getD i 0)).Index)
    (fun i => byteOf (decoder.ErasuresIndices i))
    (byteOf decoder.Params.OriginalCount.toNat)
    decoder.Recovery.length
    (((tri (decoder.Recovery.length - 1) : Nat) : Int) - 1) rfl
    (decoder.Recovery.length - 1) le_rfl
  obtain ⟨hg, hb, hL, hD, hU, hFo⟩ := hfold
  obtain ⟨d2, dw, du⟩ := LDUDiag_spec
    (byteOf decoder.Params.OriginalCount.toNat)
    (fun i => byteOf (decoder.ErasuresIndices i))
    (decoder.Recovery.length - 1)
    (((List.range (decoder.Recovery.length - 1)).foldl
        (LDUStep (fun i => byteOf (blocks (decoder.Recovery.getD i 0)).Index)
          (fun i => byteOf (decoder.ErasuresIndices i))
          (byteOf decoder.Params.OriginalCount.toNat)
          decoder.Recovery.length
          (((tri (decoder.Recovery.length - 1) : Nat) : Int) - 1))
        { g := fun _ => 1, b := fun _ => 1, mL := [], mU := fun _ => 0,
          dD := fun _ => 0, firstOffset := 0 }).mU, (0 : Int))
  refine ⟨hL, ?_, ?_, ?_⟩
  · intro t ht
    rw [Function.update_noteq (by omega), hD t, if_pos ht]
  · rw [Function.update_same, hg (decoder.Recovery.length - 1) (by omega),
      hb (decoder.Recovery.length - 1) (by omega)]
    rfl
  · intro t j htj hjN
    have h1j : 1 ≤ j := by omega
    have hw := dw j ((j : Int) - 1 - (t : Int)) h1j (by omega) (by omega) (by omega)
    dsimp only at hw
    have hpos : (0 : Int) + ((tri (decoder.Recovery.length - 1) : Nat) : Int)
        - ((tri j : Nat) : Int) + ((j : Int) - 1 - (t : Int))
        = ((posU decoder.Recovery.length j t : Nat) : Int) := by
      have e1 := posU_spec (N := decoder.Recovery.length) (j := j) (t := t)
        h1j htj (by omega)
      have e2 : ((posU decoder.Recovery.length j t : Nat) : Int)
          + ((t : Int) + 1 + ((tri (j - 1) : Nat) : Int))
          = ((tri (decoder.Recovery.length - 1) : Nat) : Int) := by exact_mod_cast e1
      have e3 := tri_pred_add j h1j
      omega
    rw [hpos] at hw
    rw [hU t j (by omega) htj hjN] at hw
    exact hw
theorem flatten_getD_column : ∀ (m s t r : Nat) (cols : Nat → List GF),
    s ≤ t → t < s + m → r < (cols t).length →
    (((List.range' s m).map cols).flatten).getD
      ((((List.range' s (t - s)).map cols).map List.length).sum + r) 0
    = (cols t).getD r 0 := by
  intro m
  induction m with
  | zero =>
      intro s t r cols h1 h2
      omega
  | succ m ih =>
      intro s t r cols h1 h2 h3
      rw [List.range'_succ, List.map_cons, List.flatten_cons]
      by_cases hcase : t = s
      · subst hcase
        rw [Nat.sub_self]
        simp only [List.range', List.map_nil, List.sum_nil, Nat.zero_add]
        rw [List.getD_append _ _ _ _ h3]
      · have hts : s + 1 ≤ t := by omega
        have hsplit : List.range' s (t - s) = s :: List.range' (s + 1) (t - s - 1) := by
          have h4 : t - s = (t - s - 1) + 1 := by omega
          conv_lhs => rw [h4]
          rw [List.range'_succ]
        rw [hsplit, List.map_cons, List.map_cons, List.sum_cons]
        have hlen : (cols s).length ≤
            (cols s).length
              + ((((List.range' (s + 1) (t - s - 1)).map cols).map List.length).sum + r) := by
          omega
        rw [Nat.add_assoc, List.getD_append_right _ _ _ _ (by omega),
          Nat.add_sub_cancel_left]
        have := ih (s + 1) t r cols hts (by omega) h3
        have harg : t - s - 1 = t - (s + 1) := by omega
        rw [harg]
        exact this

/-- Reading `L` back out of `matrix_L`: unit diagonal, strict lower part
at the columns-top-down packing. -/
def unpackL (N : Nat) (mL : List GF) (i t : Nat) : GF :=
  if t = i then 1 else if t < i then mL.getD (posL N t i) 0 else 0

/-- Reading `U` back out of `matrix_U`: unit diagonal, strict upper part
at the packing the elimination pass reads. -/
def unpackU (N : Nat) (mU : Int → GF) (t j : Nat) : GF :=
  if t = j then 1 else if t < j then mU ((posU N j t : Nat) : Int) else 0

theorem colOff_eq_sum (N t : Nat) (cols : Nat → List GF)
    (hlen : ∀ u, u < t → (cols u).length = N - (u + 1)) :
    (((List.range' 0 t).map cols).map List.length).sum = colOff N t := by
  unfold colOff
  rw [List.map_map, ← List.range_eq_range']
  congr 1
  refine List.map_congr_left (fun u hu => ?_)
  have h2 := hlen u (List.mem_range.mp hu)
  show (cols u).length = N - 1 - u
  omega

theorem mL_getD (x y : Nat → GF) (N : Nat) (t i : Nat) (ht : t < i) (hi : i < N) :
    (((List.range (N - 1)).map (fun k =>
        (List.range' (k + 1) (N - (k + 1))).map (fun j => Lent x y j k))).flatten).getD
      (posL N t i) 0 = Lent x y i t := by
  have hlen : ∀ u, u < t →
      ((fun k => (List.range' (k + 1) (N - (k + 1))).map (fun j => Lent x y j k)) u).length
      = N - (u + 1) := by
    intro u _
    rw [List.length_map, List.length_range']
  have hsum := colOff_eq_sum N t
    (fun k => (List.range' (k + 1) (N - (k + 1))).map (fun j => Lent x y j k)) hlen
  have hcol := flatten_getD_column (N - 1) 0 t (i - t - 1)
    (fun k => (List.range' (k + 1) (N - (k + 1))).map (fun j => Lent x y j k))
    (by omega) (by omega)
    (by rw [List.length_map, List.length_range']; omega)
  rw [Nat.sub_zero] at hcol
  rw [List.range_eq_range']
  unfold posL
  rw [← hsum, hcol]
  have harg2 : t + 1 + 1 * (i - t - 1) = i := by omega
  rw [List.getD_eq_getElem?_getD, List.getElem?_map, List.getElem?_range', harg2]
  · rfl
  · omega


theorem GF.add_self_eq_zero (a : GF) : a + a = 0 := GF.ext (Nat.xor_self _)

theorem GF.two_eq_zero : (2 : GF) = 0 := by
  rw [← one_add_one_eq_two]
  exact GF.add_self_eq_zero 1

theorem GF.three_eq_one : (3 : GF) = 1 := by
  rw [show (3 : GF) = 2 + 1 by norm_num, GF.two_eq_zero, zero_add]

theorem GF.four_eq_zero : (4 : GF) = 0 := by
  rw [show (4 : GF) = 2 * 2 by norm_num, GF.two_eq_zero, zero_mul]

theorem GF.five_eq_one : (5 : GF) = 1 := by
  rw [show (5 : GF) = 4 + 1 by norm_num, GF.four_eq_zero, zero_add]

theorem GF.six_eq_zero : (6 : GF) = 0 := by
  rw [show (6 : GF) = 2 * 3 by norm_num, GF.two_eq_zero, zero_mul]

theorem GF.seven_eq_one : (7 : GF) = 1 := by
  rw [show (7 : GF) = 6 + 1 by norm_num, GF.six_eq_zero, zero_add]

theorem GF.eight_eq_zero : (8 : GF) = 0 := by
  rw [show (8 : GF) = 2 * 4 by norm_num, GF.two_eq_zero, zero_mul]

theorem GF.nine_eq_one : (9 : GF) = 1 := by
  rw [show (9 : GF) = 8 + 1 by norm_num, GF.eight_eq_zero, zero_add]

theorem GF.ten_eq_zero : (10 : GF) = 0 := by
  rw [show (10 : GF) = 2 * 5 by norm_num, GF.two_eq_zero, zero_mul]

theorem GF.twelve_eq_zero : (12 : GF) = 0 := by
  rw [show (12 : GF) = 2 * 6 by norm_num, GF.two_eq_zero, zero_mul]

/-- The Schur complement after `t` pivot steps of the Cauchy-like matrix. -/
def Amat (x y : Nat → GF) (x_0 : GF) (t i j : Nat) : GF :=
  gv x y t i * (bv x y t j * (x_0 + y j)) / (x i + y j)

def Uent (x y : Nat → GF) (x_0 : GF) (t j : Nat) : GF :=
  ((bv x y t j / (x t + y j)) / ((bv x y t t / (x t + y t)) * (x_0 + y t))) * (x_0 + y j)

def Dent (x y : Nat → GF) (x_0 : GF) (t : Nat) : GF :=
  gv x y t t * bv x y t t * (x_0 + y t) / (x t + y t)

def Lfull (x y : Nat → GF) (i t : Nat) : GF :=
  if t = i then 1 else if t < i then Lent x y i t else 0

def Ufull (x y : Nat → GF) (x_0 : GF) (t j : Nat) : GF :=
  if t = j then 1 else if t < j then Uent x y x_0 t j else 0

section LDUMath

variable (x y : Nat → GF) (x_0 : GF) (N : Nat)
variable (hxy : ∀ i < N, ∀ j < N, x i + y j ≠ 0)
variable (hxx : ∀ i < N, ∀ j < N, i ≠ j → x i + x j ≠ 0)
variable (hyy : ∀ i < N, ∀ j < N, i ≠ j → y i + y j ≠ 0)
variable (hx0y : ∀ j < N, x_0 + y j ≠ 0)

theorem gv_succ_of_lt {k j : Nat} (h : k < j) (x y : Nat → GF) :
    gv x y (k + 1) j = gv x y k j * ((x j + x k) / (x j + y k)) := by
  rw [gv, if_pos h]

theorem bv_succ_of_lt {k j : Nat} (h : k < j) (x y : Nat → GF) :
    bv x y (k + 1) j = bv x y k j * ((y j + y k) / (y j + x k)) := by
  rw [bv, if_pos h]

theorem gv_succ_of_ge {k j : Nat} (h : ¬ k < j) (x y : Nat → GF) :
    gv x y (k + 1) j = gv x y k j := by
  rw [gv, if_neg h]

theorem bv_succ_of_ge {k j : Nat} (h : ¬ k < j) (x y : Nat → GF) :
    bv x y (k + 1) j = bv x y k j := by
  rw [bv, if_neg h]

include hxy hxx in
theorem gv_ne_zero : ∀ k j : Nat, k ≤ j → j < N → gv x y k j ≠ 0 := by
  intro k
  induction k with
  | zero => intro j _ _; simp [gv]
  | succ k ih =>
      intro j hkj hjN
      rw [gv_succ_of_lt (by omega)]
      exact mul_ne_zero (ih j (by omega) hjN)
        (div_ne_zero (hxx j hjN k (by omega) (by omega)) (hxy j hjN k (by omega)))

include hxy hyy in
theorem bv_ne_zero : ∀ k j : Nat, k ≤ j → j < N → bv x y k j ≠ 0 := by
  intro k
  induction k with
  | zero => intro j _ _; simp [bv]
  | succ k ih =>
      intro j hkj hjN
      rw [bv_succ_of_lt (by omega)]
      refine mul_ne_zero (ih j (by omega) hjN) (div_ne_zero (hyy j hjN k (by omega) (by omega)) ?_)
      rw [add_comm]
      exact hxy k (by omega) j hjN

include hxy hxx hyy hx0y in
theorem Amat_diag_ne_zero : ∀ t < N, Amat x y x_0 t t t ≠ 0 := by
  intro t htN
  unfold Amat
  exact div_ne_zero
    (mul_ne_zero (gv_ne_zero x y N hxy hxx t t le_rfl htN)
      (mul_ne_zero (bv_ne_zero x y N hxy hyy t t le_rfl htN) (hx0y t htN)))
    (hxy t htN t htN)

include hxy hxx hyy hx0y in
theorem Lent_eq_Amat {i t : Nat} (ht : t < N) (hi : i < N) :
    Lent x y i t = Amat x y x_0 t i t / Amat x y x_0 t t t := by
  unfold Lent Amat
  have h1 : x i + y t ≠ 0 := hxy i hi t ht
  have h2 : x t + y t ≠ 0 := hxy t ht t ht
  have h3 : gv x y t t ≠ 0 := gv_ne_zero x y N hxy hxx t t le_rfl ht
  have h4 : bv x y t t ≠ 0 := bv_ne_zero x y N hxy hyy t t le_rfl ht
  have h5 : x_0 + y t ≠ 0 := hx0y t ht
  field_simp
  ring

include hxy hxx hyy hx0y in
theorem Uent_eq_Amat {t j : Nat} (ht : t < N) (hj : j < N) :
    Uent x y x_0 t j = Amat x y x_0 t t j / Amat x y x_0 t t t := by
  unfold Uent Amat
  have h1 : x t + y j ≠ 0 := hxy t ht j hj
  have h2 : x t + y t ≠ 0 := hxy t ht t ht
  have h3 : gv x y t t ≠ 0 := gv_ne_zero x y N hxy hxx t t le_rfl ht
  have h4 : bv x y t t ≠ 0 := bv_ne_zero x y N hxy hyy t t le_rfl ht
  have h5 : x_0 + y t ≠ 0 := hx0y t ht
  field_simp
  ring

theorem Dent_eq_Amat (t : Nat) : Dent x y x_0 t = Amat x y x_0 t t t := by
  unfold Dent Amat
  ring

theorem key4 (a b c d : GF) (h1 : a + c ≠ 0) (h2 : a + d ≠ 0) (h3 : b + c ≠ 0) :
    1 / (a + c) = (b + d) / ((a + d) * (b + c))
      + ((a + b) * (c + d)) / ((a + d) * ((c + b) * (a + c))) := by
  have hcb : c + b ≠ 0 := by rw [add_comm]; exact h3
  field_simp
  ring_nf
  simp [GF.two_eq_zero, GF.three_eq_one, GF.four_eq_zero, GF.five_eq_one,
    GF.six_eq_zero, GF.seven_eq_one, GF.eight_eq_zero, GF.nine_eq_one,
    GF.ten_eq_zero, GF.twelve_eq_zero]

include hxy hxx hyy hx0y in
theorem Amat_step {t i j : Nat} (hi : i < N) (hj : j < N) (hti : t < i) (htj : t < j) :
    Amat x y x_0 t i j
      = Amat x y x_0 t i t * Amat x y x_0 t t j / Amat x y x_0 t t t
        + Amat x y x_0 (t + 1) i j := by
  have htN : t < N := by omega
  have n1 : x i + y j ≠ 0 := hxy i hi j hj
  have n2 : x i + y t ≠ 0 := hxy i hi t htN
  have n3 : x t + y j ≠ 0 := hxy t htN j hj
  have n4 : x t + y t ≠ 0 := hxy t htN t htN
  have n5 : y j + x t ≠ 0 := by rw [add_comm]; exact n3
  have n6 : gv x y t t ≠ 0 := gv_ne_zero x y N hxy hxx t t le_rfl htN
  have n7 : bv x y t t ≠ 0 := bv_ne_zero x y N hxy hyy t t le_rfl htN
  have n8 : x_0 + y t ≠ 0 := hx0y t htN
  have e1 : Amat x y x_0 t i j
      = gv x y t i * bv x y t j * (x_0 + y j) * (1 / (x i + y j)) := by
    unfold Amat
    ring
  have e2 : Amat x y x_0 t i t * Amat x y x_0 t t j / Amat x y x_0 t t t
      = gv x y t i * bv x y t j * (x_0 + y j)
        * ((x t + y t) / ((x i + y t) * (x t + y j))) := by
    unfold Amat
    field_simp
    ring
  have e3 : Amat x y x_0 (t + 1) i j
      = gv x y t i * bv x y t j * (x_0 + y j)
        * (((x i + x t) * (y j + y t)) / ((x i + y t) * ((y j + x t) * (x i + y j)))) := by
    unfold Amat
    rw [gv_succ_of_lt hti, bv_succ_of_lt htj]
    field_simp
    ring
  rw [e1, e2, e3, key4 (x i) (x t) (y j) (y t) n1 n2 n3, mul_add]

include hxy hxx hyy hx0y in
theorem Amat_telescope : ∀ (t : Nat), ∀ i < N, ∀ j < N, t ≤ i → t ≤ j →
    Amat x y x_0 0 i j
      = (∑ s ∈ Finset.range t, Lfull x y i s * Dent x y x_0 s * Ufull x y x_0 s j)
        + Amat x y x_0 t i j := by
  intro t
  induction t with
  | zero =>
      intro i hi j hj _ _
      simp
  | succ t ih =>
      intro i hi j hj hti htj
      rw [ih i hi j hj (by omega) (by omega), Finset.sum_range_succ]
      have hti' : t < i := by omega
      have htj' : t < j := by omega
      have htN : t < N := by omega
      have hterm : Lfull x y i t * Dent x y x_0 t * Ufull x y x_0 t j
          = Amat x y x_0 t i t * Amat x y x_0 t t j / Amat x y x_0 t t t := by
        unfold Lfull Ufull
        rw [if_neg (by omega : ¬ t = i), if_pos hti', if_neg (by omega : ¬ t = j),
          if_pos htj', Lent_eq_Amat x y x_0 N hxy hxx hyy hx0y htN hi,
          Uent_eq_Amat x y x_0 N hxy hxx hyy hx0y htN hj, Dent_eq_Amat]
        have hA := Amat_diag_ne_zero x y x_0 N hxy hxx hyy hx0y t htN
        field_simp
      rw [Amat_step x y x_0 N hxy hxx hyy hx0y hi hj hti' htj', hterm, add_assoc]

include hxy hxx hyy hx0y in
theorem LDU_product : ∀ i < N, ∀ j < N,
    Amat x y x_0 0 i j
      = ∑ t ∈ Finset.range N, Lfull x y i t * Dent x y x_0 t * Ufull x y x_0 t j := by
  intro i hi j hj
  rcases le_or_lt i j with hij | hij
  · rw [Amat_telescope x y x_0 N hxy hxx hyy hx0y i i hi j hj le_rfl hij]
    have hvanish : ∀ t ∈ Finset.range N, t ∉ Finset.range (i + 1) →
        Lfull x y i t * Dent x y x_0 t * Ufull x y x_0 t j = 0 := by
      intro t ht hnot
      simp only [Finset.mem_range] at ht hnot
      unfold Lfull
      rw [if_neg (by omega), if_neg (by omega), zero_mul, zero_mul]
    rw [← Finset.sum_subset (Finset.range_subset.mpr (by omega : i + 1 ≤ N)) hvanish,
      Finset.sum_range_succ]
    congr 1
    unfold Lfull Ufull
    rw [if_pos rfl]
    by_cases hj' : i = j
    · subst hj'
      rw [if_pos rfl, Dent_eq_Amat]
      ring
    · rw [if_neg hj', if_pos (by omega), Dent_eq_Amat,
        Uent_eq_Amat x y x_0 N hxy hxx hyy hx0y hi hj]
      have hA := Amat_diag_ne_zero x y x_0 N hxy hxx hyy hx0y i hi
      field_simp
  · rw [Amat_telescope x y x_0 N hxy hxx hyy hx0y j i hi j hj (by omega) le_rfl]
    have hvanish : ∀ t ∈ Finset.range N, t ∉ Finset.range (j + 1) →
        Lfull x y i t * Dent x y x_0 t * Ufull x y x_0 t j = 0 := by
      intro t ht hnot
      simp only [Finset.mem_range] at ht hnot
      unfold Ufull
      rw [if_neg (by omega), if_neg (by omega), mul_zero]
    rw [← Finset.sum_subset (Finset.range_subset.mpr (by omega : j + 1 ≤ N)) hvanish,
      Finset.sum_range_succ]
    congr 1
    unfold Lfull Ufull
    rw [if_pos rfl, if_neg (by omega : ¬ j = i), if_pos hij,
      Lent_eq_Amat x y x_0 N hxy hxx hyy hx0y hj hi, Dent_eq_Amat]
    have hA := Amat_diag_ne_zero x y x_0 N hxy hxx hyy hx0y j hj
    field_simp

theorem Amat_zero_eq (i j : Nat) :
    Amat x y x_0 0 i j = GetMatrixElement (x i) x_0 (y j) := by
  unfold Amat GetMatrixElement gf256_div gf256_add
  simp [gv, bv]
  rw [add_comm (y j) x_0]

end LDUMath


theorem GF.add_eq_zero_iff (a b : GF) : a + b = 0 ↔ a = b := by
  constructor
  · intro h
    have hv : a.val ^^^ b.val = 0 := congrArg GF.val h
    exact GF.ext (Nat.xor_eq_zero.mp hv)
  · intro h
    subst h
    exact GF.add_self_eq_zero a

theorem byteOf_add_ne_zero {a b : Nat} (ha : a < 256) (hb : b < 256) (h : a ≠ b) :
    byteOf a + byteOf b ≠ 0 := by
  intro hz
  have := (GF.add_eq_zero_iff _ _).mp hz
  have hv : a % 256 = b % 256 := congrArg GF.val this
  rw [Nat.mod_eq_of_lt ha, Nat.mod_eq_of_lt hb] at hv
  exact h hv

theorem nodup_getD_ne {l : List Nat} (h : l.Nodup) {i j : Nat}
    (hi : i < l.length) (hj : j < l.length) (hij : i ≠ j) :
    l.getD i 0 ≠ l.getD j 0 := by
  rw [List.getD_eq_getElem l 0 hi, List.getD_eq_getElem l 0 hj]
  intro he
  exact hij (h.getElem_inj_iff.mp he)

theorem getD_mem_of_lt {l : List Nat} {i : Nat} (hi : i < l.length) :
    l.getD i 0 ∈ l := by
  rw [List.getD_eq_getElem l 0 hi]
  exact l.getElem_mem hi
/-- Full characterization of a successful `Initialize`: the state record,
the count of missing originals, and the collected erasure indices. -/
theorem Initialize_full (params : cm256_encoder_params) (bl : Nat → cm256_block)
    (hk : 0 < params.OriginalCount) (hkm : params.OriginalCount ≤ 256)
    (hdist : ∀ p < params.OriginalCount.toNat, ∀ q < params.OriginalCount.toNat,
      p ≠ q → (bl p).Index ≠ (bl q).Index) :
    ∃ st, Initialize params bl = some st ∧
      st.Params = params ∧
      st.Original = (List.range params.OriginalCount.toNat).filter
        (fun p => decide ((bl p).Index < params.OriginalCount.toNat)) ∧
      st.Recovery = (List.range params.OriginalCount.toNat).filter
        (fun p => !decide ((bl p).Index < params.OriginalCount.toNat)) ∧
      ((List.range params.OriginalCount.toNat).filter
        (fun r => decide (∀ p < params.OriginalCount.toNat, (bl p).Index ≠ r))).length
        = st.Recovery.length ∧
      (∀ j < st.Recovery.length,
        st.ErasuresIndices j
          = ((List.range params.OriginalCount.toNat).filter
              (fun r => decide (∀ p < params.OriginalCount.toNat,
                (bl p).Index ≠ r))).getD j 0) := by
  have hdist' : ∀ p < params.OriginalCount.toNat, ∀ q < params.OriginalCount.toNat,
      p ≠ q → (bl p).Index < params.OriginalCount.toNat →
      (bl p).Index ≠ (bl q).Index := fun p hp q hq hpq _ => hdist p hp q hq hpq
  have hk' : params.OriginalCount.toNat ≤ 256 := by omega
  set k2 := params.OriginalCount.toNat with hk2
  set efin : Nat → Nat := fun idx =>
    if (List.range k2).any (fun p => (bl p).Index == idx && decide ((bl p).Index < k2))
    then 1 else 0 with hefin
  set origF := (List.range k2).filter (fun p => decide ((bl p).Index < k2)) with horigF
  set recovF := (List.range k2).filter (fun p => !decide ((bl p).Index < k2)) with hrecovF
  set missingSpec := (List.range k2).filter
    (fun r => decide (∀ p < k2, (bl p).Index ≠ r)) with hmiss
  -- counting: as many missing originals as recovery rows
  have horigNodup : origF.Nodup := (List.nodup_range _).filter _
  have hIdxNodup : (origF.map (fun p => (bl p).Index)).Nodup := by
    refine List.Nodup.map_on ?_ horigNodup
    intro p hp q hq hpqidx
    by_contra hpq
    exact hdist p (List.mem_range.mp (List.mem_of_mem_filter hp))
      q (List.mem_range.mp (List.mem_of_mem_filter hq)) hpq hpqidx
  have hpresNodup : ((List.range k2).filter
      (fun r => !decide (∀ p < k2, (bl p).Index ≠ r))).Nodup :=
    (List.nodup_range _).filter _
  have hmemiff : ∀ x, x ∈ origF.map (fun p => (bl p).Index) ↔
      x ∈ (List.range k2).filter (fun r => !decide (∀ p < k2, (bl p).Index ≠ r)) := by
    intro x
    constructor
    · intro hx
      obtain ⟨p, hp, hpx⟩ := List.mem_map.mp hx
      have hpmem := List.mem_range.mp (List.mem_of_mem_filter hp)
      have hplt : (bl p).Index < k2 := by
        have := List.of_mem_filter hp
        simpa using this
      refine List.mem_filter.mpr ⟨List.mem_range.mpr (hpx ▸ hplt), ?_⟩
      have : ¬ ∀ q < k2, (bl q).Index ≠ x := fun hall => hall p hpmem hpx
      simp [this]
    · intro hx
      have hxlt := List.mem_range.mp (List.mem_of_mem_filter hx)
      have hex : ¬ ∀ p < k2, (bl p).Index ≠ x := by
        have := List.of_mem_filter hx
        simpa using this
      push_neg at hex
      obtain ⟨p, hp, hpx⟩ := hex
      refine List.mem_map.mpr ⟨p, ?_, hpx⟩
      refine List.mem_filter.mpr ⟨List.mem_range.mpr hp, ?_⟩
      simp [hpx ▸ hxlt]
  have hlenpres : (origF.map (fun p => (bl p).Index)).length
      = ((List.range k2).filter (fun r => !decide (∀ p < k2, (bl p).Index ≠ r))).length :=
    length_eq_of_nodup_mem_iff hIdxNodup hpresNodup hmemiff
  have hpart1 : origF.length + recovF.length = k2 := by
    have := length_filter_pair (fun p => decide ((bl p).Index < k2)) (List.range k2)
    simpa using this
  have hpart2 : missingSpec.length
      + ((List.range k2).filter (fun r => !decide (∀ p < k2, (bl p).Index ≠ r))).length
      = k2 := by
    have := length_filter_pair (fun r => decide (∀ p < k2, (bl p).Index ≠ r))
      (List.range k2)
    simpa using this
  rw [List.length_map] at hlenpres
  have hcount : missingSpec.length = recovF.length := by omega
  refine ⟨_, Initialize_eq params bl hdist', rfl, rfl, rfl, ?_, ?_⟩
  · dsimp only
    exact hcount
  · intro j hj
    dsimp only at hj ⊢
    -- the zeros of the presence array inside [0, k) are the missing originals
    have hmiss_eq : (List.range k2).filter (fun idx => efin idx == 0) = missingSpec := by
      refine List.filter_congr (fun idx hidx => ?_)
      by_cases hany : (List.range k2).any
          (fun p => (bl p).Index == idx && decide ((bl p).Index < k2)) = true
      · obtain ⟨p, hpmem, hpp⟩ := List.any_eq_true.mp hany
        rw [Bool.and_eq_true, beq_iff_eq] at hpp
        have h1 : efin idx = 1 := by rw [hefin]; simp only []; rw [if_pos hany]
        have hnall : ¬ ∀ p < k2, (bl p).Index ≠ idx :=
          fun hall => hall p (List.mem_range.mp hpmem) hpp.1
        rw [h1]
        simp [hnall]
      · have h0 : efin idx = 0 := by rw [hefin]; simp only []; rw [if_neg hany]
        have hall : ∀ p < k2, (bl p).Index ≠ idx := by
          intro p hp heq
          exact hany (List.any_eq_true.mpr
            ⟨p, List.mem_range.mpr hp, by simp [heq, List.mem_range.mp hidx]⟩)
        rw [h0, decide_eq_true hall]
        rfl
    -- evaluate the collection scan
    have hsplit : List.range 256 = List.range k2 ++ (List.range (256 - k2)).map (k2 + ·) := by
      rw [show 256 = k2 + (256 - k2) by omega, List.range_add]
      simp
    have hzs : (List.range 256).filter (fun idx => efin idx == 0)
        = missingSpec ++ ((List.range (256 - k2)).map (k2 + ·)).filter
            (fun idx => efin idx == 0) := by
      rw [hsplit, List.filter_append, hmiss_eq]
    have hjR : j < recovF.length := hj
    have hjz : j - 0 < ((List.range 256).filter (fun idx => efin idx == 0)).length := by
      rw [hzs, List.length_append]
      omega
    rw [eraseScan_at recovF.length (List.range 256) efin 0
      (List.pairwise_lt_range 256) (fun _ _ => Nat.zero_le _) j (Nat.zero_le _) hjR hjz,
      hzs, Nat.sub_zero, List.getD_append _ _ _ _ (by omega)]
theorem DentW_eq_Dent (x y : Nat → GF) (x_0 : GF) (t : Nat) (h : x t + y t ≠ 0) :
    DentW x y x_0 t = Dent x y x_0 t := by
  unfold DentW Dent
  field_simp
  ring

theorem DentLastW_eq_Dent (x y : Nat → GF) (x_0 : GF) (n : Nat) :
    DentLastW x y x_0 n = Dent x y x_0 n := by
  unfold DentLastW Dent
  ring

theorem UentRaw_mul (x y : Nat → GF) (x_0 : GF) (t j : Nat) :
    (x_0 + y j) * UentRaw x y x_0 t j = Uent x y x_0 t j := by
  unfold UentRaw Uent
  ring

/-- C2: for a decoder state produced by `Initialize` from `k`
distinct-indexed byte-valued blocks with `N = RecoveryCount ≥ 2`
erasures, `GenerateLDUDecomposition` writes into `matrix_L`, `diag_D`
and `matrix_U` the factors of an LDU decomposition of the `N×N` Cauchy
matrix with entries `GetMatrixElement`: entry `(i, j)` equals the
`(i, j)` entry of `L·D·U`, where `L` is unit lower-triangular with its
strict part read from `matrix_L` columns-top-down, `D` is `diag_D`, and
`U` is unit upper-triangular with its strict part read from `matrix_U`
at the packing the elimination pass reads. -/
theorem claim_C2 (params : cm256_encoder_params) (bl : Nat → cm256_block)
    (hk : 0 < params.OriginalCount)
    (hm : 0 < params.RecoveryCount)
    (hkm : params.OriginalCount + params.RecoveryCount ≤ 256)
    (hdist : ∀ p < params.OriginalCount.toNat, ∀ q < params.OriginalCount.toNat,
      p ≠ q → (bl p).Index ≠ (bl q).Index)
    (hbyte : ∀ p < params.OriginalCount.toNat, (bl p).Index < 256)
    (st : CM256Decoder) (hinit : Initialize params bl = some st)
    (hN : 2 ≤ st.Recovery.length) :
    ∀ i < st.Recovery.length, ∀ j < st.Recovery.length,
      GetMatrixElement (byteOf (bl (st.Recovery.getD i 0)).Index)
          (byteOf params.OriginalCount.toNat)
          (byteOf (st.ErasuresIndices j))
        = ∑ t ∈ Finset.range st.Recovery.length,
            unpackL st.Recovery.length (GenerateLDUDecomposition st bl).1 i t
              * (GenerateLDUDecomposition st bl).2.1 t
              * unpackU st.Recovery.length (GenerateLDUDecomposition st bl).2.2 t j := by
  intro i hi j hj
  obtain ⟨st', hinit', hparams, horig, hrecov, hcount, herase⟩ :=
    Initialize_full params bl hk (by omega) hdist
  rw [hinit] at hinit'
  obtain rfl := Option.some.inj hinit'
  set k2 := params.OriginalCount.toNat with hk2
  set N := st.Recovery.length with hNdef
  have hk2le : k2 ≤ 255 := by omega
  have hposfacts : ∀ a, a < N → st.Recovery.getD a 0 < k2
      ∧ k2 ≤ (bl (st.Recovery.getD a 0)).Index := by
    intro a ha
    have hmem : st.Recovery.getD a 0 ∈ st.Recovery := getD_mem_of_lt ha
    nth_rewrite 1 [hrecov] at hmem
    have h1 := List.mem_range.mp (List.mem_of_mem_filter hmem)
    have h2 := List.of_mem_filter hmem
    simp only [Bool.not_eq_eq_eq_not, Bool.not_true, decide_eq_false_iff_not,
      Nat.not_lt] at h2
    exact ⟨h1, h2⟩
  have hrecovNodup : st.Recovery.Nodup := by
    rw [hrecov]
    exact (List.nodup_range _).filter _
  have hxne : ∀ a, a < N → ∀ b, b < N → a ≠ b →
      (bl (st.Recovery.getD a 0)).Index ≠ (bl (st.Recovery.getD b 0)).Index := by
    intro a ha b hb hab
    exact hdist _ (hposfacts a ha).1 _ (hposfacts b hb).1
      (nodup_getD_ne hrecovNodup ha hb hab)
  have hmissNodup : ((List.range k2).filter
      (fun r => decide (∀ p < k2, (bl p).Index ≠ r))).Nodup :=
    (List.nodup_range _).filter _
  have hylt : ∀ b, b < N → st.ErasuresIndices b < k2 := by
    intro b hb
    rw [herase b hb]
    have hmem := getD_mem_of_lt (l := (List.range k2).filter
      (fun r => decide (∀ p < k2, (bl p).Index ≠ r))) (i := b) (by omega)
    exact List.mem_range.mp (List.mem_of_mem_filter hmem)
  have hyne : ∀ a, a < N → ∀ b, b < N → a ≠ b →
      st.ErasuresIndices a ≠ st.ErasuresIndices b := by
    intro a ha b hb hab
    rw [herase a ha, herase b hb]
    exact nodup_getD_ne hmissNodup (by omega) (by omega) hab
  set xl : Nat → GF := fun a => byteOf (bl (st.Recovery.getD a 0)).Index with hxl
  set yl : Nat → GF := fun b => byteOf (st.ErasuresIndices b) with hyl
  set x0c : GF := byteOf k2 with hx0c
  have hxy : ∀ a < N, ∀ b < N, xl a + yl b ≠ 0 := by
    intro a ha b hb
    rw [hxl, hyl]
    exact byteOf_add_ne_zero (hbyte _ (hposfacts a ha).1) (by have := hylt b hb; omega)
      (by have := (hposfacts a ha).2; have := hylt b hb; omega)
  have hxx : ∀ a < N, ∀ b < N, a ≠ b → xl a + xl b ≠ 0 := by
    intro a ha b hb hab
    rw [hxl]
    exact byteOf_add_ne_zero (hbyte _ (hposfacts a ha).1) (hbyte _ (hposfacts b hb).1)
      (hxne a ha b hb hab)
  have hyy : ∀ a < N, ∀ b < N, a ≠ b → yl a + yl b ≠ 0 := by
    intro a ha b hb hab
    rw [hyl]
    exact byteOf_add_ne_zero (by have := hylt a ha; omega) (by have := hylt b hb; omega)
      (hyne a ha b hb hab)
  have hx0y : ∀ b < N, x0c + yl b ≠ 0 := by
    intro b hb
    rw [hx0c, hyl]
    exact byteOf_add_ne_zero (by omega) (by have := hylt b hb; omega)
      (by have := hylt b hb; omega)
  have habstract := LDU_product xl yl x0c N hxy hxx hyy hx0y i hi j hj
  rw [Amat_zero_eq] at habstract
  obtain ⟨hLout, hDout, hDlast, hUout⟩ := GenerateLDU_spec st bl N xl yl x0c
    (by omega) hNdef hxl (by rw [hyl]) (by rw [hx0c, hk2, hparams])
  have hsum : ∀ t ∈ Finset.range N,
      unpackL N (GenerateLDUDecomposition st bl).1 i t
        * (GenerateLDUDecomposition st bl).2.1 t
        * unpackU N (GenerateLDUDecomposition st bl).2.2 t j
      = Lfull xl yl i t * Dent xl yl x0c t * Ufull xl yl x0c t j := by
    intro t ht
    have htN := Finset.mem_range.mp ht
    have h1 : unpackL N (GenerateLDUDecomposition st bl).1 i t = Lfull xl yl i t := by
      unfold unpackL Lfull
      by_cases e1 : t = i
      · rw [if_pos e1, if_pos e1]
      · rw [if_neg e1, if_neg e1]
        by_cases e2 : t < i
        · rw [if_pos e2, if_pos e2, hLout, mL_getD xl yl N t i e2 hi]
        · rw [if_neg e2, if_neg e2]
    have h2 : (GenerateLDUDecomposition st bl).2.1 t = Dent xl yl x0c t := by
      by_cases e1 : t < N - 1
      · rw [hDout t e1, DentW_eq_Dent xl yl x0c t (hxy t (by omega) t (by omega))]
      · have he : t = N - 1 := by omega
        rw [he, hDlast, DentLastW_eq_Dent]
    have h3 : unpackU N (GenerateLDUDecomposition st bl).2.2 t j = Ufull xl yl x0c t j := by
      unfold unpackU Ufull
      by_cases e1 : t = j
      · rw [if_pos e1, if_pos e1]
      · rw [if_neg e1, if_neg e1]
        by_cases e2 : t < j
        · rw [if_pos e2, if_pos e2, hUout t j e2 hj, UentRaw_mul]
        · rw [if_neg e2, if_neg e2]
    rw [h1, h2, h3]
  rw [Finset.sum_congr rfl hsum]
  exact habstract

/-- Concrete blocks for exercising the factorization: two recovery rows
with wire indices 2 and 3 standing in for both originals. -/
def blC2 : Nat → cm256_block :=
  fun p => if p = 0 then ⟨fun _ => 0, 2⟩ else ⟨fun _ => 0, 3⟩

/-- The decoder state `Initialize` builds from `blC2`. -/
def stC2 : CM256Decoder :=
  { Params := ⟨1, 2, 2⟩, Recovery := [0, 1], Original := [],
    ErasuresIndices := eraseScan 2 (List.range 256) (fun _ => 0) 0 }

theorem claim_C2_witness :
    GetMatrixElement (byteOf (blC2 (stC2.Recovery.getD 0 0)).Index) (byteOf 2)
        (byteOf (stC2.ErasuresIndices 0))
      = ∑ t ∈ Finset.range stC2.Recovery.length,
          unpackL stC2.Recovery.length (GenerateLDUDecomposition stC2 blC2).1 0 t
            * (GenerateLDUDecomposition stC2 blC2).2.1 t
            * unpackU stC2.Recovery.length (GenerateLDUDecomposition stC2 blC2).2.2 t 0 :=
  claim_C2 ⟨1, 2, 2⟩ blC2 (by decide) (by decide) (by decide) (by decide) (by decide)
    stC2 rfl (by decide) 0 (by decide) 0 (by decide)


theorem GetMatrixElement_diag (x_i y : GF) (h : x_i + y ≠ 0) :
    GetMatrixElement x_i x_i y = 1 := by
  show (y + x_i) / (x_i + y) = 1
  rw [add_comm y x_i]
  exact div_self h

theorem foldl_muladd_apply (orig : Nat → cm256_block) (x_i x_0 : GF) (b : Nat) :
    ∀ (l : List Nat) (s : Shard),
      (l.foldl (fun acc j =>
          gf256_muladd_mem acc (GetMatrixElement x_i x_0 (byteOf j)) (orig j).Block) s) b
        = s b + (l.map fun j => GetMatrixElement x_i x_0 (byteOf j) * (orig j).Block b).sum := by
  intro l
  induction l with
  | nil => intro s; simp
  | cons x xs ih =>
      intro s
      rw [List.foldl_cons, ih, List.map_cons, List.sum_cons, ← add_assoc]
      rfl

/-- Contents of the `r`-th recovery block produced by `cm256_encode_block`
with `k ≥ 2`: the `r`-th Cauchy row applied to the originals. -/
theorem encode_block_sum (params : cm256_encoder_params) (orig : Nat → cm256_block)
    (r : Nat) (hk : 2 ≤ params.OriginalCount) (hm : 0 < params.RecoveryCount)
    (hkm : params.OriginalCount + params.RecoveryCount ≤ 256) (b : Nat) :
    cm256_encode_block params orig (params.OriginalCount + (r : Int)) b
      = ∑ c ∈ Finset.range params.OriginalCount.toNat,
          GetMatrixElement (byteOf (params.OriginalCount.toNat + r))
            (byteOf params.OriginalCount.toNat) (byteOf c) * (orig c).Block b := by
  have hk2 : 2 ≤ params.OriginalCount.toNat := by omega
  have hk255 : params.OriginalCount.toNat ≤ 255 := by omega
  unfold cm256_encode_block
  rw [if_neg (by omega : ¬ params.OriginalCount = 1)]
  by_cases hr : r = 0
  · subst hr
    rw [if_pos (by simp : params.OriginalCount + ((0 : Nat) : Int) = params.OriginalCount),
      foldl_add_mem_apply]
    have hcoe : ∀ c ∈ Finset.range params.OriginalCount.toNat,
        GetMatrixElement (byteOf (params.OriginalCount.toNat + 0))
            (byteOf params.OriginalCount.toNat) (byteOf c) * (orig c).Block b
          = (orig c).Block b := by
      intro c hc
      have hc' := Finset.mem_range.mp hc
      rw [Nat.add_zero, GetMatrixElement_diag _ _
        (byteOf_add_ne_zero (by omega) (by omega) (by omega)), one_mul]
    rw [Finset.sum_congr rfl hcoe, ← list_range_map_sum]
    have hsplit : List.range params.OriginalCount.toNat
        = [0, 1] ++ (List.range params.OriginalCount.toNat).drop 2 := by
      conv_lhs => rw [← List.take_append_drop 2 (List.range params.OriginalCount.toNat)]
      rw [List.take_range]
      congr 1
      rw [Nat.min_eq_left hk2]
      rfl
    rw [hsplit, List.map_append, List.sum_append]
    show (orig 0).Block b + (orig 1).Block b + _ = _
    simp [add_assoc]
  · rw [if_neg (by omega : ¬ params.OriginalCount + (r : Int) = params.OriginalCount),
      foldl_muladd_apply]
    have htn : (params.OriginalCount + (r : Int)).toNat
        = params.OriginalCount.toNat + r := by omega
    rw [htn, ← list_range_map_sum]
    have hsplit : List.range params.OriginalCount.toNat
        = [0] ++ (List.range params.OriginalCount.toNat).drop 1 := by
      conv_lhs => rw [← List.take_append_drop 1 (List.range params.OriginalCount.toNat)]
      rw [List.take_range]
      congr 1
      rw [Nat.min_eq_left (by omega)]
      rfl
    rw [hsplit, List.map_append, List.sum_append]
    show GetMatrixElement _ _ (byteOf 0) * (orig 0).Block b + _ = _
    simp [add_assoc]

section LDUSolve

variable (x y : Nat → GF) (x_0 : GF) (N : Nat)
variable (hxy : ∀ i < N, ∀ j < N, x i + y j ≠ 0)
variable (hxx : ∀ i < N, ∀ j < N, i ≠ j → x i + x j ≠ 0)
variable (hyy : ∀ i < N, ∀ j < N, i ≠ j → y i + y j ≠ 0)
variable (hx0y : ∀ j < N, x_0 + y j ≠ 0)

include hxy hxx hyy hx0y in
theorem Dent_ne_zero : ∀ t < N, Dent x y x_0 t ≠ 0 := by
  intro t ht
  rw [Dent_eq_Amat]
  exact Amat_diag_ne_zero x y x_0 N hxy hxx hyy hx0y t ht

include hxy hxx hyy hx0y in
theorem lower_identity (V : Nat → GF) : ∀ j < N,
    (∑ s ∈ Finset.range N, GetMatrixElement (x j) x_0 (y s) * V s)
      + ∑ s ∈ Finset.range j, Lent x y j s
          * (Dent x y x_0 s * ∑ sp ∈ Finset.range N, Ufull x y x_0 s sp * V sp)
    = Dent x y x_0 j * ∑ sp ∈ Finset.range N, Ufull x y x_0 j sp * V sp := by
  intro j hj
  have hG : ∀ s ∈ Finset.range N, GetMatrixElement (x j) x_0 (y s) * V s
      = ∑ t ∈ Finset.range N,
          Lfull x y j t * Dent x y x_0 t * Ufull x y x_0 t s * V s := by
    intro s hs
    rw [← Amat_zero_eq,
      LDU_product x y x_0 N hxy hxx hyy hx0y j hj s (Finset.mem_range.mp hs),
      Finset.sum_mul]
  rw [Finset.sum_congr rfl hG, Finset.sum_comm]
  have hfac : ∀ t ∈ Finset.range N,
      (∑ s ∈ Finset.range N, Lfull x y j t * Dent x y x_0 t * Ufull x y x_0 t s * V s)
      = Lfull x y j t
          * (Dent x y x_0 t * ∑ s ∈ Finset.range N, Ufull x y x_0 t s * V s) := by
    intro t ht
    rw [Finset.mul_sum, Finset.mul_sum]
    exact Finset.sum_congr rfl (fun s hs => by ring)
  rw [Finset.sum_congr rfl hfac]
  have hvanish : ∀ t ∈ Finset.range N, t ∉ Finset.range (j + 1) →
      Lfull x y j t * (Dent x y x_0 t * ∑ s ∈ Finset.range N, Ufull x y x_0 t s * V s)
        = 0 := by
    intro t ht hnot
    simp only [Finset.mem_range] at ht hnot
    unfold Lfull
    rw [if_neg (by omega), if_neg (by omega), zero_mul]
  rw [← Finset.sum_subset (Finset.range_subset.mpr (by omega : j + 1 ≤ N)) hvanish,
    Finset.sum_range_succ]
  have hLdiag : Lfull x y j j = 1 := by
    unfold Lfull
    rw [if_pos rfl]
  have hstrict : ∀ t ∈ Finset.range j,
      Lfull x y j t * (Dent x y x_0 t * ∑ s ∈ Finset.range N, Ufull x y x_0 t s * V s)
      = Lent x y j t * (Dent x y x_0 t * ∑ s ∈ Finset.range N, Ufull x y x_0 t s * V s) := by
    intro t ht
    have ht' := Finset.mem_range.mp ht
    unfold Lfull
    rw [if_neg (by omega), if_pos ht']
  rw [Finset.sum_congr rfl hstrict, hLdiag, one_mul, add_comm
    (∑ t ∈ Finset.range j, _ * _), add_assoc, GF.add_self_eq_zero, add_zero]

theorem upper_identity (V : Nat → GF) : ∀ t < N,
    (∑ s ∈ Finset.range N, Ufull x y x_0 t s * V s)
      + ∑ s ∈ Finset.Ico (t + 1) N, Uent x y x_0 t s * V s = V t := by
  intro t ht
  have hsplit : ∑ s ∈ Finset.range N, Ufull x y x_0 t s * V s
      = V t + ∑ s ∈ Finset.Ico (t + 1) N, Uent x y x_0 t s * V s := by
    rw [Finset.range_eq_Ico,
      ← Finset.sum_Ico_consecutive _ (Nat.zero_le (t + 1)) (by omega : t + 1 ≤ N)]
    have hlow : ∑ s ∈ Finset.Ico 0 (t + 1), Ufull x y x_0 t s * V s = V t := by
      rw [← Finset.range_eq_Ico, Finset.sum_range_succ]
      have hz : ∀ s ∈ Finset.range t, Ufull x y x_0 t s * V s = 0 := by
        intro s hs
        have hs' := Finset.mem_range.mp hs
        unfold Ufull
        rw [if_neg (by omega), if_neg (by omega), zero_mul]
      rw [Finset.sum_congr rfl hz, Finset.sum_const_zero, zero_add]
      unfold Ufull
      rw [if_pos rfl, one_mul]
    have hhigh : ∀ s ∈ Finset.Ico (t + 1) N, Ufull x y x_0 t s * V s
        = Uent x y x_0 t s * V s := by
      intro s hs
      have hs' := Finset.mem_Ico.mp hs
      unfold Ufull
      rw [if_neg (by omega), if_pos (by omega)]
    rw [hlow, Finset.sum_congr rfl hhigh]
  rw [hsplit, add_assoc, GF.add_self_eq_zero, add_zero]

end LDUSolve

theorem cancelInner_spec (x_0 : GF) (S : Shard) (w : Nat) :
    ∀ (l : List Nat), l.Nodup → ∀ (bl2 : Nat → cm256_block),
    (∀ p ∈ l, l.foldl (DecodeCancelInner x_0 S w) bl2 p
      = { Block := gf256_muladd_mem ((bl2 p).Block)
            (GetMatrixElement (byteOf (bl2 p).Index) x_0 (byteOf w)) S,
          Index := (bl2 p).Index }) ∧
    (∀ p, p ∉ l → l.foldl (DecodeCancelInner x_0 S w) bl2 p = bl2 p) := by
  intro l
  induction l with
  | nil => exact fun _ bl2 => ⟨fun p hp => absurd hp (List.not_mem_nil p), fun p _ => rfl⟩
  | cons rp rest ih =>
      intro hnd bl2
      have hrp : rp ∉ rest := (List.nodup_cons.mp hnd).1
      have hndr : rest.Nodup := (List.nodup_cons.mp hnd).2
      rw [List.foldl_cons]
      obtain ⟨ihm, ihu⟩ := ih hndr (DecodeCancelInner x_0 S w bl2 rp)
      have hDat : ∀ p, p ≠ rp → DecodeCancelInner x_0 S w bl2 rp p = bl2 p := by
        intro p hpne
        unfold DecodeCancelInner
        exact Function.update_noteq hpne _ _
      constructor
      · intro p hp
        rcases List.mem_cons.mp hp with rfl | hpr
        · rw [ihu p hrp]
          unfold DecodeCancelInner
          rw [Function.update_same]
        · have hpne : p ≠ rp := by rintro rfl; exact hrp hpr
          rw [ihm p hpr, hDat p hpne]
      · intro p hp
        have hpne : p ≠ rp := by rintro rfl; exact hp (List.mem_cons_self _ _)
        rw [ihu p (fun hc => hp (List.mem_cons_of_mem _ hc)), hDat p hpne]

theorem cancelPass_spec (x_0 : GF) :
    ∀ (ol rl : List Nat), rl.Nodup → (∀ o ∈ ol, o ∉ rl) →
    ∀ (blocksIn : Nat → cm256_block),
    (∀ p ∈ rl,
      ((ol.foldl (fun bl opos =>
          rl.foldl (DecodeCancelInner x_0 (bl opos).Block (bl opos).Index) bl)
        blocksIn) p).Index = (blocksIn p).Index ∧
      ∀ b, ((ol.foldl (fun bl opos =>
          rl.foldl (DecodeCancelInner x_0 (bl opos).Block (bl opos).Index) bl)
        blocksIn) p).Block b
        = (blocksIn p).Block b
          + (ol.map fun o => GetMatrixElement (byteOf (blocksIn p).Index) x_0
              (byteOf (blocksIn o).Index) * (blocksIn o).Block b).sum) ∧
    (∀ p, p ∉ rl →
      (ol.foldl (fun bl opos =>
          rl.foldl (DecodeCancelInner x_0 (bl opos).Block (bl opos).Index) bl)
        blocksIn) p = blocksIn p) := by
  intro ol
  induction ol with
  | nil =>
      intro rl hnd _ blocksIn
      exact ⟨fun p hp => ⟨rfl, fun b => by simp⟩, fun p _ => rfl⟩
  | cons o rest ih =>
      intro rl hnd hdisj blocksIn
      rw [List.foldl_cons]
      obtain ⟨cim, ciu⟩ := cancelInner_spec x_0 (blocksIn o).Block (blocksIn o).Index
        rl hnd blocksIn
      obtain ⟨ihm, ihu⟩ := ih rl hnd (fun o' ho' => hdisj o' (List.mem_cons_of_mem _ ho'))
        (rl.foldl (DecodeCancelInner x_0 (blocksIn o).Block (blocksIn o).Index) blocksIn)
      constructor
      · intro p hp
        obtain ⟨ihmp1, ihmp2⟩ := ihm p hp
        constructor
        · rw [ihmp1, cim p hp]
        · intro b
          rw [ihmp2 b, cim p hp]
          dsimp only
          have hmapeq : (rest.map fun o' => GetMatrixElement (byteOf (blocksIn p).Index)
                x_0 (byteOf (((rl.foldl (DecodeCancelInner x_0 (blocksIn o).Block
                  (blocksIn o).Index) blocksIn)) o').Index)
                * (((rl.foldl (DecodeCancelInner x_0 (blocksIn o).Block
                  (blocksIn o).Index) blocksIn)) o').Block b)
              = rest.map fun o' => GetMatrixElement (byteOf (blocksIn p).Index) x_0
                  (byteOf (blocksIn o').Index) * (blocksIn o').Block b := by
            refine List.map_congr_left (fun o' ho' => ?_)
            rw [ciu o' (hdisj o' (List.mem_cons_of_mem _ ho'))]
          rw [hmapeq, List.map_cons, List.sum_cons, ← add_assoc]
          rfl
      · intro p hp
        rw [ihu p hp, ciu p hp]

theorem elimInner_spec (recov : List Nat) (F : Nat → GF) (j N : Nat) (hjN : j < N)
    (hinj : ∀ a < N, ∀ b < N, a ≠ b → recov.getD a 0 ≠ recov.getD b 0) :
    ∀ (c s : Nat), j < s → s + c ≤ N → ∀ (bl : Nat → cm256_block) (cnt0 : Nat),
    ((List.range' s c).foldl (DecodeElimBody recov F j) (bl, cnt0)).2
        = cnt0 + c ∧
    (∀ i, s ≤ i → i < s + c →
      ((List.range' s c).foldl (DecodeElimBody recov F j) (bl, cnt0)).1
          (recov.getD i 0)
        = { Block := gf256_muladd_mem ((bl (recov.getD i 0)).Block) (F (cnt0 + (i - s)))
              ((bl (recov.getD j 0)).Block),
            Index := (bl (recov.getD i 0)).Index }) ∧
    (∀ p, (∀ i, s ≤ i → i < s + c → p ≠ recov.getD i 0) →
      ((List.range' s c).foldl (DecodeElimBody recov F j) (bl, cnt0)).1 p
        = bl p) := by
  intro c
  induction c with
  | zero =>
      intro s hs hsc bl cnt0
      exact ⟨rfl, fun i h1 h2 => by omega, fun p hp => rfl⟩
  | succ c ih =>
      intro s hs hsc bl cnt0
      rw [List.range'_succ, List.foldl_cons]
      simp only [DecodeElimBody]
      obtain ⟨ih1, ih2, ih3⟩ := ih (s + 1) (by omega) (by omega)
        (Function.update bl (recov.getD s 0)
          { bl (recov.getD s 0) with
            Block := gf256_muladd_mem ((bl (recov.getD s 0)).Block) (F cnt0)
              ((bl (recov.getD j 0)).Block) })
        (cnt0 + 1)
      have hupd : ∀ q, q ≠ recov.getD s 0 →
          Function.update bl (recov.getD s 0)
            { bl (recov.getD s 0) with
              Block := gf256_muladd_mem ((bl (recov.getD s 0)).Block) (F cnt0)
                ((bl (recov.getD j 0)).Block) } q = bl q :=
        fun q hq => Function.update_noteq hq _ _
      refine ⟨?_, ?_, ?_⟩
      · rw [ih1]
        omega
      · intro i h1 h2
        rcases Nat.lt_or_ge s i with hsi | hsi
        · rw [ih2 i (by omega) (by omega),
            hupd (recov.getD i 0) (hinj i (by omega) s (by omega) (by omega)),
            hupd (recov.getD j 0) (hinj j hjN s (by omega) (by omega))]
          have harg : cnt0 + 1 + (i - (s + 1)) = cnt0 + (i - s) := by omega
          rw [harg]
        · have hi : i = s := by omega
          subst hi
          rw [ih3 (recov.getD i 0)
            (fun i' hi1 hi2 => hinj i (by omega) i' (by omega) (by omega)),
            Function.update_same]
          have harg : cnt0 + (i - i) = cnt0 := by omega
          rw [harg]
      · intro p hp
        rw [ih3 p (fun i' hi1 hi2 => hp i' (by omega) (by omega)),
          hupd p (hp s (by omega) (by omega))]

theorem lowerPass_spec (recov : List Nat) (F : Nat → GF) (N : Nat)
    (hinj : ∀ a < N, ∀ b < N, a ≠ b → recov.getD a 0 ≠ recov.getD b 0)
    (Lc : Nat → Nat → GF) (Cval DUVal : Nat → Shard)
    (hF : ∀ s t, s < t → t < N → F (posL N s t) = Lc t s)
    (hID : ∀ jj < N, ∀ b, Cval jj b
      + ∑ s ∈ Finset.range jj, Lc jj s * DUVal s b = DUVal jj b)
    (bl0 : Nat → cm256_block)
    (hC0 : ∀ t < N, ∀ b, (bl0 (recov.getD t 0)).Block b = Cval t b) :
    ∀ m, m ≤ N - 1 →
    ((List.range m).foldl (fun st2 jj =>
        (List.range' (jj + 1) (N - (jj + 1))).foldl
          (DecodeElimBody recov F jj) st2)
      (bl0, 0)).2 = colOff N m ∧
    (∀ t, t < N →
      (((List.range m).foldl (fun st2 jj =>
          (List.range' (jj + 1) (N - (jj + 1))).foldl
            (DecodeElimBody recov F jj) st2)
        (bl0, 0)).1 (recov.getD t 0)).Index = (bl0 (recov.getD t 0)).Index) ∧
    (∀ t, t < N → ∀ b,
      (((List.range m).foldl (fun st2 jj =>
          (List.range' (jj + 1) (N - (jj + 1))).foldl
            (DecodeElimBody recov F jj) st2)
        (bl0, 0)).1 (recov.getD t 0)).Block b
        = Cval t b + ∑ s ∈ Finset.range (min t m), Lc t s * DUVal s b) ∧
    (∀ p, (∀ t, t < N → p ≠ recov.getD t 0) →
      ((List.range m).foldl (fun st2 jj =>
          (List.range' (jj + 1) (N - (jj + 1))).foldl
            (DecodeElimBody recov F jj) st2)
        (bl0, 0)).1 p = bl0 p) := by
  intro m
  induction m with
  | zero =>
      intro _
      refine ⟨rfl, fun t ht => rfl, fun t ht b => ?_, fun p hp => rfl⟩
      show (bl0 (recov.getD t 0)).Block b
        = Cval t b + ∑ s ∈ Finset.range (min t 0), Lc t s * DUVal s b
      rw [hC0 t ht b]
      simp
  | succ m ih =>
      intro hm
      obtain ⟨ih1, ih2, ih3, ih4⟩ := ih (by omega)
      rw [List.range_succ, List.foldl_append, List.foldl_cons, List.foldl_nil]
      obtain ⟨e1, e2, e3⟩ := elimInner_spec recov F m N (by omega) hinj
        (N - (m + 1)) (m + 1) (by omega) (by omega)
        (((List.range m).foldl (fun st2 jj =>
            (List.range' (jj + 1) (N - (jj + 1))).foldl
              (DecodeElimBody recov F jj) st2)
          (bl0, 0)).1)
        (((List.range m).foldl (fun st2 jj =>
            (List.range' (jj + 1) (N - (jj + 1))).foldl
              (DecodeElimBody recov F jj) st2)
          (bl0, 0)).2)
      refine ⟨?_, ?_, ?_, ?_⟩
      · rw [e1, ih1, colOff_succ]
        omega
      · intro t ht
        rcases Nat.lt_or_ge t (m + 1) with htm | htm
        · rw [e3 (recov.getD t 0)
            (fun i' h1 h2 => hinj t ht i' (by omega) (by omega)), ih2 t ht]
        · rw [e2 t htm (by omega)]
          exact ih2 t ht
      · intro t ht b
        rcases Nat.lt_or_ge t (m + 1) with htm | htm
        · rw [e3 (recov.getD t 0)
            (fun i' h1 h2 => hinj t ht i' (by omega) (by omega)), ih3 t ht b]
          have : min t (m + 1) = min t m := by omega
          rw [this]
        · rw [e2 t htm (by omega)]
          show gf256_muladd_mem _ (F _) _ b = _
          have harg : (((List.range m).foldl (fun st2 jj =>
              (List.range' (jj + 1) (N - (jj + 1))).foldl
                (DecodeElimBody recov F jj) st2)
            (bl0, 0)).2) + (t - (m + 1)) = posL N m t := by
            rw [ih1]
            unfold posL
            omega
          rw [harg, hF m t (by omega) ht]
          show (((List.range m).foldl _ (bl0, 0)).1 (recov.getD t 0)).Block b
              + Lc t m * (((List.range m).foldl _ (bl0, 0)).1 (recov.getD m 0)).Block b
            = _
          rw [ih3 t ht b, ih3 m (by omega) b]
          have hmm2 : min m m = m := by omega
          rw [hmm2, hID m (by omega) b]
          have hmt : min t m = m := by omega
          have hmt2 : min t (m + 1) = m + 1 := by omega
          rw [hmt, hmt2, Finset.sum_range_succ, ← add_assoc]
      · intro p hp
        rw [e3 p (fun i' h1 h2 => hp i' (by omega)), ih4 p hp]

theorem range_reverse_cons (c : Nat) :
    (List.range (c + 1)).reverse = c :: (List.range c).reverse := by
  rw [List.range_succ, List.reverse_append, List.reverse_singleton, List.singleton_append]

theorem range'_reverse_cons (c : Nat) :
    (List.range' 1 (c + 1)).reverse = (c + 1) :: (List.range' 1 c).reverse := by
  rw [range'_one_concat, List.reverse_append, List.reverse_singleton, List.singleton_append]

theorem diagPass_spec (decoder : CM256Decoder) (dD : Nat → GF) (N : Nat)
    (hinj : ∀ a < N, ∀ b < N, a ≠ b →
      decoder.Recovery.getD a 0 ≠ decoder.Recovery.getD b 0) :
    ∀ (c : Nat), c ≤ N → ∀ (bl : Nat → cm256_block),
    (∀ t, t < c →
      (List.range c).foldl (DecodeDiagBody decoder dD) bl (decoder.Recovery.getD t 0)
        = { Block := gf256_div_mem ((bl (decoder.Recovery.getD t 0)).Block) (dD t),
            Index := decoder.ErasuresIndices t }) ∧
    (∀ p, (∀ t, t < c → p ≠ decoder.Recovery.getD t 0) →
      (List.range c).foldl (DecodeDiagBody decoder dD) bl p = bl p) := by
  intro c
  induction c with
  | zero => exact fun _ bl => ⟨fun t ht => by omega, fun p hp => rfl⟩
  | succ c ih =>
      intro hc bl
      obtain ⟨ihm, ihu⟩ := ih (by omega) bl
      rw [List.range_succ, List.foldl_append, List.foldl_cons, List.foldl_nil]
      have hstep : ∀ q, q ≠ decoder.Recovery.getD c 0 →
          DecodeDiagBody decoder dD
            ((List.range c).foldl (DecodeDiagBody decoder dD) bl) c q
          = (List.range c).foldl (DecodeDiagBody decoder dD) bl q := by
        intro q hq
        unfold DecodeDiagBody
        exact Function.update_noteq hq _ _
      have hsame : ∀ (G : Nat → cm256_block) (i : Nat),
          DecodeDiagBody decoder dD G i (decoder.Recovery.getD i 0)
            = { Block := gf256_div_mem ((G (decoder.Recovery.getD i 0)).Block) (dD i),
                Index := decoder.ErasuresIndices i } := by
        intro G i
        unfold DecodeDiagBody
        rw [Function.update_same]
      refine ⟨?_, ?_⟩
      · intro t ht
        rcases Nat.lt_or_ge t c with htc | htc
        · rw [hstep (decoder.Recovery.getD t 0)
            (hinj t (by omega) c (by omega) (by omega)), ihm t htc]
        · have ht' : t = c := by omega
          subst ht'
          rw [hsame,
            ihu (decoder.Recovery.getD t 0)
              (fun t' ht' => hinj t (by omega) t' (by omega) (by omega))]
      · intro p hp
        rw [hstep p (hp c (by omega)), ihu p (fun t' ht' => hp t' (by omega))]

theorem elimInnerRev_spec (recov : List Nat) (F : Nat → GF) (j N : Nat) (hjN : j < N)
    (hinj : ∀ a < N, ∀ b < N, a ≠ b → recov.getD a 0 ≠ recov.getD b 0) :
    ∀ (c : Nat), c ≤ j → ∀ (bl : Nat → cm256_block) (cnt0 : Nat),
    (((List.range c).reverse).foldl (DecodeElimBody recov F j) (bl, cnt0)).2
        = cnt0 + c ∧
    (∀ i, i < c →
      (((List.range c).reverse).foldl (DecodeElimBody recov F j)
          (bl, cnt0)).1 (recov.getD i 0)
        = { Block := gf256_muladd_mem ((bl (recov.getD i 0)).Block)
              (F (cnt0 + (c - 1 - i))) ((bl (recov.getD j 0)).Block),
            Index := (bl (recov.getD i 0)).Index }) ∧
    (∀ p, (∀ i, i < c → p ≠ recov.getD i 0) →
      (((List.range c).reverse).foldl (DecodeElimBody recov F j)
          (bl, cnt0)).1 p = bl p) := by
  intro c
  induction c with
  | zero =>
      intro _ bl cnt0
      exact ⟨rfl, fun i hi => by omega, fun p hp => rfl⟩
  | succ c ih =>
      intro hc bl cnt0
      rw [range_reverse_cons, List.foldl_cons]
      simp only [DecodeElimBody]
      obtain ⟨ih1, ih2, ih3⟩ := ih (by omega)
        (Function.update bl (recov.getD c 0)
          { bl (recov.getD c 0) with
            Block := gf256_muladd_mem ((bl (recov.getD c 0)).Block) (F cnt0)
              ((bl (recov.getD j 0)).Block) })
        (cnt0 + 1)
      have hupd : ∀ q, q ≠ recov.getD c 0 →
          Function.update bl (recov.getD c 0)
            { bl (recov.getD c 0) with
              Block := gf256_muladd_mem ((bl (recov.getD c 0)).Block) (F cnt0)
                ((bl (recov.getD j 0)).Block) } q = bl q :=
        fun q hq => Function.update_noteq hq _ _
      refine ⟨?_, ?_, ?_⟩
      · rw [ih1]
        omega
      · intro i hi
        rcases Nat.lt_or_ge i c with hic | hic
        · rw [ih2 i hic,
            hupd (recov.getD i 0) (hinj i (by omega) c (by omega) (by omega)),
            hupd (recov.getD j 0) (hinj j hjN c (by omega) (by omega))]
          have harg : cnt0 + 1 + (c - 1 - i) = cnt0 + (c + 1 - 1 - i) := by omega
          rw [harg]
        · have hi' : i = c := by omega
          subst hi'
          rw [ih3 (recov.getD i 0)
            (fun i' hi1 => hinj i (by omega) i' (by omega) (by omega)),
            Function.update_same]
          have harg : cnt0 + (i + 1 - 1 - i) = cnt0 := by omega
          rw [harg]
      · intro p hp
        rw [ih3 p (fun i' hi1 => hp i' (by omega)), hupd p (hp c (by omega))]

theorem upperPass_spec (recov : List Nat) (F : Nat → GF) (N : Nat)
    (hinj : ∀ a < N, ∀ b < N, a ≠ b → recov.getD a 0 ≠ recov.getD b 0)
    (Uc : Nat → Nat → GF) (UVal VVal : Nat → Shard)
    (hF : ∀ t s, t < s → s < N → F (posU N s t) = Uc t s)
    (hID2 : ∀ t < N, ∀ b, UVal t b
      + ∑ s ∈ Finset.Ico (t + 1) N, Uc t s * VVal s b = VVal t b) :
    ∀ (c : Nat), c ≤ N - 1 → ∀ (bl0 : Nat → cm256_block) (cnt0 : Nat),
    cnt0 + tri c = tri (N - 1) →
    (∀ t, t < N → ∀ b, (bl0 (recov.getD t 0)).Block b
        = UVal t b + ∑ s ∈ Finset.Ico (max (t + 1) (c + 1)) N, Uc t s * VVal s b) →
    (∀ t, t < N →
      ((((List.range' 1 c).reverse).foldl (fun st2 jj =>
          ((List.range jj).reverse).foldl (DecodeElimBody recov F jj) st2)
        (bl0, cnt0)).1 (recov.getD t 0)).Index = (bl0 (recov.getD t 0)).Index) ∧
    (∀ t, t < N → ∀ b,
      ((((List.range' 1 c).reverse).foldl (fun st2 jj =>
          ((List.range jj).reverse).foldl (DecodeElimBody recov F jj) st2)
        (bl0, cnt0)).1 (recov.getD t 0)).Block b = VVal t b) ∧
    (∀ p, (∀ t, t < N → p ≠ recov.getD t 0) →
      (((List.range' 1 c).reverse).foldl (fun st2 jj =>
          ((List.range jj).reverse).foldl (DecodeElimBody recov F jj) st2)
        (bl0, cnt0)).1 p = bl0 p) := by
  intro c
  induction c with
  | zero =>
      intro _ bl0 cnt0 hcnt0 hB0
      refine ⟨fun t ht => rfl, fun t ht b => ?_, fun p hp => rfl⟩
      show (bl0 (recov.getD t 0)).Block b = VVal t b
      rw [hB0 t ht b, Nat.max_eq_left (by omega), hID2 t ht b]
  | succ c ih =>
      intro hc bl0 cnt0 hcnt0 hB0
      rw [range'_reverse_cons, List.foldl_cons]
      obtain ⟨r1, r2, r3⟩ := elimInnerRev_spec recov F (c + 1) N (by omega) hinj
        (c + 1) le_rfl bl0 cnt0
      have hlastval : ∀ b, (bl0 (recov.getD (c + 1) 0)).Block b = VVal (c + 1) b := by
        intro b
        rw [hB0 (c + 1) (by omega) b, Nat.max_eq_left (by omega),
          hID2 (c + 1) (by omega) b]
      have hB1 : ∀ t, t < N → ∀ b,
          ((((List.range (c + 1)).reverse).foldl (DecodeElimBody recov F (c + 1))
            (bl0, cnt0)).1 (recov.getD t 0)).Block b
          = UVal t b + ∑ s ∈ Finset.Ico (max (t + 1) (c + 1)) N, Uc t s * VVal s b := by
        intro t ht b
        rcases Nat.lt_or_ge t (c + 1) with htc | htc
        · rw [r2 t htc]
          show (bl0 (recov.getD t 0)).Block b + F (cnt0 + (c + 1 - 1 - t))
              * (bl0 (recov.getD (c + 1) 0)).Block b = _
          have e3 := tri_succ c
          have harg : cnt0 + (c + 1 - 1 - t) = posU N (c + 1) t := by
            have e1 := posU_spec (N := N) (j := c + 1) (t := t) (by omega) htc (by omega)
            rw [show c + 1 - 1 = c from by omega] at e1
            omega
          rw [harg, hF t (c + 1) htc (by omega), hlastval b, hB0 t ht b,
            Nat.max_eq_right (by omega : t + 1 ≤ c + 2),
            Nat.max_eq_right (by omega : t + 1 ≤ c + 1),
            Finset.sum_eq_sum_Ico_succ_bot (by omega : c + 1 < N)]
          ring
        · rw [r3 (recov.getD t 0)
            (fun i' hi' => hinj t ht i' (by omega) (by omega)), hB0 t ht b,
            Nat.max_eq_left (by omega : c + 2 ≤ t + 1),
            Nat.max_eq_left (by omega : c + 1 ≤ t + 1)]
      have hcnt1 : (((List.range (c + 1)).reverse).foldl (DecodeElimBody recov F (c + 1))
          (bl0, cnt0)).2 + tri c = tri (N - 1) := by
        rw [r1]
        have e3 := tri_succ c
        omega
      obtain ⟨q1, q2, q3⟩ := ih (by omega)
        (((List.range (c + 1)).reverse).foldl (DecodeElimBody recov F (c + 1))
          (bl0, cnt0)).1
        (((List.range (c + 1)).reverse).foldl (DecodeElimBody recov F (c + 1))
          (bl0, cnt0)).2
        hcnt1 hB1
      refine ⟨?_, ?_, ?_⟩
      · intro t ht
        refine (q1 t ht).trans ?_
        rcases Nat.lt_or_ge t (c + 1) with htc | htc
        · rw [r2 t htc]
        · rw [r3 (recov.getD t 0) (fun i' hi' => hinj t ht i' (by omega) (by omega))]
      · intro t ht b
        exact q2 t ht b
      · intro p hp
        refine (q3 p hp).trans ?_
        rw [r3 p (fun i' hi' => hp i' (by omega))]

/-- Full behavior of `Decode` on a decoder state whose post-cancellation
recovery contents form the Cauchy system `G·V`: every recovery slot ends
up holding the erased shard `V t` relabeled with its erasure index, and
every other slot is untouched. -/
theorem Decode_spec (st : CM256Decoder) (blocksIn : Nat → cm256_block)
    (xl yl : Nat → GF) (x0c : GF)
    (hN1 : 1 ≤ st.Recovery.length)
    (hndr : st.Recovery.Nodup)
    (hdisj : ∀ o ∈ st.Original, o ∉ st.Recovery)
    (hinj : ∀ a < st.Recovery.length, ∀ b < st.Recovery.length, a ≠ b →
      st.Recovery.getD a 0 ≠ st.Recovery.getD b 0)
    (hxl : xl = fun i => byteOf (blocksIn (st.Recovery.getD i 0)).Index)
    (hyl : yl = fun j => byteOf (st.ErasuresIndices j))
    (hx0c : x0c = byteOf st.Params.OriginalCount.toNat)
    (hxy : ∀ a < st.Recovery.length, ∀ b < st.Recovery.length, xl a + yl b ≠ 0)
    (hxx : ∀ a < st.Recovery.length, ∀ b < st.Recovery.length, a ≠ b → xl a + xl b ≠ 0)
    (hyy : ∀ a < st.Recovery.length, ∀ b < st.Recovery.length, a ≠ b → yl a + yl b ≠ 0)
    (hx0y : ∀ b < st.Recovery.length, x0c + yl b ≠ 0)
    (V : Nat → Shard)
    (hVC : ∀ t < st.Recovery.length, ∀ b,
      (blocksIn (st.Recovery.getD t 0)).Block b
        + (st.Original.map fun o => GetMatrixElement
            (byteOf (blocksIn (st.Recovery.getD t 0)).Index)
            (byteOf st.Params.OriginalCount.toNat)
            (byteOf (blocksIn o).Index) * (blocksIn o).Block b).sum
      = ∑ s ∈ Finset.range st.Recovery.length,
          GetMatrixElement (xl t) x0c (yl s) * V s b) :
    (∀ t < st.Recovery.length,
      ((Decode st blocksIn) (st.Recovery.getD t 0)).Index = st.ErasuresIndices t ∧
      ∀ b, ((Decode st blocksIn) (st.Recovery.getD t 0)).Block b = V t b) ∧
    (∀ p, (∀ t < st.Recovery.length, p ≠ st.Recovery.getD t 0) →
      Decode st blocksIn p = blocksIn p) := by
  have hDent : ∀ t < st.Recovery.length, Dent xl yl x0c t ≠ 0 :=
    Dent_ne_zero xl yl x0c st.Recovery.length hxy hxx hyy hx0y
  simp only [Decode, DecodeCancel]
  obtain ⟨hcm, hcu⟩ := cancelPass_spec (byteOf st.Params.OriginalCount.toNat)
    st.Original st.Recovery hndr hdisj blocksIn
  set B1 := st.Original.foldl (fun bl opos =>
      st.Recovery.foldl (DecodeCancelInner (byteOf st.Params.OriginalCount.toNat)
        (bl opos).Block (bl opos).Index) bl) blocksIn with hB1def
  have hIdxAll : ∀ p, (B1 p).Index = (blocksIn p).Index := by
    intro p
    by_cases hpin : p ∈ st.Recovery
    · exact (hcm p hpin).1
    · rw [hcu p hpin]
  have hxlB : xl = fun i => byteOf (B1 (st.Recovery.getD i 0)).Index := by
    rw [hxl]
    funext i
    rw [hIdxAll]
  obtain ⟨hLout, hDout, hDlast, hUout⟩ := GenerateLDU_spec st B1
    st.Recovery.length xl yl x0c hN1 rfl hxlB hyl (by rw [hx0c])
  have hdD : ∀ t < st.Recovery.length,
      (GenerateLDUDecomposition st B1).2.1 t = Dent xl yl x0c t := by
    intro t ht
    by_cases e1 : t < st.Recovery.length - 1
    · rw [hDout t e1, DentW_eq_Dent xl yl x0c t (hxy t (by omega) t (by omega))]
    · have he : t = st.Recovery.length - 1 := by omega
      rw [he, hDlast, DentLastW_eq_Dent]
  -- the lower (forward-substitution) pass
  obtain ⟨hl1, hl2, hl3, hl4⟩ := lowerPass_spec st.Recovery
    (fun p => (GenerateLDUDecomposition st B1).1.getD p 0) st.Recovery.length hinj
    (fun t s => Lent xl yl t s)
    (fun t => fun b => ∑ s ∈ Finset.range st.Recovery.length,
      GetMatrixElement (xl t) x0c (yl s) * V s b)
    (fun t => fun b => Dent xl yl x0c t * ∑ sp ∈ Finset.range st.Recovery.length,
      Ufull xl yl x0c t sp * V sp b)
    (fun s t hst htN => by
      show (GenerateLDUDecomposition st B1).1.getD (posL st.Recovery.length s t) 0
        = Lent xl yl t s
      rw [hLout]
      exact mL_getD xl yl st.Recovery.length s t hst htN)
    (fun jj hjj b =>
      lower_identity xl yl x0c st.Recovery.length hxy hxx hyy hx0y
        (fun s => V s b) jj hjj)
    B1
    (fun t ht b => by
      rw [(hcm (st.Recovery.getD t 0) (getD_mem_of_lt ht)).2 b]
      exact hVC t ht b)
    (st.Recovery.length - 1) le_rfl
  have hlowfinal : ∀ t, t < st.Recovery.length → ∀ b,
      (((List.range (st.Recovery.length - 1)).foldl (fun st2 jj =>
          (List.range' (jj + 1) (st.Recovery.length - (jj + 1))).foldl
            (DecodeElimBody st.Recovery
              (fun p => (GenerateLDUDecomposition st B1).1.getD p 0) jj) st2)
        (B1, 0)).1 (st.Recovery.getD t 0)).Block b
      = Dent xl yl x0c t * ∑ sp ∈ Finset.range st.Recovery.length,
          Ufull xl yl x0c t sp * V sp b := by
    intro t ht b
    rw [hl3 t ht b, Nat.min_eq_left (by omega)]
    exact lower_identity xl yl x0c st.Recovery.length hxy hxx hyy hx0y
      (fun s => V s b) t ht
  -- the diagonal pass
  obtain ⟨hd1, hd2⟩ := diagPass_spec st ((GenerateLDUDecomposition st B1).2.1)
    st.Recovery.length hinj st.Recovery.length le_rfl
    (((List.range (st.Recovery.length - 1)).foldl (fun st2 jj =>
        (List.range' (jj + 1) (st.Recovery.length - (jj + 1))).foldl
          (DecodeElimBody st.Recovery
            (fun p => (GenerateLDUDecomposition st B1).1.getD p 0) jj) st2)
      (B1, 0)).1)
  have hdiagblock : ∀ t, t < st.Recovery.length → ∀ b,
      (((List.range st.Recovery.length).foldl
          (DecodeDiagBody st ((GenerateLDUDecomposition st B1).2.1))
          (((List.range (st.Recovery.length - 1)).foldl (fun st2 jj =>
              (List.range' (jj + 1) (st.Recovery.length - (jj + 1))).foldl
                (DecodeElimBody st.Recovery
                  (fun p => (GenerateLDUDecomposition st B1).1.getD p 0) jj) st2)
            (B1, 0)).1)) (st.Recovery.getD t 0)).Block b
      = ∑ sp ∈ Finset.range st.Recovery.length, Ufull xl yl x0c t sp * V sp b := by
    intro t ht b
    rw [hd1 t ht]
    show (((List.range (st.Recovery.length - 1)).foldl _ (B1, 0)).1
        (st.Recovery.getD t 0)).Block b / (GenerateLDUDecomposition st B1).2.1 t = _
    rw [hlowfinal t ht b, hdD t ht, mul_div_cancel_left₀ _ (hDent t ht)]
  have hdiagidx : ∀ t, t < st.Recovery.length →
      (((List.range st.Recovery.length).foldl
          (DecodeDiagBody st ((GenerateLDUDecomposition st B1).2.1))
          (((List.range (st.Recovery.length - 1)).foldl (fun st2 jj =>
              (List.range' (jj + 1) (st.Recovery.length - (jj + 1))).foldl
                (DecodeElimBody st.Recovery
                  (fun p => (GenerateLDUDecomposition st B1).1.getD p 0) jj) st2)
            (B1, 0)).1)) (st.Recovery.getD t 0)).Index
      = st.ErasuresIndices t := by
    intro t ht
    rw [hd1 t ht]
  -- the upper (back-substitution) pass
  obtain ⟨hu1, hu2, hu3⟩ := upperPass_spec st.Recovery
    (fun p => (GenerateLDUDecomposition st B1).2.2 (p : Int)) st.Recovery.length hinj
    (fun t s => Uent xl yl x0c t s)
    (fun t => fun b => ∑ sp ∈ Finset.range st.Recovery.length,
      Ufull xl yl x0c t sp * V sp b)
    (fun t => V t)
    (fun t s hts hsN => by
      show (GenerateLDUDecomposition st B1).2.2
          ((posU st.Recovery.length s t : Nat) : Int) = Uent xl yl x0c t s
      rw [hUout t s hts hsN, UentRaw_mul])
    (fun t ht b => upper_identity xl yl x0c st.Recovery.length (fun s => V s b) t ht)
    (st.Recovery.length - 1) le_rfl
    ((List.range st.Recovery.length).foldl
        (DecodeDiagBody st ((GenerateLDUDecomposition st B1).2.1))
        (((List.range (st.Recovery.length - 1)).foldl (fun st2 jj =>
            (List.range' (jj + 1) (st.Recovery.length - (jj + 1))).foldl
              (DecodeElimBody st.Recovery
                (fun p => (GenerateLDUDecomposition st B1).1.getD p 0) jj) st2)
          (B1, 0)).1))
    0
    (by omega)
    (fun t ht b => by
      rw [hdiagblock t ht b]
      rw [Finset.Ico_eq_empty (by omega), Finset.sum_empty, add_zero])
  refine ⟨?_, ?_⟩
  · intro t ht
    constructor
    · exact (hu1 t ht).trans (hdiagidx t ht)
    · intro b
      exact hu2 t ht b
  · intro p hp
    have hnotmem : p ∉ st.Recovery := by
      intro hmem
      obtain ⟨t2, ht2, hgd⟩ := List.mem_iff_getElem.mp hmem
      exact hp t2 ht2
        (by rw [List.getD_eq_getElem st.Recovery 0 ht2]; exact hgd.symm)
    refine (hu3 p hp).trans ?_
    rw [hd2 p hp, hl4 p hp, hcu p hnotmem]

theorem list_map_sum_getD (f : Nat → GF) :
    ∀ (l : List Nat), (l.map f).sum
      = ∑ s ∈ Finset.range l.length, f (l.getD s 0) := by
  intro l
  induction l with
  | nil => simp
  | cons a rest ih =>
      rw [List.map_cons, List.sum_cons, ih, List.length_cons,
        Finset.sum_range_succ']
      simp only [List.getD_cons_succ, List.getD_cons_zero]
      rw [add_comm]

theorem nodup_map_sum_toFinset (f : Nat → GF) (l : List Nat) (h : l.Nodup) :
    (l.map f).sum = ∑ x ∈ l.toFinset, f x := by
  induction l with
  | nil => simp
  | cons a rest ih =>
      have ha : a ∉ rest := (List.nodup_cons.mp h).1
      rw [List.map_cons, List.sum_cons, ih (List.nodup_cons.mp h).2,
        List.toFinset_cons, Finset.sum_insert (by simpa using ha)]

/-- Char-2 inclusion–exclusion for the supplied and missing original
indices: total plus supplied equals missing. -/
theorem supplied_missing_sum (k2 : Nat) (bl : Nat → cm256_block)
    (hdist : ∀ p < k2, ∀ q < k2, p ≠ q → (bl p).Index ≠ (bl q).Index)
    (f : Nat → GF) :
    (∑ c ∈ Finset.range k2, f c)
      + (((List.range k2).filter (fun p => decide ((bl p).Index < k2))).map
          (fun o => f ((bl o).Index))).sum
    = ∑ s ∈ Finset.range (((List.range k2).filter
          (fun r => decide (∀ p < k2, (bl p).Index ≠ r))).length),
        f (((List.range k2).filter
          (fun r => decide (∀ p < k2, (bl p).Index ≠ r))).getD s 0) := by
  classical
  rw [← list_map_sum_getD]
  have hndmiss : ((List.range k2).filter
      (fun r => decide (∀ p < k2, (bl p).Index ≠ r))).Nodup :=
    (List.nodup_range _).filter _
  have hndorig : ((List.range k2).filter
      (fun p => decide ((bl p).Index < k2))).Nodup :=
    (List.nodup_range _).filter _
  rw [nodup_map_sum_toFinset _ _ hndmiss]
  have hmissfin : ((List.range k2).filter
      (fun r => decide (∀ p < k2, (bl p).Index ≠ r))).toFinset
      = (Finset.range k2).filter (fun r => ∀ p < k2, (bl p).Index ≠ r) := by
    ext r
    simp [List.mem_filter]
  rw [hmissfin]
  -- supplied indices: rewrite the list sum as a Finset sum over the image
  have horigfin : ((List.range k2).filter
      (fun p => decide ((bl p).Index < k2))).toFinset
      = (Finset.range k2).filter (fun p => (bl p).Index < k2) := by
    ext p
    simp [List.mem_filter]
  have hsupmap : (((List.range k2).filter (fun p => decide ((bl p).Index < k2))).map
        (fun o => f ((bl o).Index))).sum
      = ∑ p ∈ (Finset.range k2).filter (fun p => (bl p).Index < k2),
          f ((bl p).Index) := by
    rw [nodup_map_sum_toFinset _ _ hndorig, horigfin]
  rw [hsupmap]
  have himage : ((Finset.range k2).filter (fun p => (bl p).Index < k2)).image
        (fun p => (bl p).Index)
      = (Finset.range k2).filter (fun r => ¬ ∀ p < k2, (bl p).Index ≠ r) := by
    ext r
    simp only [Finset.mem_image, Finset.mem_filter, Finset.mem_range]
    constructor
    · rintro ⟨p, ⟨hp, hplt⟩, rfl⟩
      exact ⟨hplt, fun hall => hall p hp rfl⟩
    · rintro ⟨hr, hnall⟩
      push_neg at hnall
      obtain ⟨p, hp, hpr⟩ := hnall
      exact ⟨p, ⟨hp, by omega⟩, hpr⟩
  have hsupsum : ∑ p ∈ (Finset.range k2).filter (fun p => (bl p).Index < k2),
        f ((bl p).Index)
      = ∑ r ∈ (Finset.range k2).filter (fun r => ¬ ∀ p < k2, (bl p).Index ≠ r),
          f r := by
    rw [← himage]
    refine (Finset.sum_image ?_).symm
    intro p hp q hq hpq
    by_contra hne
    exact hdist p (Finset.mem_range.mp (Finset.mem_filter.mp hp).1)
      q (Finset.mem_range.mp (Finset.mem_filter.mp hq).1) hne hpq
  rw [hsupsum]
  have hsplit := Finset.sum_filter_add_sum_filter_not (Finset.range k2)
    (fun r => ∀ p < k2, (bl p).Index ≠ r) f
  rw [← hsplit, add_assoc, GF.add_self_eq_zero, add_zero]

theorem foldl_rel {α σ σ' : Type} (R : σ → σ' → Prop)
    (f : σ → α → σ) (f' : σ' → α → σ')
    (h : ∀ s s' a, R s s' → R (f s a) (f' s' a)) :
    ∀ (l : List α) (s : σ) (s' : σ'), R s s' → R (l.foldl f s) (l.foldl f' s') := by
  intro l
  induction l with
  | nil => exact fun s s' hs => hs
  | cons a rest ih => exact fun s s' hs => ih _ _ (h s s' a hs)

theorem GenerateLDU_congr (st : CM256Decoder) (u v : Nat → cm256_block)
    (h : ∀ p, (u p).Index = (v p).Index) :
    GenerateLDUDecomposition st u = GenerateLDUDecomposition st v := by
  simp only [GenerateLDUDecomposition]
  rw [show (fun i => byteOf (u (st.Recovery.getD i 0)).Index)
      = (fun i => byteOf (v (st.Recovery.getD i 0)).Index) from
    funext fun i => by rw [h],
    h (st.Recovery.getD (st.Recovery.length - 1) 0)]

/-- Byte `b` of every output block of `Decode` depends only on the wire
indices and on byte `b` of the input blocks. -/
theorem Decode_byte_agree (st : CM256Decoder) (b : Nat) :
    ∀ (u v : Nat → cm256_block),
    (∀ p, (u p).Index = (v p).Index) →
    (∀ p, (u p).Block b = (v p).Block b) →
    ∀ p, ((Decode st u) p).Index = ((Decode st v) p).Index ∧
      ((Decode st u) p).Block b = ((Decode st v) p).Block b := by
  intro u v hIdx hBlk
  simp only [Decode, DecodeCancel]
  set R : (Nat → cm256_block) → (Nat → cm256_block) → Prop :=
    fun s s' => ∀ p, (s p).Index = (s' p).Index ∧ (s p).Block b = (s' p).Block b
    with hR
  set x0 := byteOf st.Params.OriginalCount.toNat with hx0
  -- the cancellation stage preserves R
  have hcancel : R (st.Original.foldl (fun bl opos =>
      st.Recovery.foldl (DecodeCancelInner x0 (bl opos).Block (bl opos).Index) bl) u)
    (st.Original.foldl (fun bl opos =>
      st.Recovery.foldl (DecodeCancelInner x0 (bl opos).Block (bl opos).Index) bl) v) := by
    refine foldl_rel R _ _ ?_ st.Original u v (fun p => ⟨hIdx p, hBlk p⟩)
    intro s s' opos hss
    refine foldl_rel R _ _ ?_ st.Recovery s s' hss
    intro s2 s2' rp hs2
    simp only [hR]
    intro q
    unfold DecodeCancelInner
    by_cases hq : q = rp
    · subst hq
      rw [Function.update_same, Function.update_same]
      exact ⟨(hs2 q).1, by
        show (s2 q).Block b + _ * (s opos).Block b
          = (s2' q).Block b + _ * (s' opos).Block b
        rw [(hs2 q).1, (hs2 q).2, (hss opos).1, (hss opos).2]⟩
    · rw [Function.update_noteq hq, Function.update_noteq hq]
      exact hs2 q
  have hgen : GenerateLDUDecomposition st
      (st.Original.foldl (fun bl opos =>
        st.Recovery.foldl (DecodeCancelInner x0 (bl opos).Block (bl opos).Index) bl) u)
    = GenerateLDUDecomposition st
      (st.Original.foldl (fun bl opos =>
        st.Recovery.foldl (DecodeCancelInner x0 (bl opos).Block (bl opos).Index) bl) v) :=
    GenerateLDU_congr st _ _ (fun p => (hcancel p).1)
  set R2 : (Nat → cm256_block) × Nat → (Nat → cm256_block) × Nat → Prop :=
    fun s s' => R s.1 s'.1 ∧ s.2 = s'.2 with hR2
  -- elimination bodies preserve R2 when the coefficient streams agree
  have helim : ∀ (F F' : Nat → GF), (∀ q, F q = F' q) → ∀ (jj : Nat)
      (s s' : (Nat → cm256_block) × Nat), R2 s s' →
      ∀ (i : Nat), R2 (DecodeElimBody st.Recovery F jj s i)
        (DecodeElimBody st.Recovery F' jj s' i) := by
    intro F F' hFF jj s s' hss i
    obtain ⟨hss1, hss2⟩ := hss
    simp only [hR2]
    constructor
    · simp only [hR]
      intro q
      unfold DecodeElimBody
      dsimp only
      by_cases hq : q = st.Recovery.getD i 0
      · subst hq
        rw [Function.update_same, Function.update_same]
        refine ⟨(hss1 (st.Recovery.getD i 0)).1, ?_⟩
        show (s.1 (st.Recovery.getD i 0)).Block b
            + F s.2 * (s.1 (st.Recovery.getD jj 0)).Block b
          = (s'.1 (st.Recovery.getD i 0)).Block b
            + F' s'.2 * (s'.1 (st.Recovery.getD jj 0)).Block b
        rw [(hss1 (st.Recovery.getD i 0)).2, (hss1 (st.Recovery.getD jj 0)).2, hss2, hFF]
      · rw [Function.update_noteq hq, Function.update_noteq hq]
        exact hss1 q
    · show s.2 + 1 = s'.2 + 1
      rw [hss2]
  have hdiagbody : ∀ (dD dD' : Nat → GF), (∀ t, dD t = dD' t) →
      ∀ (s s' : Nat → cm256_block), R s s' → ∀ (i : Nat),
      R (DecodeDiagBody st dD s i) (DecodeDiagBody st dD' s' i) := by
    intro dD dD' hdd s s' hss i
    simp only [hR]
    intro q
    unfold DecodeDiagBody
    by_cases hq : q = st.Recovery.getD i 0
    · subst hq
      rw [Function.update_same, Function.update_same]
      refine ⟨rfl, ?_⟩
      show (s (st.Recovery.getD i 0)).Block b / dD i
        = (s' (st.Recovery.getD i 0)).Block b / dD' i
      rw [(hss (st.Recovery.getD i 0)).2, hdd]
    · rw [Function.update_noteq hq, Function.update_noteq hq]
      exact hss q
  set B1u := st.Original.foldl (fun bl opos =>
      st.Recovery.foldl (DecodeCancelInner x0 (bl opos).Block (bl opos).Index) bl) u
    with hB1u
  set B1v := st.Original.foldl (fun bl opos =>
      st.Recovery.foldl (DecodeCancelInner x0 (bl opos).Block (bl opos).Index) bl) v
    with hB1v
  set Gu := GenerateLDUDecomposition st B1u with hGu
  set Gv := GenerateLDUDecomposition st B1v with hGv
  have hlower : R2
      ((List.range (st.Recovery.length - 1)).foldl (fun st2 jj =>
        (List.range' (jj + 1) (st.Recovery.length - (jj + 1))).foldl
          (DecodeElimBody st.Recovery (fun p => Gu.1.getD p 0) jj) st2) (B1u, 0))
      ((List.range (st.Recovery.length - 1)).foldl (fun st2 jj =>
        (List.range' (jj + 1) (st.Recovery.length - (jj + 1))).foldl
          (DecodeElimBody st.Recovery (fun p => Gv.1.getD p 0) jj) st2) (B1v, 0)) :=
    foldl_rel R2 _ _
      (fun s s' jj hss => foldl_rel R2 _ _
        (fun s2 s2' i hs2 =>
          helim (fun p => Gu.1.getD p 0) (fun p => Gv.1.getD p 0)
            (fun q => by rw [hgen]) jj s2 s2' hs2 i)
        (List.range' (jj + 1) (st.Recovery.length - (jj + 1))) s s' hss)
      _ _ _ ⟨hcancel, rfl⟩
  have hdiagR : R
      ((List.range st.Recovery.length).foldl (DecodeDiagBody st Gu.2.1)
        ((List.range (st.Recovery.length - 1)).foldl (fun st2 jj =>
          (List.range' (jj + 1) (st.Recovery.length - (jj + 1))).foldl
            (DecodeElimBody st.Recovery (fun p => Gu.1.getD p 0) jj) st2) (B1u, 0)).1)
      ((List.range st.Recovery.length).foldl (DecodeDiagBody st Gv.2.1)
        ((List.range (st.Recovery.length - 1)).foldl (fun st2 jj =>
          (List.range' (jj + 1) (st.Recovery.length - (jj + 1))).foldl
            (DecodeElimBody st.Recovery (fun p => Gv.1.getD p 0) jj) st2) (B1v, 0)).1) :=
    foldl_rel R _ _
      (fun s s' i hss => hdiagbody Gu.2.1 Gv.2.1 (fun t => by rw [hgen]) s s' hss i)
      _ _ _ hlower.1
  have hupper : R2
      (((List.range' 1 (st.Recovery.length - 1)).reverse).foldl (fun st2 jj =>
        ((List.range jj).reverse).foldl
          (DecodeElimBody st.Recovery (fun p => Gu.2.2 (p : Int)) jj) st2)
        ((List.range st.Recovery.length).foldl (DecodeDiagBody st Gu.2.1)
          ((List.range (st.Recovery.length - 1)).foldl (fun st2 jj =>
            (List.range' (jj + 1) (st.Recovery.length - (jj + 1))).foldl
              (DecodeElimBody st.Recovery (fun p => Gu.1.getD p 0) jj) st2) (B1u, 0)).1,
          0))
      (((List.range' 1 (st.Recovery.length - 1)).reverse).foldl (fun st2 jj =>
        ((List.range jj).reverse).foldl
          (DecodeElimBody st.Recovery (fun p => Gv.2.2 (p : Int)) jj) st2)
        ((List.range st.Recovery.length).foldl (DecodeDiagBody st Gv.2.1)
          ((List.range (st.Recovery.length - 1)).foldl (fun st2 jj =>
            (List.range' (jj + 1) (st.Recovery.length - (jj + 1))).foldl
              (DecodeElimBody st.Recovery (fun p => Gv.1.getD p 0) jj) st2) (B1v, 0)).1,
          0)) :=
    foldl_rel R2 _ _
      (fun s s' jj hss => foldl_rel R2 _ _
        (fun s2 s2' i hs2 =>
          helim (fun p => Gu.2.2 (p : Int)) (fun p => Gv.2.2 (p : Int))
            (fun q => by rw [hgen]) jj s2 s2' hs2 i)
        ((List.range jj).reverse) s s' hss)
      _ _ _ ⟨hdiagR, rfl⟩
  exact fun p => hupper.1 p
theorem headD_eq_getD (l : List Nat) : l.headD 0 = l.getD 0 0 := by
  cases l <;> rfl

/-- `DecodeM1`: the single recovery slot becomes its own content XOR all
supplied originals, relabeled; everything else is untouched. -/
theorem DecodeM1_spec (st : CM256Decoder) (bl : Nat → cm256_block) :
    ((DecodeM1 st bl) (st.Recovery.headD 0)).Index = st.ErasuresIndices 0 ∧
    (∀ b, ((DecodeM1 st bl) (st.Recovery.headD 0)).Block b
      = (bl (st.Recovery.headD 0)).Block b
        + (st.Original.map fun o => (bl o).Block b).sum) ∧
    (∀ p, p ≠ st.Recovery.headD 0 → DecodeM1 st bl p = bl p) := by
  simp only [DecodeM1]
  refine ⟨by rw [Function.update_same], ?_, ?_⟩
  · intro b
    rw [Function.update_same]
    show (match (st.Original.foldl (fun (p : Shard × Option Shard) pos =>
        match p.2 with
        | none => (p.1, some ((bl pos).Block))
        | some ib => (gf256_add2_mem p.1 ib ((bl pos).Block), none))
        (((bl (st.Recovery.headD 0)).Block, none) : Shard × Option Shard)).2 with
      | some ib => gf256_add_mem (st.Original.foldl (fun (p : Shard × Option Shard) pos =>
          match p.2 with
          | none => (p.1, some ((bl pos).Block))
          | some ib => (gf256_add2_mem p.1 ib ((bl pos).Block), none))
          (((bl (st.Recovery.headD 0)).Block, none) : Shard × Option Shard)).1 ib
      | none => (st.Original.foldl (fun (p : Shard × Option Shard) pos =>
          match p.2 with
          | none => (p.1, some ((bl pos).Block))
          | some ib => (gf256_add2_mem p.1 ib ((bl pos).Block), none))
          (((bl (st.Recovery.headD 0)).Block, none) : Shard × Option Shard)).1) b
      = _
    have hfold : ∀ (l : List Nat) (acc : Shard) (opt : Option Shard),
        ((match (l.foldl (fun (p : Shard × Option Shard) pos =>
            match p.2 with
            | none => (p.1, some ((bl pos).Block))
            | some ib => (gf256_add2_mem p.1 ib ((bl pos).Block), none)) (acc, opt)).2 with
          | some ib => gf256_add_mem (l.foldl (fun (p : Shard × Option Shard) pos =>
              match p.2 with
              | none => (p.1, some ((bl pos).Block))
              | some ib => (gf256_add2_mem p.1 ib ((bl pos).Block), none)) (acc, opt)).1 ib
          | none => (l.foldl (fun (p : Shard × Option Shard) pos =>
              match p.2 with
              | none => (p.1, some ((bl pos).Block))
              | some ib => (gf256_add2_mem p.1 ib ((bl pos).Block), none)) (acc, opt)).1) : Shard) b
        = ((match opt with
          | some ib => gf256_add_mem acc ib
          | none => acc) : Shard) b + (l.map fun o => (bl o).Block b).sum := by
      intro l
      induction l with
      | nil =>
          intro acc opt
          simp
      | cons o rest ih =>
          intro acc opt
          rw [List.foldl_cons, List.map_cons, List.sum_cons]
          cases opt with
          | none =>
              rw [ih acc (some ((bl o).Block))]
              show (acc b + (bl o).Block b) + _ = acc b + ((bl o).Block b + _)
              rw [add_assoc]
          | some ib =>
              rw [ih (gf256_add2_mem acc ib ((bl o).Block)) none]
              show (acc b + (ib b + (bl o).Block b)) + _
                = (acc b + ib b) + ((bl o).Block b + _)
              rw [add_assoc, add_assoc, add_assoc]
    rw [hfold st.Original ((bl (st.Recovery.headD 0)).Block) none]
  · intro p hp
    exact Function.update_noteq hp _ _
/-- The general `Decode` path of the round trip: with `k ≥ 2` supplied
blocks drawn from the originals and the encoder output, every original
index is recovered exactly. -/
theorem Decode_path (params : cm256_encoder_params) (orig : Nat → Shard)
    (region : Shard) (bl : Nat → cm256_block) (st : CM256Decoder)
    (hk : 2 ≤ params.OriginalCount) (hm : 1 ≤ params.RecoveryCount)
    (hB : 1 ≤ params.BlockBytes)
    (hkm : params.OriginalCount + params.RecoveryCount ≤ 256)
    (hidx : ∀ p < params.OriginalCount.toNat,
      (bl p).Index < (params.OriginalCount + params.RecoveryCount).toNat)
    (hdist : ∀ p < params.OriginalCount.toNat, ∀ q < params.OriginalCount.toNat,
      p ≠ q → (bl p).Index ≠ (bl q).Index)
    (horig : ∀ p < params.OriginalCount.toNat,
      (bl p).Index < params.OriginalCount.toNat →
      ∀ b < params.BlockBytes.toNat, (bl p).Block b = orig (bl p).Index b)
    (hrecv : ∀ p < params.OriginalCount.toNat,
      params.OriginalCount.toNat ≤ (bl p).Index →
      ∀ b < params.BlockBytes.toNat,
      (bl p).Block b = (cm256_encode params (some (fun c => ⟨orig c, c⟩))
        (some region)).2
          (((bl p).Index - params.OriginalCount.toNat) * params.BlockBytes.toNat + b))
    (hparams : st.Params = params)
    (horigL : st.Original = (List.range params.OriginalCount.toNat).filter
      (fun p => decide ((bl p).Index < params.OriginalCount.toNat)))
    (hrecovL : st.Recovery = (List.range params.OriginalCount.toNat).filter
      (fun p => !decide ((bl p).Index < params.OriginalCount.toNat)))
    (hcount : ((List.range params.OriginalCount.toNat).filter
      (fun r => decide (∀ p < params.OriginalCount.toNat, (bl p).Index ≠ r))).length
      = st.Recovery.length)
    (herase : ∀ j < st.Recovery.length,
      st.ErasuresIndices j
        = ((List.range params.OriginalCount.toNat).filter
            (fun r => decide (∀ p < params.OriginalCount.toNat,
              (bl p).Index ≠ r))).getD j 0)
    (hN1 : 1 ≤ st.Recovery.length) :
    ∀ r < params.OriginalCount.toNat, ∃ p < params.OriginalCount.toNat,
      ((Decode st bl) p).Index = r ∧
      ∀ b < params.BlockBytes.toNat, ((Decode st bl) p).Block b = orig r b := by
  set k2 := params.OriginalCount.toNat with hk2
  have hk2le : k2 ≤ 255 := by omega
  have hk2ge : 2 ≤ k2 := by omega
  have hposfacts : ∀ a, a < st.Recovery.length → st.Recovery.getD a 0 < k2
      ∧ k2 ≤ (bl (st.Recovery.getD a 0)).Index := by
    intro a ha
    have hmem : st.Recovery.getD a 0 ∈ st.Recovery := getD_mem_of_lt ha
    nth_rewrite 1 [hrecovL] at hmem
    have h1 := List.mem_range.mp (List.mem_of_mem_filter hmem)
    have h2 := List.of_mem_filter hmem
    simp only [Bool.not_eq_eq_eq_not, Bool.not_true, decide_eq_false_iff_not,
      Nat.not_lt] at h2
    exact ⟨h1, h2⟩
  have hrecovNodup : st.Recovery.Nodup := by
    rw [hrecovL]
    exact (List.nodup_range _).filter _
  have hinj : ∀ a < st.Recovery.length, ∀ c < st.Recovery.length, a ≠ c →
      st.Recovery.getD a 0 ≠ st.Recovery.getD c 0 :=
    fun a ha c hc hac => nodup_getD_ne hrecovNodup ha hc hac
  have hxne : ∀ a, a < st.Recovery.length → ∀ c, c < st.Recovery.length → a ≠ c →
      (bl (st.Recovery.getD a 0)).Index ≠ (bl (st.Recovery.getD c 0)).Index := by
    intro a ha c hc hac
    exact hdist _ (hposfacts a ha).1 _ (hposfacts c hc).1 (hinj a ha c hc hac)
  have hmissNodup : ((List.range k2).filter
      (fun r => decide (∀ p < k2, (bl p).Index ≠ r))).Nodup :=
    (List.nodup_range _).filter _
  have hylt : ∀ c, c < st.Recovery.length → st.ErasuresIndices c < k2 := by
    intro c hc
    rw [herase c hc]
    have hmem := getD_mem_of_lt (l := (List.range k2).filter
      (fun r => decide (∀ p < k2, (bl p).Index ≠ r))) (i := c) (by omega)
    exact List.mem_range.mp (List.mem_of_mem_filter hmem)
  have hyne : ∀ a, a < st.Recovery.length → ∀ c, c < st.Recovery.length → a ≠ c →
      st.ErasuresIndices a ≠ st.ErasuresIndices c := by
    intro a ha c hc hac
    rw [herase a ha, herase c hc]
    exact nodup_getD_ne hmissNodup (by omega) (by omega) hac
  have hidxbyte : ∀ p, p < k2 → (bl p).Index < 256 := by
    intro p hp
    have := hidx p hp
    omega
  -- the idealized input: same indices, recovery contents taken from
  -- `cm256_encode_block` on every byte
  set blIdeal : Nat → cm256_block := fun p =>
    if p < k2 then
      { Block := fun bb => if (bl p).Index < k2 then orig (bl p).Index bb
          else cm256_encode_block params (fun c => ⟨orig c, c⟩)
            (params.OriginalCount + (((bl p).Index - k2 : Nat) : Int)) bb,
        Index := (bl p).Index }
    else bl p
    with hBI
  have hIdeq : ∀ p, (blIdeal p).Index = (bl p).Index := by
    intro p
    rw [hBI]
    dsimp only
    by_cases hp : p < k2
    · rw [if_pos hp]
    · rw [if_neg hp]
  have hIBlock_orig : ∀ p, p < k2 → (bl p).Index < k2 →
      ∀ bb, (blIdeal p).Block bb = orig (bl p).Index bb := by
    intro p hp hplt bb
    rw [hBI]
    dsimp only
    rw [if_pos hp]
    dsimp only
    rw [if_pos hplt]
  have hIBlock_recv : ∀ p, p < k2 → k2 ≤ (bl p).Index →
      ∀ bb, (blIdeal p).Block bb = cm256_encode_block params (fun c => ⟨orig c, c⟩)
        (params.OriginalCount + (((bl p).Index - k2 : Nat) : Int)) bb := by
    intro p hp hpge bb
    rw [hBI]
    dsimp only
    rw [if_pos hp]
    dsimp only
    rw [if_neg (by omega)]
  obtain ⟨hret, hslice⟩ := cm256_encode_slice params (fun c => ⟨orig c, c⟩) region
    (by omega) (by omega) (by omega) hkm
  have hBeq : ∀ b, b < params.BlockBytes.toNat →
      ∀ p, (bl p).Block b = (blIdeal p).Block b := by
    intro b hb p
    by_cases hp : p < k2
    · by_cases hplt : (bl p).Index < k2
      · rw [hIBlock_orig p hp hplt b]
        exact horig p hp hplt b hb
      · rw [hIBlock_recv p hp (by omega) b,
          ← hslice ((bl p).Index - k2) (by have := hidx p hp; omega) b hb]
        exact hrecv p hp (by omega) b hb
    · rw [hBI]
      dsimp only
      rw [if_neg hp]
  have hdisjOR : ∀ o ∈ st.Original, o ∉ st.Recovery := by
    intro o ho hmem
    rw [horigL] at ho
    rw [hrecovL] at hmem
    have h1 := List.of_mem_filter ho
    have h2 := List.of_mem_filter hmem
    simp only [decide_eq_true_eq] at h1
    simp only [Bool.not_eq_eq_eq_not, Bool.not_true, decide_eq_false_iff_not,
      Nat.not_lt] at h2
    omega
  have hxyI : ∀ a, a < st.Recovery.length → ∀ c, c < st.Recovery.length →
      byteOf (blIdeal (st.Recovery.getD a 0)).Index
        + byteOf (st.ErasuresIndices c) ≠ 0 := by
    intro a ha c hc
    rw [hIdeq]
    exact byteOf_add_ne_zero (hidxbyte _ (hposfacts a ha).1)
      (by have := hylt c hc; omega)
      (by have := (hposfacts a ha).2; have := hylt c hc; omega)
  have hxxI : ∀ a, a < st.Recovery.length → ∀ c, c < st.Recovery.length → a ≠ c →
      byteOf (blIdeal (st.Recovery.getD a 0)).Index
        + byteOf (blIdeal (st.Recovery.getD c 0)).Index ≠ 0 := by
    intro a ha c hc hac
    rw [hIdeq, hIdeq]
    exact byteOf_add_ne_zero (hidxbyte _ (hposfacts a ha).1)
      (hidxbyte _ (hposfacts c hc).1) (hxne a ha c hc hac)
  have hyyI : ∀ a, a < st.Recovery.length → ∀ c, c < st.Recovery.length → a ≠ c →
      byteOf (st.ErasuresIndices a) + byteOf (st.ErasuresIndices c) ≠ 0 := by
    intro a ha c hc hac
    exact byteOf_add_ne_zero (by have := hylt a ha; omega)
      (by have := hylt c hc; omega) (hyne a ha c hc hac)
  have hx0yI : ∀ c, c < st.Recovery.length →
      byteOf st.Params.OriginalCount.toNat + byteOf (st.ErasuresIndices c) ≠ 0 := by
    intro c hc
    rw [hparams]
    exact byteOf_add_ne_zero (by omega) (by have := hylt c hc; omega)
      (by have := hylt c hc; omega)
  have hVC : ∀ t, t < st.Recovery.length → ∀ bb,
      (blIdeal (st.Recovery.getD t 0)).Block bb
        + (st.Original.map fun o => GetMatrixElement
            (byteOf (blIdeal (st.Recovery.getD t 0)).Index)
            (byteOf st.Params.OriginalCount.toNat)
            (byteOf (blIdeal o).Index) * (blIdeal o).Block bb).sum
      = ∑ s ∈ Finset.range st.Recovery.length,
          GetMatrixElement (byteOf (blIdeal (st.Recovery.getD t 0)).Index)
            (byteOf st.Params.OriginalCount.toNat) (byteOf (st.ErasuresIndices s))
            * orig (st.ErasuresIndices s) bb := by
    intro t ht bb
    obtain ⟨hrt1, hrt2⟩ := hposfacts t ht
    rw [hIdeq (st.Recovery.getD t 0), hIBlock_recv _ hrt1 hrt2 bb,
      encode_block_sum params (fun c => ⟨orig c, c⟩)
        ((bl (st.Recovery.getD t 0)).Index - k2) hk hm hkm bb]
    rw [show k2 + ((bl (st.Recovery.getD t 0)).Index - k2)
        = (bl (st.Recovery.getD t 0)).Index from by omega]
    have hmapc : st.Original.map (fun o => GetMatrixElement
          (byteOf (bl (st.Recovery.getD t 0)).Index)
          (byteOf st.Params.OriginalCount.toNat)
          (byteOf (blIdeal o).Index) * (blIdeal o).Block bb)
        = st.Original.map (fun o => GetMatrixElement
            (byteOf (bl (st.Recovery.getD t 0)).Index) (byteOf k2)
            (byteOf (bl o).Index) * orig ((bl o).Index) bb) := by
      refine List.map_congr_left (fun o ho => ?_)
      rw [horigL] at ho
      have ho1 := List.mem_range.mp (List.mem_of_mem_filter ho)
      have ho2 : (bl o).Index < k2 := by
        have := List.of_mem_filter ho
        simpa using this
      rw [hIdeq o, hIBlock_orig o ho1 ho2 bb, hparams]
    rw [hmapc, horigL]
    have hsms := supplied_missing_sum k2 bl hdist
      (fun c => GetMatrixElement (byteOf (bl (st.Recovery.getD t 0)).Index)
        (byteOf k2) (byteOf c) * orig c bb)
    dsimp only at hsms ⊢
    rw [hsms, hcount]
    refine Finset.sum_congr rfl (fun s hs => ?_)
    rw [← herase s (Finset.mem_range.mp hs), hparams]
  obtain ⟨hdm, hdu⟩ := Decode_spec st blIdeal
    (fun i => byteOf (blIdeal (st.Recovery.getD i 0)).Index)
    (fun j => byteOf (st.ErasuresIndices j))
    (byteOf st.Params.OriginalCount.toNat)
    hN1 hrecovNodup hdisjOR hinj rfl rfl rfl
    hxyI hxxI hyyI hx0yI
    (fun s => orig (st.ErasuresIndices s))
    hVC
  intro r hr
  by_cases hsupp : ∀ p, p < k2 → (bl p).Index ≠ r
  · have hrmem : r ∈ (List.range k2).filter
        (fun r => decide (∀ p < k2, (bl p).Index ≠ r)) :=
      List.mem_filter.mpr ⟨List.mem_range.mpr hr, decide_eq_true hsupp⟩
    obtain ⟨s, hslen, hsval⟩ := List.mem_iff_getElem.mp hrmem
    have hsN : s < st.Recovery.length := by omega
    have hsget : ((List.range k2).filter
        (fun r => decide (∀ p < k2, (bl p).Index ≠ r))).getD s 0 = r := by
      rw [List.getD_eq_getElem _ _ hslen]
      exact hsval
    refine ⟨st.Recovery.getD s 0, (hposfacts s hsN).1, ?_, ?_⟩
    · have hagree := Decode_byte_agree st 0 bl blIdeal
        (fun p => (hIdeq p).symm) (fun p => hBeq 0 (by omega) p)
      rw [(hagree (st.Recovery.getD s 0)).1, (hdm s hsN).1, herase s hsN, hsget]
    · intro b hb
      have hagree := Decode_byte_agree st b bl blIdeal
        (fun p => (hIdeq p).symm) (fun p => hBeq b hb p)
      rw [(hagree (st.Recovery.getD s 0)).2, (hdm s hsN).2 b, herase s hsN, hsget]
  · push_neg at hsupp
    obtain ⟨p, hp, hpidx⟩ := hsupp
    have hpnotrec : ∀ t, t < st.Recovery.length → p ≠ st.Recovery.getD t 0 := by
      intro t ht heq
      have h2 := (hposfacts t ht).2
      rw [← heq] at h2
      omega
    refine ⟨p, hp, ?_, ?_⟩
    · have hagree := Decode_byte_agree st 0 bl blIdeal
        (fun p => (hIdeq p).symm) (fun p => hBeq 0 (by omega) p)
      rw [(hagree p).1, hdu p hpnotrec, hIdeq p, hpidx]
    · intro b hb
      have hagree := Decode_byte_agree st b bl blIdeal
        (fun p => (hIdeq p).symm) (fun p => hBeq b hb p)
      rw [(hagree p).2, hdu p hpnotrec, hIBlock_orig p hp (by omega) b, hpidx]
/-- C1: for every valid parameter triple with `k ≥ 1`, `m ≥ 1`, `B ≥ 1`
and `k + m ≤ 256`, and all original contents: if the caller supplies `k`
distinct-indexed blocks, each either an original (with its original
contents) or a recovery shard produced by `cm256_encode` (with the
corresponding slice of the recovery region), then `cm256_decode` returns
0 and afterwards, for every original index `r < k`, some supplied block
carries index `r` and its buffer equals the `r`-th original shard byte
for byte. -/
theorem claim_C1 (params : cm256_encoder_params) (orig : Nat → Shard)
    (region : Shard) (bl : Nat → cm256_block)
    (hk : 0 < params.OriginalCount) (hm : 0 < params.RecoveryCount)
    (hB : 0 < params.BlockBytes)
    (hkm : params.OriginalCount + params.RecoveryCount ≤ 256)
    (hidx : ∀ p < params.OriginalCount.toNat,
      (bl p).Index < (params.OriginalCount + params.RecoveryCount).toNat)
    (hdist : ∀ p < params.OriginalCount.toNat, ∀ q < params.OriginalCount.toNat,
      p ≠ q → (bl p).Index ≠ (bl q).Index)
    (horig : ∀ p < params.OriginalCount.toNat,
      (bl p).Index < params.OriginalCount.toNat →
      ∀ b < params.BlockBytes.toNat, (bl p).Block b = orig (bl p).Index b)
    (hrecv : ∀ p < params.OriginalCount.toNat,
      params.OriginalCount.toNat ≤ (bl p).Index →
      ∀ b < params.BlockBytes.toNat,
      (bl p).Block b = (cm256_encode params (some (fun c => ⟨orig c, c⟩))
        (some region)).2
          (((bl p).Index - params.OriginalCount.toNat) * params.BlockBytes.toNat + b)) :
    (cm256_decode params (some bl)).1 = 0 ∧
    ∀ r < params.OriginalCount.toNat, ∃ p < params.OriginalCount.toNat,
      ((cm256_decode params (some bl)).2 p).Index = r ∧
      ∀ b < params.BlockBytes.toNat,
        ((cm256_decode params (some bl)).2 p).Block b = orig r b := by
  have hcond1 : ¬(params.OriginalCount ≤ 0 ∨ params.RecoveryCount ≤ 0 ∨
      params.BlockBytes ≤ 0) := by omega
  have hcond2 : ¬(256 < params.OriginalCount + params.RecoveryCount) := by omega
  by_cases h1 : params.OriginalCount = 1
  · -- single-original shortcut of cm256_decode
    have hdec : cm256_decode params (some bl)
        = (0, Function.update bl 0 { bl 0 with Index := 0 }) := by
      unfold cm256_decode
      rw [if_neg hcond1, if_neg hcond2]
      dsimp only
      rw [if_pos h1]
    rw [hdec]
    refine ⟨rfl, ?_⟩
    intro r hr
    have hk21 : params.OriginalCount.toNat = 1 := by omega
    have hr0 : r = 0 := by omega
    refine ⟨0, by omega, ?_, ?_⟩
    · show (Function.update bl 0 { bl 0 with Index := 0 } 0).Index = r
      rw [Function.update_same]
      show 0 = r
      omega
    · intro b hb
      show (Function.update bl 0 { bl 0 with Index := 0 } 0).Block b = orig r b
      rw [Function.update_same]
      show (bl 0).Block b = orig r b
      by_cases hlt : (bl 0).Index < params.OriginalCount.toNat
      · rw [horig 0 (by omega) hlt b hb]
        rw [show (bl 0).Index = 0 from by omega, hr0]
      · obtain ⟨hret, hslice⟩ := cm256_encode_slice params (fun c => ⟨orig c, c⟩)
          region hk hm hB hkm
        rw [hrecv 0 (by omega) (by omega) b hb,
          hslice ((bl 0).Index - params.OriginalCount.toNat)
            (by have := hidx 0 (by omega); omega) b hb]
        unfold cm256_encode_block
        rw [if_pos h1, hr0]
  · have hk2' : 2 ≤ params.OriginalCount := by omega
    obtain ⟨st, hInit, hparams, horigL, hrecovL, hcount, herase⟩ :=
      Initialize_full params bl hk (by omega) hdist
    have hdec : cm256_decode params (some bl)
        = if st.Recovery.length = 0 then (0, bl)
          else if params.RecoveryCount = 1 then (0, DecodeM1 st bl)
          else (0, Decode st bl) := by
      unfold cm256_decode
      rw [if_neg hcond1, if_neg hcond2]
      dsimp only
      rw [if_neg h1, hInit]
    by_cases hlen0 : st.Recovery.length = 0
    · -- every original supplied: decode leaves the array untouched
      rw [hdec, if_pos hlen0]
      refine ⟨rfl, ?_⟩
      have hall : ∀ p < params.OriginalCount.toNat,
          (bl p).Index < params.OriginalCount.toNat := by
        intro p hp
        have hnil : (List.range params.OriginalCount.toNat).filter
            (fun p => !decide ((bl p).Index < params.OriginalCount.toNat)) = [] := by
          rw [← hrecovL]
          exact List.length_eq_zero.mp hlen0
        by_contra hge
        have hmem : p ∈ (List.range params.OriginalCount.toNat).filter
            (fun p => !decide ((bl p).Index < params.OriginalCount.toNat)) :=
          List.mem_filter.mpr ⟨List.mem_range.mpr hp, by simp [hge]⟩
        rw [hnil] at hmem
        exact absurd hmem (List.not_mem_nil p)
      have hfm : ∀ (p : Nat) (hp : p ∈ Finset.range params.OriginalCount.toNat),
          (fun (p : Nat) (_ : p ∈ Finset.range params.OriginalCount.toNat) =>
            (bl p).Index) p hp ∈ Finset.range params.OriginalCount.toNat := by
        intro p hp
        exact Finset.mem_range.mpr (hall p (Finset.mem_range.mp hp))
      have hsurj := Finset.surj_on_of_inj_on_of_card_le
        (fun (p : Nat) (_ : p ∈ Finset.range params.OriginalCount.toNat) =>
          (bl p).Index) hfm
        (by
          intro p q hp hq he
          by_contra hne
          exact hdist p (Finset.mem_range.mp hp) q (Finset.mem_range.mp hq) hne he)
        (le_refl _)
      intro r hr
      obtain ⟨p, hpm, hpr⟩ := hsurj r (Finset.mem_range.mpr hr)
      have hpr' : r = (bl p).Index := hpr
      have hp : p < params.OriginalCount.toNat := Finset.mem_range.mp hpm
      refine ⟨p, hp, ?_, ?_⟩
      · show (bl p).Index = r
        exact hpr'.symm
      · intro b hb
        show (bl p).Block b = orig r b
        rw [horig p hp (hall p hp) b hb, ← hpr']
    · have hN1 : 1 ≤ st.Recovery.length := by omega
      by_cases hm1 : params.RecoveryCount = 1
      · -- single recovery row: DecodeM1 path
        rw [hdec, if_neg hlen0, if_pos hm1]
        refine ⟨rfl, ?_⟩
        have hmem_idx : ∀ p ∈ st.Recovery,
            p < params.OriginalCount.toNat
              ∧ (bl p).Index = params.OriginalCount.toNat := by
          intro p hpmem
          rw [hrecovL] at hpmem
          have h1' := List.mem_range.mp (List.mem_of_mem_filter hpmem)
          have h2' := List.of_mem_filter hpmem
          simp only [Bool.not_eq_eq_eq_not, Bool.not_true, decide_eq_false_iff_not,
            Nat.not_lt] at h2'
          have h3' := hidx p h1'
          exact ⟨h1', by omega⟩
        have hrecovNodup : st.Recovery.Nodup := by
          rw [hrecovL]
          exact (List.nodup_range _).filter _
        have hlen1 : st.Recovery.length = 1 := by
          by_contra hne
          have h2le : 2 ≤ st.Recovery.length := by omega
          have ha := hmem_idx _ (getD_mem_of_lt
            (show 0 < st.Recovery.length by omega))
          have hb' := hmem_idx _ (getD_mem_of_lt
            (show 1 < st.Recovery.length by omega))
          exact hdist _ ha.1 _ hb'.1
            (nodup_getD_ne hrecovNodup (by omega) (by omega) (by omega))
            (by rw [ha.2, hb'.2])
        have hmisslen : ((List.range params.OriginalCount.toNat).filter
            (fun r => decide (∀ p < params.OriginalCount.toNat,
              (bl p).Index ≠ r))).length = 1 := by
          rw [hcount, hlen1]
        obtain ⟨hIdx1, hBlk1, huntouched⟩ := DecodeM1_spec st bl
        set rp := st.Recovery.headD 0 with hrp
        have hrpget : rp = st.Recovery.getD 0 0 := headD_eq_getD _
        have hrpfacts := hmem_idx rp (by
          rw [hrpget]
          exact getD_mem_of_lt (by omega))
        have hrpBlock : ∀ b < params.BlockBytes.toNat,
            ((DecodeM1 st bl) rp).Block b = orig (st.ErasuresIndices 0) b := by
          intro b hb
          rw [hBlk1 b]
          have hown : (bl rp).Block b
              = ∑ c ∈ Finset.range params.OriginalCount.toNat, orig c b := by
            rw [hrecv rp hrpfacts.1 (by omega) b hb]
            obtain ⟨hret, hslice⟩ := cm256_encode_slice params (fun c => ⟨orig c, c⟩)
              region hk hm hB hkm
            rw [hrpfacts.2, show params.OriginalCount.toNat
                - params.OriginalCount.toNat = 0 from by omega,
              hslice 0 (by omega) b hb,
              encode_block_sum params (fun c => ⟨orig c, c⟩) 0 hk2' hm hkm b]
            refine Finset.sum_congr rfl (fun c hc => ?_)
            have hc' := Finset.mem_range.mp hc
            rw [Nat.add_zero,
              GetMatrixElement_diag _ _ (byteOf_add_ne_zero (by omega) (by omega)
                (by omega)), one_mul]
          have hsup : (st.Original.map fun o => (bl o).Block b).sum
              = (((List.range params.OriginalCount.toNat).filter
                  (fun p => decide ((bl p).Index < params.OriginalCount.toNat))).map
                  (fun o => orig ((bl o).Index) b)).sum := by
            rw [horigL]
            refine congrArg List.sum (List.map_congr_left (fun o ho => ?_))
            have ho1 := List.mem_range.mp (List.mem_of_mem_filter ho)
            have ho2 : (bl o).Index < params.OriginalCount.toNat := by
              have := List.of_mem_filter ho
              simpa using this
            exact horig o ho1 ho2 b hb
          rw [hown, hsup]
          have hsms := supplied_missing_sum params.OriginalCount.toNat bl hdist
            (fun c => orig c b)
          dsimp only at hsms
          rw [hsms, hmisslen, Finset.sum_range_one, ← herase 0 (by omega)]
        intro r hr
        by_cases hsupp : ∀ p, p < params.OriginalCount.toNat → (bl p).Index ≠ r
        · have hrmem : r ∈ (List.range params.OriginalCount.toNat).filter
              (fun r => decide (∀ p < params.OriginalCount.toNat,
                (bl p).Index ≠ r)) :=
            List.mem_filter.mpr ⟨List.mem_range.mpr hr, decide_eq_true hsupp⟩
          obtain ⟨s, hslen, hsval⟩ := List.mem_iff_getElem.mp hrmem
          rw [hmisslen] at hslen
          have hrE : st.ErasuresIndices 0 = r := by
            rw [herase 0 (by omega),
              List.getD_eq_getElem _ _ (by rw [hmisslen]; omega)]
            have hs0 : s = 0 := by omega
            subst hs0
            exact hsval
          refine ⟨rp, hrpfacts.1, ?_, ?_⟩
          · show ((DecodeM1 st bl) rp).Index = r
            rw [hIdx1, hrE]
          · intro b hb
            show ((DecodeM1 st bl) rp).Block b = orig r b
            rw [hrpBlock b hb, hrE]
        · push_neg at hsupp
          obtain ⟨p, hp, hpidx⟩ := hsupp
          have hprp : p ≠ rp := by
            intro he
            rw [he, hrpfacts.2] at hpidx
            omega
          refine ⟨p, hp, ?_, ?_⟩
          · show ((DecodeM1 st bl) p).Index = r
            rw [huntouched p hprp, hpidx]
          · intro b hb
            show ((DecodeM1 st bl) p).Block b = orig r b
            rw [huntouched p hprp, horig p hp (by omega) b hb, hpidx]
      · -- general elimination path
        rw [hdec, if_neg hlen0, if_neg hm1]
        refine ⟨rfl, ?_⟩
        exact Decode_path params orig region bl st hk2' (by omega) (by omega) hkm
          hidx hdist horig hrecv hparams horigL hrecovL hcount herase hN1

/-- Witness for C1 at `k = m = B = 1` with the single original supplied. -/
theorem claim_C1_witness :
    (cm256_decode ⟨1, 1, 1⟩ (some (fun _ => ⟨fun _ => byteOf 7, 0⟩))).1 = 0 ∧
    ((cm256_decode ⟨1, 1, 1⟩ (some (fun _ => ⟨fun _ => byteOf 7, 0⟩))).2 0).Index = 0 ∧
    ((cm256_decode ⟨1, 1, 1⟩ (some (fun _ => ⟨fun _ => byteOf 7, 0⟩))).2 0).Block 0
      = byteOf 7 := by
  obtain ⟨h0, hrec⟩ := claim_C1 ⟨1, 1, 1⟩ (fun _ _ => byteOf 7) (fun _ => 0)
    (fun _ => ⟨fun _ => byteOf 7, 0⟩)
    (by decide) (by decide) (by decide) (by decide)
    (by decide)
    (by decide)
    (fun p hp hlt b hb => rfl)
    (fun p hp hge b hb => absurd hge (Nat.not_succ_le_zero 0))
  obtain ⟨p, hp, hIdx, hBlk⟩ := hrec 0 (by decide)
  have hp' : p < 1 := hp
  have hp0 : p = 0 := by omega
  subst hp0
  exact ⟨h0, hIdx, hBlk 0 (by decide)⟩

end CM256
